import Mathlib

/-!
# XPRESS-Loader, `MPLAB.X/lvp-gs706.c`: bit-banged ICSP for the dsPIC33EP128GS706

Shallow embedding of the low-voltage-programming driver.

* Every store to a port latch, direction register or LED, every busy-wait and
  every sample of the data line is one `Act`; a C function that only drives the
  pins is the list of `Act`s it performs, in program order.
* The module-level variables `row`, `row_address` and `lvp` are the fields of
  `LVP`, together with the pin activity emitted so far (`out`).
* `uint8_t`, `uint16_t`, `uint24_t` and `uint32_t` values are `Nat`s, reduced
  modulo `2^8`, `2^16`, `2^24`, `2^32` where the C code can wrap.
-/

namespace LvpGs706

/-! ## Device parameters -/

/-- Address of the configuration words area (`#define CFG_ADDRESS 0x015780`). -/
def CFG_ADDRESS : Nat := 0x015780

/-- Width of a flash row in words (`#define ROW_SIZE 64`). -/
def ROW_SIZE : Nat := 64

/-- Bulk erase time in ms (`#define BULK_TIME 30`). -/
def BULK_TIME : Nat := 30

/-- Memory write time in ms (`#define WRITE_TIME 1`). -/
def WRITE_TIME : Nat := 1

/-- ICSP serial command `SIX`. -/
def SIX : Nat := 0

/-- ICSP serial command `REGOUT`. -/
def REGOUT : Nat := 1

/-! ## Pin-level activity -/

/-- Levels written to the reset line; the macros come from `lvp.h`. -/
inductive Level where
  | SLAVE_RESET
  | SLAVE_RUN
  deriving DecidableEq, Repr

/-- Pin directions; the macros come from `lvp.h`. -/
inductive Dir where
  | INPUT_PIN
  | OUTPUT_PIN
  deriving DecidableEq, Repr

/-- The two status indicators of `leds.h`. -/
inductive Led where
  | RED_LED
  | GREEN_LED
  deriving DecidableEq, Repr

/-- One hardware-visible action of the driver. -/
inductive Act where
  /-- The store `ICSP_nMCLR = l` -/
  | nMCLR (l : Level)
  /-- The store `ICSP_TRIS_nMCLR = d` -/
  | TRIS_nMCLR (d : Dir)
  /-- The store `ICSP_TRIS_DAT = d` -/
  | TRIS_DAT (d : Dir)
  /-- The store `ICSP_TRIS_CLK = d` -/
  | TRIS_CLK (d : Dir)
  /-- The store `ICSP_DAT = b` -/
  | DAT (b : Bool)
  /-- The store `ICSP_CLK = b` -/
  | CLK (b : Bool)
  /-- one read of `ICSP_DAT_IN`, which returned `b` -/
  | DAT_IN (b : Bool)
  /-- The store `RCSTAbits.SPEN = b` -/
  | SPEN (b : Bool)
  /-- The call `__delay_us(n)` -/
  | delay_us (n : Nat)
  /-- The call `__delay_ms(n)` -/
  | delay_ms (n : Nat)
  /-- The call `LED_On(l)` -/
  | LED_On (l : Led)
  /-- The call `LED_Off(l)` -/
  | LED_Off (l : Led)
  deriving DecidableEq, Repr

open Act Level Dir Led

/-- What the target sees on the serial link: scanning the activity with the
current clock and data levels, the data level is recorded at every change of
the clock from low to high. -/
def clockedBits : Bool → Bool → List Act → List Bool
  | _, _, [] => []
  | clk, _, DAT b :: rest => clockedBits clk b rest
  | clk, dat, CLK b :: rest =>
      if !clk && b then dat :: clockedBits b dat rest else clockedBits b dat rest
  | clk, dat, _ :: rest => clockedBits clk dat rest

/-- Number of rising clock edges in the activity, the clock starting at `clk`. -/
def clockPulses : Bool → List Act → Nat
  | _, [] => 0
  | clk, CLK b :: rest => (if !clk && b then 1 else 0) + clockPulses b rest
  | clk, _ :: rest => clockPulses clk rest

/-- Clock and data levels after the activity, from the levels `(clk, dat)`
before it. -/
def lineAfter : Bool × Bool → List Act → Bool × Bool
  | l, [] => l
  | l, DAT b :: rest => lineAfter (l.1, b) rest
  | l, CLK b :: rest => lineAfter (b, l.2) rest
  | l, _ :: rest => lineAfter l rest

/-! ## Bit transport -/

/-- The C function `ICSP_slaveReset` -/
def ICSP_slaveReset : List Act :=
  [nMCLR SLAVE_RESET, TRIS_nMCLR OUTPUT_PIN]

/-- The C function `ICSP_slaveRun` -/
def ICSP_slaveRun : List Act :=
  [nMCLR SLAVE_RUN, TRIS_nMCLR OUTPUT_PIN]

/-- The C function `ICSP_init` -/
def ICSP_init : List Act :=
  [SPEN false, delay_us 1, TRIS_DAT INPUT_PIN, CLK false, TRIS_CLK OUTPUT_PIN] ++ ICSP_slaveRun

/-- The C function `ICSP_release` -/
def ICSP_release : List Act :=
  [TRIS_DAT INPUT_PIN, TRIS_CLK INPUT_PIN] ++ ICSP_slaveRun

/-- Body of the `for` loop of `ICSP_controlCode`, with `n` iterations left. -/
def ICSP_controlCode_loop : Nat → Nat → List Act
  | 0, _ => []
  | n + 1, type =>
      [DAT (type &&& 0x01 != 0), delay_us 1, CLK true, delay_us 1, CLK false]
        ++ ICSP_controlCode_loop n (type >>> 1)

/-- The C function `ICSP_controlCode(uint8_t type)` -/
def ICSP_controlCode (type : Nat) : List Act :=
  [TRIS_DAT OUTPUT_PIN] ++ ICSP_controlCode_loop 4 type ++ [delay_us 1]

/-- Body of the `for` loop of `ICSP_sendWord`, with `n` iterations left;
`w` is a `uint16_t`, so the left shift wraps at 16 bits. -/
def ICSP_sendWord_loop : Nat → Nat → List Act
  | 0, _ => []
  | n + 1, w =>
      [DAT (decide (w &&& 0x8000 > 0)), delay_us 1, CLK true, delay_us 1, CLK false]
        ++ ICSP_sendWord_loop n ((w <<< 1) % 2 ^ 16)

/-- The C function `ICSP_sendWord(uint16_t w)` -/
def ICSP_sendWord (w : Nat) : List Act :=
  [TRIS_DAT OUTPUT_PIN] ++ ICSP_sendWord_loop 16 w

/-- Body of the `for` loop of `ICSP_sendData24`, with `n` iterations left. -/
def ICSP_sendData24_loop : Nat → Nat → List Act
  | 0, _ => []
  | n + 1, data =>
      [DAT (data &&& 0x000001 != 0), delay_us 1, CLK true, delay_us 1, CLK false]
        ++ ICSP_sendData24_loop n (data >>> 1)

/-- The C function `ICSP_sendData24(uint24_t data)` -/
def ICSP_sendData24 (data : Nat) : List Act :=
  [TRIS_DAT OUTPUT_PIN] ++ ICSP_sendData24_loop 24 data ++ [delay_us 1]

/-- The C function `ICSP_Cmd(uint24_t data)` -/
def ICSP_Cmd (data : Nat) : List Act :=
  ICSP_controlCode SIX ++ ICSP_sendData24 data

/-- Body of the `for` loop of `ICSP_getWord`: `n` iterations left, `i` the loop
counter, `dat_in i` the level the data line presents when iteration `i` reads
`ICSP_DAT_IN`; returns the final `w` and the pin activity. -/
def ICSP_getWord_loop (dat_in : Nat → Bool) : Nat → Nat → Nat → Nat × List Act
  | 0, _, w => (w, [])
  | n + 1, i, w =>
      let w1 := w >>> 1
      let w2 := w1 ||| (if dat_in i then 0x8000 else 0)
      let r := ICSP_getWord_loop dat_in n (i + 1) w2
      (r.1, [CLK true, delay_us 1, DAT_IN (dat_in i), CLK false, delay_us 1] ++ r.2)

/-- The C function `ICSP_getWord()`: the returned word and the pin activity. -/
def ICSP_getWord (dat_in : Nat → Bool) : Nat × List Act :=
  let r := ICSP_getWord_loop dat_in 16 0 0
  (r.1, [TRIS_DAT INPUT_PIN] ++ r.2)

/-- The five extra clock cycles at the end of `ICSP_signature`, and the eight of
`ICSP_readVISI`: `n` iterations of clock high, wait, clock low, wait. -/
def clockCycles : Nat → List Act
  | 0 => []
  | n + 1 => [CLK true, delay_us 1, CLK false, delay_us 1] ++ clockCycles n

/-- The C function `ICSP_signature` -/
def ICSP_signature : List Act :=
  ICSP_slaveReset ++ [delay_ms 1] ++ ICSP_slaveRun ++ [delay_us 250]
    ++ ICSP_slaveReset ++ [delay_ms 1]
    ++ ICSP_sendWord 0x4D43 ++ ICSP_sendWord 0x4851 ++ [delay_us 1]
    ++ ICSP_slaveRun
    ++ List.replicate 55 (delay_ms 1)
    ++ clockCycles 5

/-! ## Instruction encoder and command sequences -/

/-- The C function `ICSP_exitResetVector` -/
def ICSP_exitResetVector : List Act :=
  ICSP_Cmd 0 ++ ICSP_Cmd 0 ++ ICSP_Cmd 0 ++ ICSP_Cmd 0x040200
    ++ ICSP_Cmd 0 ++ ICSP_Cmd 0 ++ ICSP_Cmd 0

/-- The C function `ICSP_unlockWR` -/
def ICSP_unlockWR : List Act :=
  ICSP_Cmd 0x200551 ++ ICSP_Cmd 0x883971 ++ ICSP_Cmd 0x200AA1 ++ ICSP_Cmd 0x883971
    ++ ICSP_Cmd 0xA8E729 ++ ICSP_Cmd 0 ++ ICSP_Cmd 0 ++ ICSP_Cmd 0

/-- The C function `ICSP_readVISI()`: the word read back and the pin activity. -/
def ICSP_readVISI (dat_in : Nat → Bool) : Nat × List Act :=
  let r := ICSP_getWord dat_in
  (r.1, ICSP_controlCode REGOUT ++ clockCycles 8 ++ r.2)

/-- The C function `ICSP_bulkErase` -/
def ICSP_bulkErase : List Act :=
  ICSP_exitResetVector ++ ICSP_Cmd 0x2400EA ++ ICSP_Cmd 0x88394A ++ ICSP_Cmd 0 ++ ICSP_Cmd 0
    ++ ICSP_unlockWR ++ List.replicate BULK_TIME (delay_ms 1)

/-- The C function `ICSP_addressLoad(uint24_t address)`.  In
`0x200003 + (destAddressLow) << 4` the addition binds tighter than the shift; the
sum is shifted as a 32-bit `long` and converted to the `uint24_t` parameter of
`ICSP_Cmd`. -/
def ICSP_addressLoad (address : Nat) : List Act :=
  let destAddressHigh := (address >>> 16) &&& 0xff
  let destAddressLow := address &&& 0xffff
  ICSP_exitResetVector
    ++ ICSP_Cmd 0x200FAC ++ ICSP_Cmd 0x883B0A
    ++ ICSP_Cmd ((((0x200003 + destAddressLow) <<< 4) % 2 ^ 32) % 2 ^ 24)
    ++ ICSP_Cmd ((((0x200004 + destAddressHigh) <<< 4) % 2 ^ 32) % 2 ^ 24)
    ++ ICSP_Cmd 0x883953 ++ ICSP_Cmd 0x883964
    ++ ICSP_Cmd 0x24001A ++ ICSP_Cmd 0 ++ ICSP_Cmd 0x883B0A ++ ICSP_Cmd 0 ++ ICSP_Cmd 0

/-- The instruction word `sendSIXMov` hands to `ICSP_Cmd`:
`0x200000 + (word << 4) + reg`, converted to `uint24_t`. -/
def sendSIXMov_word (lit reg : Nat) : Nat :=
  let word := lit
  (0x200000 + (word <<< 4) + reg) % 2 ^ 24

/-- The C function `sendSIXMov(uint16_t lit, uint8_t reg)` -/
def sendSIXMov (lit reg : Nat) : List Act :=
  ICSP_Cmd (sendSIXMov_word lit reg)

/-- Body of the `for` loop of `ICSP_rowWrite`: `n` iterations left, `p` the
number of words `buffer` has advanced.  A read beyond the list yields 0. -/
def ICSP_rowWrite_loop (buffer : List Nat) : Nat → Nat → List Act
  | 0, _ => []
  | n + 1, p =>
      let LSW0 := buffer.getD p 0
      let MSB0 := buffer.getD (p + 1) 0
      let LSW1 := buffer.getD (p + 2) 0
      let MSB1 := buffer.getD (p + 3) 0
      sendSIXMov LSW0 0
        ++ sendSIXMov ((((MSB1 &&& 0xFF) <<< 8) + (MSB0 &&& 0xFF)) % 2 ^ 16) 1
        ++ sendSIXMov LSW1 2
        ++ ICSP_Cmd 0xEB0300 ++ ICSP_Cmd 0
        ++ ICSP_Cmd 0xBB0BB6 ++ ICSP_Cmd 0 ++ ICSP_Cmd 0
        ++ ICSP_Cmd 0xBBDBB6 ++ ICSP_Cmd 0 ++ ICSP_Cmd 0
        ++ ICSP_Cmd 0xBBEBB6 ++ ICSP_Cmd 0 ++ ICSP_Cmd 0
        ++ ICSP_Cmd 0xBB1BB6 ++ ICSP_Cmd 0 ++ ICSP_Cmd 0
        ++ ICSP_rowWrite_loop buffer n (p + 4)

/-- The C function `ICSP_rowWrite(uint16_t *buffer, uint8_t count)` -/
def ICSP_rowWrite (buffer : List Nat) (count : Nat) : List Act :=
  ICSP_Cmd 0xEB0380 ++ ICSP_Cmd 0x000000
    ++ ICSP_rowWrite_loop buffer (count / 4) 0
    ++ ICSP_unlockWR ++ [delay_ms WRITE_TIME]

/-! ## Session state and row assembler -/

/-- The module-level variables, the pin activity emitted so far, and a flag
that records a store beyond `row[ROW_SIZE - 1]`. -/
structure LVP where
  /-- The variable `uint16_t row[ROW_SIZE]` -/
  row : List Nat
  /-- The variable `uint32_t row_address` -/
  row_address : Nat
  /-- The variable `bool lvp` -/
  lvp : Bool
  /-- pin activity so far, oldest first -/
  out : List Act
  /-- set once `row[index]` has been stored with `index >= ROW_SIZE` -/
  overrun : Bool
  deriving DecidableEq, Repr

/-- The `uint32_t` value of `-1`, the unset row address. -/
def ROW_UNSET : Nat := 0xFFFFFFFF

/-- The buffer after `memset((void*) row, 0xff, sizeof (row))` -/
def blankRow : List Nat := List.replicate ROW_SIZE 0xFFFF

/-- Append pin activity to the state. -/
def LVP.emit (s : LVP) (acts : List Act) : LVP :=
  { s with out := s.out ++ acts }

/-- The C function `LVP_enter` -/
def LVP_enter (s : LVP) : LVP :=
  let s := s.emit [LED_On RED_LED, LED_Off GREEN_LED]
  let s := s.emit ICSP_init
  let s := s.emit ICSP_signature
  { s with row := blankRow, row_address := ROW_UNSET, lvp := true }

/-- The C function `LVP_exit` -/
def LVP_exit (s : LVP) : LVP :=
  let s := s.emit ICSP_slaveReset
  let s := s.emit [delay_ms 1]
  let s := s.emit ICSP_release
  let s := { s with lvp := false }
  s.emit [LED_Off RED_LED, LED_On GREEN_LED]

/-- The C function `LVP_inProgress` -/
def LVP_inProgress (s : LVP) : Bool :=
  s.lvp

/-- The C function `LVP_write`; `row_address << 1` is a `uint32_t` converted to
the `uint24_t` parameter of `ICSP_addressLoad`. -/
def LVP_write (s : LVP) : LVP :=
  let s := if !LVP_inProgress s then (LVP_enter s).emit ICSP_bulkErase else s
  if s.row_address == ROW_UNSET then
    s
  else if s.row_address ≥ CFG_ADDRESS then
    s.emit (ICSP_addressLoad (((s.row_address <<< 1) % 2 ^ 32) % 2 ^ 24))
  else
    let s := s.emit (ICSP_addressLoad (((s.row_address <<< 1) % 2 ^ 32) % 2 ^ 24))
    s.emit (ICSP_rowWrite s.row ROW_SIZE)

/-- The blank check of `LVP_commitRow`: `chk` after `chk &= row[i]` for
`i = 0 .. ROW_SIZE - 1`, starting from `0xffff`. -/
def LVP_commitRow_chk (row : List Nat) : Nat :=
  (List.range ROW_SIZE).foldl (fun chk i => chk &&& row.getD i 0) 0xffff

/-- The C function `LVP_commitRow` -/
def LVP_commitRow (s : LVP) : LVP :=
  if LVP_commitRow_chk s.row != 0xffff then
    let s := LVP_write s
    { s with row := blankRow }
  else
    s

/-- Local variables of `LVP_packRow` while it copies: `pos` is the number of
bytes `data` has advanced. -/
structure Pack where
  /-- the session state -/
  st : LVP
  /-- bytes consumed from `data` -/
  pos : Nat
  /-- The variable `uint8_t index` -/
  index : Nat
  /-- The variable `uint8_t data_count` -/
  data_count : Nat
  deriving DecidableEq, Repr

/-- The word assembled from the two bytes at `data[pos]` and `data[pos + 1]`:
`uint16_t word = *data++; word += ((uint16_t) (*data++) << 8);`.
A byte beyond the list reads as 0. -/
def LVP_packRow_word (data : List Nat) (pos : Nat) : Nat :=
  let word := data.getD pos 0
  (word + ((data.getD (pos + 1) 0) <<< 8) % 2 ^ 16) % 2 ^ 16

/-- One pass of either copy loop body of `LVP_packRow`:
`word = ...; row[index++] = word; data_count -= 2;`.  A store at
`index >= ROW_SIZE` leaves `row` alone and sets `overrun`: what the C store does
to the memory behind the buffer is not modelled, so the state is that of the
program only as long as `overrun` keeps its value. -/
def LVP_packRow_step (data : List Nat) (c : Pack) : Pack :=
  let word := LVP_packRow_word data c.pos
  { st := { c.st with row := c.st.row.set c.index word,
                      overrun := c.st.overrun || decide (ROW_SIZE ≤ c.index) },
    pos := c.pos + 2,
    index := (c.index + 1) % 2 ^ 8,
    data_count := (c.data_count + 2 ^ 8 - 2) % 2 ^ 8 }

/-- First loop: `while ((data_count > 0) && (index < ROW_SIZE))`.  The first
argument bounds the number of iterations. -/
def LVP_packRow_fill (data : List Nat) : Nat → Pack → Pack
  | 0, c => c
  | fuel + 1, c =>
      if c.data_count > 0 && c.index < ROW_SIZE then
        LVP_packRow_fill data fuel (LVP_packRow_step data c)
      else c

/-- Second loop: `while (data_count > 0)`.  The first argument bounds the number
of iterations. -/
def LVP_packRow_spill (data : List Nat) : Nat → Pack → Pack
  | 0, c => c
  | fuel + 1, c =>
      if c.data_count > 0 then
        LVP_packRow_spill data fuel (LVP_packRow_step data c)
      else c

/-- The C function `LVP_packRow(uint32_t address, uint8_t *data, uint8_t data_count)`.
`data_count` is even and at most 254 after the rounding, so neither loop runs
more than 127 times; both are given 128 iterations. -/
def LVP_packRow (address : Nat) (data : List Nat) (data_count : Nat) (s : LVP) : LVP :=
  let index := (address &&& 0xfe) >>> 1
  let new_row := ((address &&& 0xfffffff00) >>> 1) % 2 ^ 32
  let s := if new_row != s.row_address then
      let s := LVP_commitRow s
      { s with row_address := new_row }
    else s
  let data_count := ((data_count + 1) &&& 0xfe) % 2 ^ 8
  let c := LVP_packRow_fill data 128 { st := s, pos := 0, index := index, data_count := data_count }
  if c.index == ROW_SIZE then
    let s := LVP_commitRow c.st
    if c.data_count > 0 then
      let s := { s with row_address := (s.row_address + ROW_SIZE) % 2 ^ 32 }
      let c := LVP_packRow_spill data 128 { c with st := s, index := 0 }
      c.st
    else s
  else c.st

/-- The C function `LVP_programLastRow` -/
def LVP_programLastRow (s : LVP) : LVP :=
  LVP_exit (LVP_commitRow s)

/-! ## Vocabulary of the statements -/

/-- The row buffer `row` with the words `f 0, ..., f (k - 1)` stored at the
offsets `idx, ..., idx + k - 1` and every other word kept. -/
def overlay (row : List Nat) (idx : Nat) (f : Nat → Nat) (k : Nat) : List Nat :=
  (List.range ROW_SIZE).map
    (fun i => if idx ≤ i ∧ i < idx + k then f (i - idx) else row.getD i 0)

/-- The `k`-th little-endian 16-bit word of a byte buffer. -/
def wordAt (data : List Nat) (k : Nat) : Nat :=
  data.getD (2 * k) 0 + 256 * data.getD (2 * k + 1) 0

/-- The pin activity of `LVP_exit`. -/
def exitActs : List Act :=
  ICSP_slaveReset ++ [delay_ms 1] ++ ICSP_release ++ [LED_Off RED_LED, LED_On GREEN_LED]

/-- The pin activity that transmits one row: `ICSP_addressLoad(row_address << 1)`
followed by `ICSP_rowWrite(row, ROW_SIZE)`. -/
def rowActs (row_address : Nat) (row : List Nat) : List Act :=
  ICSP_addressLoad (row_address <<< 1) ++ ICSP_rowWrite row ROW_SIZE

/-- The first statement of `LVP_packRow`: when the row of the incoming address
differs from the buffered one, commit the buffer and adopt the new row address. -/
def adoptRow (new_row : Nat) (s : LVP) : LVP :=
  if new_row != s.row_address then { LVP_commitRow s with row_address := new_row } else s

/-- Static initialisation of the module-level variables: `row` zeroed,
`row_address` 0, `lvp` false, and no pin activity yet. -/
def powerOn : LVP :=
  { row := List.replicate ROW_SIZE 0, row_address := 0, lvp := false, out := [],
    overrun := false }

/-- The caller delivering an image as consecutive chunk writes: `image` is the
byte buffer from the current position on, `sizes` the byte counts of the chunks
still to deliver, `address` the byte address of the next chunk. -/
def writeImage : Nat → List Nat → List Nat → LVP → LVP
  | _, _, [], s => s
  | address, image, n :: sizes, s =>
      writeImage (address + n) (image.drop n) sizes (LVP_packRow address image n s)

/-- The byte addresses at which the chunks of `writeImage` start. -/
def chunkStarts : Nat → List Nat → List Nat
  | _, [] => []
  | address, n :: sizes => address :: chunkStarts (address + n) sizes

/-- The flash word at word address `x` implied by an image whose first byte goes
to byte address `a0`: the image's little-endian word there, 0xFFFF outside it. -/
def imageWord (a0 : Nat) (image : List Nat) (x : Nat) : Nat :=
  if a0 / 2 ≤ x ∧ x < a0 / 2 + image.length / 2 then wordAt image (x - a0 / 2) else 0xFFFF

/-- The `ROW_SIZE` words at word addresses `r, ..., r + ROW_SIZE - 1`. -/
def rowOf (W : Nat → Nat) (r : Nat) : List Nat :=
  (List.range ROW_SIZE).map (fun i => W (r + i))

/-- The row at `p` as far as the words below word address `w` have been
delivered: those words, and 0xFFFF from `w` on. -/
def winRow (W : Nat → Nat) (p w : Nat) : List Nat :=
  (List.range ROW_SIZE).map (fun i => if p + i < w then W (p + i) else 0xFFFF)

/-- The row-aligned row addresses an image touches, in increasing order: from
the row holding its first word to the row holding its last word. -/
def imageRowAddrs (a0 : Nat) (image : List Nat) : List Nat :=
  List.range' (a0 / 2 / ROW_SIZE * ROW_SIZE)
    ((a0 / 2 + image.length / 2 + ROW_SIZE - 1) / ROW_SIZE - a0 / 2 / ROW_SIZE) ROW_SIZE

/-- The pin activity that transmits, in list order, those of the rows at the
given addresses that are not blank. -/
def rowsActs (W : Nat → Nat) (rows : List Nat) : List Act :=
  (rows.filter (fun r => rowOf W r != blankRow)).flatMap (fun r => rowActs r (rowOf W r))

/-- What the row assembler holds after the image words below word address `w`
have been delivered, `p` being the row still pending in the buffer. -/
def Assembled (W : Nat → Nat) (ov : Bool) (s : LVP) (w p : Nat) : Prop :=
  s.lvp = true ∧ s.overrun = ov ∧ s.row = winRow W p w ∧ p % 64 = 0 ∧ p ≤ w ∧ w ≤ p + 64
    ∧ (w = p + 64 → p % 128 = 64) ∧ (s.row_address = p ∨ s.row = blankRow)

/-- An example image of 256 bytes for address 0: all 0xFF except byte 192, the
first byte of word 96, which is 0x00. -/
def exampleImage : List Nat :=
  List.replicate 192 0xFF ++ 0x00 :: List.replicate 63 0xFF

/-- The pin activity of `LVP_enter`: the LED updates, `ICSP_init` and
`ICSP_signature`. -/
def enterActs : List Act :=
  [LED_On RED_LED, LED_Off GREEN_LED] ++ ICSP_init ++ ICSP_signature

/-- A state with one word, 0x1234, buffered at offset 0 for the row at word
address 64, with the given session flag and no pin activity yet. -/
def pendingState (lvp : Bool) : LVP :=
  { row := 0x1234 :: List.replicate 63 0xFFFF, row_address := 64, lvp := lvp, out := [],
    overrun := false }

/-- The value of `index` after `uint8_t index = (address & 0xfe) >> 1;` in
`LVP_packRow`. -/
def LVP_packRow_index (address : Nat) : Nat :=
  (address &&& 0xfe) >>> 1

/-- The value of `new_row` after `uint32_t new_row = (address & 0xfffffff00) >> 1;`
in `LVP_packRow`. -/
def LVP_packRow_new_row (address : Nat) : Nat :=
  ((address &&& 0xfffffff00) >>> 1) % 2 ^ 32

/-- The value of `data_count` after `data_count = (data_count + 1) & 0xfe;` in
`LVP_packRow`. -/
def LVP_packRow_count (data_count : Nat) : Nat :=
  ((data_count + 1) &&& 0xfe) % 2 ^ 8

/-- The local variables of `LVP_packRow` when it returns, the session state
among them: the body of `LVP_packRow` with `data`, `index` and `data_count` kept.
`pos` is the number of bytes taken from `data`. -/
def LVP_packRow_locals (address : Nat) (data : List Nat) (data_count : Nat) (s : LVP) : Pack :=
  let index := (address &&& 0xfe) >>> 1
  let new_row := ((address &&& 0xfffffff00) >>> 1) % 2 ^ 32
  let s := if new_row != s.row_address then
      let s := LVP_commitRow s
      { s with row_address := new_row }
    else s
  let data_count := ((data_count + 1) &&& 0xfe) % 2 ^ 8
  let c := LVP_packRow_fill data 128 { st := s, pos := 0, index := index, data_count := data_count }
  if c.index == ROW_SIZE then
    let s := LVP_commitRow c.st
    if c.data_count > 0 then
      let s := { s with row_address := (s.row_address + ROW_SIZE) % 2 ^ 32 }
      LVP_packRow_spill data 128 { c with st := s, index := 0 }
    else { c with st := s }
  else c

/-- A Released session with a blank row buffer and the row address unset, as
`LVP_enter` followed by `LVP_exit` leave the module variables, with no pin
activity recorded. -/
def releasedBlank : LVP :=
  { row := blankRow, row_address := ROW_UNSET, lvp := false, out := [], overrun := false }

/-- The pin activity of `LVP_commitRow` in a Programming session: none for a
blank buffer or an unset row address, the address load for a row at or above
`CFG_ADDRESS`, the address load and the row write for a row below it. -/
def commitActs (row_address : Nat) (row : List Nat) : List Act :=
  if row = blankRow ∨ row_address = ROW_UNSET then []
  else if CFG_ADDRESS ≤ row_address then
    ICSP_addressLoad (((row_address <<< 1) % 2 ^ 32) % 2 ^ 24)
  else
    ICSP_addressLoad (((row_address <<< 1) % 2 ^ 32) % 2 ^ 24) ++ ICSP_rowWrite row ROW_SIZE

/-- The EXECUTE transactions for a list of instruction words, in list order:
one `ICSP_Cmd` per word. -/
def ICSP_Cmds (words : List Nat) : List Act :=
  words.flatMap ICSP_Cmd

/-- The argument of the `ICSP_Cmd` call commented `MOV #<DestinationAddress15:0>, W3`
in `ICSP_addressLoad`: `0x200003 + (destAddressLow) << 4`, converted to `uint24_t`. -/
def ICSP_addressLoad_W3 (address : Nat) : Nat :=
  let destAddressLow := address &&& 0xffff
  (((0x200003 + destAddressLow) <<< 4) % 2 ^ 32) % 2 ^ 24

/-- The argument of the `ICSP_Cmd` call commented `MOV #<DestinationAddress23:16>, W4`
in `ICSP_addressLoad`: `0x200004 + (destAddressHigh) << 4`, converted to `uint24_t`. -/
def ICSP_addressLoad_W4 (address : Nat) : Nat :=
  let destAddressHigh := (address >>> 16) &&& 0xff
  (((0x200004 + destAddressHigh) <<< 4) % 2 ^ 32) % 2 ^ 24

/-- The move-immediate instruction word for a literal and a register:
`0x200000 + (literal << 4) + register`. -/
def movWord (lit reg : Nat) : Nat :=
  0x200000 + (lit <<< 4) + reg

/-- The fixed table-write block of one loop pass of `ICSP_rowWrite`: clear W6
and a no-op, then four table writes, each followed by two no-ops. -/
def tableWriteBlock : List Nat :=
  [0xEB0300, 0, 0xBB0BB6, 0, 0, 0xBBDBB6, 0, 0, 0xBBEBB6, 0, 0, 0xBB1BB6, 0, 0]

/-- The 8 instruction words of the unlock-and-write script `ICSP_unlockWR`. -/
def unlockWords : List Nat :=
  [0x200551, 0x883971, 0x200AA1, 0x883971, 0xA8E729, 0, 0, 0]

/-- The instruction words stated for group `g` of a row write: the three
move-immediates that stage `word[4g]` in W0, the low bytes of `word[4g+3]` and
`word[4g+1]` in W1 and `word[4g+2]` in W2, then the table-write block. -/
def rowWriteGroup (buffer : List Nat) (g : Nat) : List Nat :=
  [movWord (buffer.getD (4 * g) 0) 0,
   movWord ((((buffer.getD (4 * g + 3) 0) &&& 0xFF) <<< 8)
     + ((buffer.getD (4 * g + 1) 0) &&& 0xFF)) 1,
   movWord (buffer.getD (4 * g + 2) 0) 2] ++ tableWriteBlock

/-- The instruction words stated for a row write of `count` words: the
latch-pointer clear and a no-op, the groups `g < count / 4` in buffer order, then
the unlock-and-write script. -/
def rowWriteWords (buffer : List Nat) (count : Nat) : List Nat :=
  [0xEB0380, 0] ++ (List.range (count / 4)).flatMap (rowWriteGroup buffer) ++ unlockWords

/-- The buffer indices the groups `g < count / 4` read, in reading order. -/
def rowWriteReads (count : Nat) : List Nat :=
  (List.range (count / 4)).flatMap (fun g => [4 * g, 4 * g + 1, 4 * g + 2, 4 * g + 3])

/-- The row buffer holds `ROW_SIZE` words of 16 bits each, as the variable
`uint16_t row[ROW_SIZE]` does. -/
def WellFormed (s : LVP) : Prop :=
  s.row.length = ROW_SIZE ∧ ∀ i, i < ROW_SIZE → s.row.getD i 0 < 2 ^ 16

/-- A sequence of `LVP_packRow` calls applied in order, each call given as
(address, data, data_count). -/
def packRows : List (Nat × List Nat × Nat) → LVP → LVP
  | [], s => s
  | c :: rest, s => packRows rest (LVP_packRow c.1 c.2.1 c.2.2 s)

/-- The pin activity of a list of commits made in a Programming session, each
given as (row address, row buffer): address loads and row writes and nothing
else. -/
def commitsActs (cs : List (Nat × List Nat)) : List Act :=
  cs.flatMap (fun c => commitActs c.1 c.2)

/-- What the calls made since state `s0` have emitted when the state is `s`.
Started in a Programming session: the transmissions of some commits, and the
session is still Programming.  Started in a Released session: either nothing
yet, with the session still Released, or the session entry and the bulk erase
followed by the transmissions of some commits, with the session Programming. -/
def Emitted (s0 s : LVP) : Prop :=
  (s0.lvp = true ∧ s.lvp = true ∧ ∃ cs, s.out = s0.out ++ commitsActs cs)
    ∨ (s0.lvp = false ∧ s.lvp = false ∧ s.out = s0.out)
    ∨ (s0.lvp = false ∧ s.lvp = true
        ∧ ∃ cs, s.out = s0.out ++ (enterActs ++ ICSP_bulkErase) ++ commitsActs cs)

/-! ## Theorems: bit transport -/

theorem clockedBits_append (l1 l2 : List Act) (clk dat : Bool) :
    clockedBits clk dat (l1 ++ l2)
      = clockedBits clk dat l1
        ++ clockedBits (lineAfter (clk, dat) l1).1 (lineAfter (clk, dat) l1).2 l2 := by
  induction l1 generalizing clk dat with
  | nil => simp [clockedBits, lineAfter]
  | cons a l1 ih =>
    cases a <;> simp [clockedBits, lineAfter, ih]
    split <;> simp

theorem clockPulses_append (l1 l2 : List Act) (clk dat : Bool) :
    clockPulses clk (l1 ++ l2)
      = clockPulses clk l1 + clockPulses (lineAfter (clk, dat) l1).1 l2 := by
  induction l1 generalizing clk dat with
  | nil => simp [clockPulses, lineAfter]
  | cons a l1 ih =>
    cases a <;> simp [clockPulses, lineAfter] <;> first | exact ih _ _ | (rw [ih _ dat]; omega)

theorem lineAfter_append (l1 l2 : List Act) (l : Bool × Bool) :
    lineAfter l (l1 ++ l2) = lineAfter (lineAfter l l1) l2 := by
  induction l1 generalizing l with
  | nil => simp [lineAfter]
  | cons a l1 ih => cases a <;> simp [lineAfter, ih]

theorem and_one_ne_zero (x : Nat) : (x &&& 1 != 0) = x.testBit 0 := by
  rw [Nat.testBit_zero, Nat.and_one_is_mod]
  rcases Nat.mod_two_eq_zero_or_one x with h | h <;> simp [h]

theorem range_succ_map_testBit (n x : Nat) :
    (List.range (n + 1)).map (fun k => x.testBit k)
      = x.testBit 0 :: (List.range n).map (fun k => (x >>> 1).testBit k) := by
  rw [List.range_succ_eq_map, List.map_cons, List.map_map]
  congr 1
  apply List.map_congr_left
  intro k _
  simp [Nat.testBit_shiftRight, Nat.add_comm]

theorem clockedBits_skip_pre (d : Dir) (rest : List Act) (clk dat : Bool) :
    clockedBits clk dat ([TRIS_DAT d] ++ rest) = clockedBits clk dat rest := rfl

theorem clockPulses_skip_pre (d : Dir) (rest : List Act) (clk : Bool) :
    clockPulses clk ([TRIS_DAT d] ++ rest) = clockPulses clk rest := rfl

theorem lineAfter_skip_pre (d : Dir) (rest : List Act) (l : Bool × Bool) :
    lineAfter l ([TRIS_DAT d] ++ rest) = lineAfter l rest := rfl

theorem clockedBits_delay (n : Nat) (clk dat : Bool) :
    clockedBits clk dat [delay_us n] = [] := rfl

theorem clockPulses_delay (n : Nat) (clk : Bool) :
    clockPulses clk [delay_us n] = 0 := rfl

theorem lineAfter_delay (n : Nat) (l : Bool × Bool) :
    lineAfter l [delay_us n] = l := rfl

theorem clockedBits_sendData24_loop (n data : Nat) (dat : Bool) :
    clockedBits false dat (ICSP_sendData24_loop n data)
      = (List.range n).map (fun k => data.testBit k) := by
  induction n generalizing data dat with
  | zero => simp [ICSP_sendData24_loop, clockedBits]
  | succ n ih =>
    rw [range_succ_map_testBit, ← ih (data >>> 1) (data.testBit 0), ← and_one_ne_zero]
    simp [ICSP_sendData24_loop, clockedBits]

theorem clockPulses_sendData24_loop (n data : Nat) :
    clockPulses false (ICSP_sendData24_loop n data) = n := by
  induction n generalizing data with
  | zero => simp [ICSP_sendData24_loop, clockPulses]
  | succ n ih => simp [ICSP_sendData24_loop, clockPulses, ih]; omega

theorem lineAfter_sendData24_loop (n data : Nat) (dat : Bool) :
    (lineAfter (false, dat) (ICSP_sendData24_loop n data)).1 = false := by
  induction n generalizing data dat with
  | zero => simp [ICSP_sendData24_loop, lineAfter]
  | succ n ih => simp [ICSP_sendData24_loop, lineAfter, ih]

theorem clockedBits_controlCode_loop (n type : Nat) (dat : Bool) :
    clockedBits false dat (ICSP_controlCode_loop n type)
      = (List.range n).map (fun k => type.testBit k) := by
  induction n generalizing type dat with
  | zero => simp [ICSP_controlCode_loop, clockedBits]
  | succ n ih =>
    rw [range_succ_map_testBit, ← ih (type >>> 1) (type.testBit 0), ← and_one_ne_zero]
    simp [ICSP_controlCode_loop, clockedBits]

theorem clockPulses_controlCode_loop (n type : Nat) :
    clockPulses false (ICSP_controlCode_loop n type) = n := by
  induction n generalizing type with
  | zero => simp [ICSP_controlCode_loop, clockPulses]
  | succ n ih => simp [ICSP_controlCode_loop, clockPulses, ih]; omega

theorem lineAfter_controlCode_loop (n type : Nat) (dat : Bool) :
    (lineAfter (false, dat) (ICSP_controlCode_loop n type)).1 = false := by
  induction n generalizing type dat with
  | zero => simp [ICSP_controlCode_loop, lineAfter]
  | succ n ih => simp [ICSP_controlCode_loop, lineAfter, ih]

theorem clockedBits_controlCode (type : Nat) (dat : Bool) :
    clockedBits false dat (ICSP_controlCode type)
      = (List.range 4).map (fun k => type.testBit k) := by
  rw [ICSP_controlCode, List.append_assoc, clockedBits_skip_pre, clockedBits_append,
    clockedBits_controlCode_loop, clockedBits_delay, List.append_nil]

theorem clockPulses_controlCode (type : Nat) :
    clockPulses false (ICSP_controlCode type) = 4 := by
  rw [ICSP_controlCode, List.append_assoc, clockPulses_skip_pre,
    clockPulses_append _ _ false false, clockPulses_controlCode_loop, clockPulses_delay]

theorem lineAfter_controlCode (type : Nat) (dat : Bool) :
    (lineAfter (false, dat) (ICSP_controlCode type)).1 = false := by
  rw [ICSP_controlCode, List.append_assoc, lineAfter_skip_pre, lineAfter_append,
    lineAfter_delay]
  exact lineAfter_controlCode_loop 4 type dat

theorem clockedBits_sendData24 (data : Nat) (dat : Bool) :
    clockedBits false dat (ICSP_sendData24 data)
      = (List.range 24).map (fun k => data.testBit k) := by
  rw [ICSP_sendData24, List.append_assoc, clockedBits_skip_pre, clockedBits_append,
    clockedBits_sendData24_loop, clockedBits_delay, List.append_nil]

theorem clockPulses_sendData24 (data : Nat) :
    clockPulses false (ICSP_sendData24 data) = 24 := by
  rw [ICSP_sendData24, List.append_assoc, clockPulses_skip_pre,
    clockPulses_append _ _ false false, clockPulses_sendData24_loop, clockPulses_delay]

theorem lineAfter_sendData24 (data : Nat) (dat : Bool) :
    (lineAfter (false, dat) (ICSP_sendData24 data)).1 = false := by
  rw [ICSP_sendData24, List.append_assoc, lineAfter_skip_pre, lineAfter_append,
    lineAfter_delay]
  exact lineAfter_sendData24_loop 24 data dat

theorem clockedBits_Cmd (data : Nat) (dat : Bool) :
    clockedBits false dat (ICSP_Cmd data)
      = [false, false, false, false] ++ (List.range 24).map (fun k => data.testBit k) := by
  have h := lineAfter_controlCode SIX dat
  rw [ICSP_Cmd, clockedBits_append, clockedBits_controlCode, h, clockedBits_sendData24]
  simp [SIX, List.range_succ]

theorem clockPulses_Cmd (data : Nat) :
    clockPulses false (ICSP_Cmd data) = 28 := by
  have h := lineAfter_controlCode SIX false
  rw [ICSP_Cmd, clockPulses_append _ _ false false, clockPulses_controlCode, h,
    clockPulses_sendData24]

theorem and_0x8000_pos (w : Nat) : decide (w &&& 0x8000 > 0) = w.testBit 15 := by
  have h : (0x8000 : Nat) = 2 ^ 15 := by norm_num
  rw [h, Nat.and_two_pow]
  cases w.testBit 15 <;> simp

theorem clockedBits_sendWord_loop (n : Nat) (hn : n ≤ 16) (w : Nat) (dat : Bool) :
    clockedBits false dat (ICSP_sendWord_loop n w)
      = (List.range n).map (fun k => w.testBit (15 - k)) := by
  induction n generalizing w dat with
  | zero => simp [ICSP_sendWord_loop, clockedBits]
  | succ n ih =>
    have hstep : (List.range (n + 1)).map (fun k => w.testBit (15 - k))
        = w.testBit 15 :: (List.range n).map (fun k => ((w <<< 1) % 2 ^ 16).testBit (15 - k)) := by
      rw [List.range_succ_eq_map, List.map_cons, List.map_map]
      congr 1
      apply List.map_congr_left
      intro k hk
      have hk2 : k < n := List.mem_range.mp hk
      have h1 : 15 - k < 16 := by omega
      have h2 : 1 ≤ 15 - k := by omega
      have h3 : 15 - k - 1 = 15 - (k + 1) := by omega
      simp only [Function.comp, Nat.succ_eq_add_one]
      rw [Nat.testBit_mod_two_pow, Nat.testBit_shiftLeft, h3]
      simp [h1, h2]
    rw [hstep, ← ih (by omega) ((w <<< 1) % 2 ^ 16) (w.testBit 15), ← and_0x8000_pos]
    simp [ICSP_sendWord_loop, clockedBits]

theorem clockPulses_sendWord_loop (n w : Nat) :
    clockPulses false (ICSP_sendWord_loop n w) = n := by
  induction n generalizing w with
  | zero => simp [ICSP_sendWord_loop, clockPulses]
  | succ n ih => simp [ICSP_sendWord_loop, clockPulses, ih]; omega

theorem clockedBits_sendWord (w : Nat) (dat : Bool) :
    clockedBits false dat (ICSP_sendWord w)
      = (List.range 16).map (fun k => w.testBit (15 - k)) := by
  rw [ICSP_sendWord, clockedBits_skip_pre, clockedBits_sendWord_loop 16 (le_refl _)]

theorem clockPulses_sendWord (w : Nat) :
    clockPulses false (ICSP_sendWord w) = 16 := by
  rw [ICSP_sendWord, clockPulses_skip_pre, clockPulses_sendWord_loop]

theorem getWord_step_lt (w : Nat) (b : Bool) (hw : w < 2 ^ 16) :
    (w >>> 1 ||| (if b then 0x8000 else 0)) < 2 ^ 16 := by
  apply Nat.or_lt_two_pow
  · rw [Nat.shiftRight_eq_div_pow]; omega
  · split <;> norm_num

theorem getWord_step_testBit (w : Nat) (b : Bool) (hw : w < 2 ^ 16) (j : Nat) :
    (w >>> 1 ||| (if b then 0x8000 else 0)).testBit j
      = if j = 15 then b else w.testBit (j + 1) := by
  have h8 : (0x8000 : Nat) = 2 ^ 15 := by norm_num
  rw [Nat.testBit_or, Nat.testBit_shiftRight, Nat.add_comm 1 j]
  by_cases hj : j = 15
  · subst hj
    have : w.testBit 16 = false := Nat.testBit_lt_two_pow hw
    have h15 : Nat.testBit 0x8000 15 = true := by decide
    cases b <;> simp [this, h15]
  · have hne : (15 : Nat) ≠ j := fun h => hj h.symm
    cases b <;> simp [hj, h8, Nat.testBit_two_pow_of_ne hne]

theorem getWord_loop_spec (dat_in : Nat → Bool) (n i w : Nat) (hn : n ≤ 16) (hw : w < 2 ^ 16) :
    (ICSP_getWord_loop dat_in n i w).1 < 2 ^ 16 ∧
    ∀ j, (ICSP_getWord_loop dat_in n i w).1.testBit j
      = if j + n < 16 then w.testBit (j + n)
        else if j < 16 then dat_in (i + (j + n - 16)) else false := by
  induction n generalizing i w with
  | zero =>
    refine ⟨by simpa [ICSP_getWord_loop] using hw, fun j => ?_⟩
    simp only [ICSP_getWord_loop, Nat.add_zero]
    by_cases hj : j < 16
    · simp [hj]
    · have : w.testBit j = false :=
        Nat.testBit_lt_two_pow (lt_of_lt_of_le hw (Nat.pow_le_pow_right (by norm_num) (by omega)))
      simp [hj, this]
  | succ n ih =>
    have h := ih (i + 1) (w >>> 1 ||| (if dat_in i then 0x8000 else 0)) (by omega)
      (getWord_step_lt w (dat_in i) hw)
    refine ⟨by simpa [ICSP_getWord_loop] using h.1, fun j => ?_⟩
    have h2 := h.2 j
    simp only [ICSP_getWord_loop]
    rw [h2, getWord_step_testBit w _ hw]
    by_cases c1 : j + (n + 1) < 16
    · have c2 : j + n < 16 := by omega
      have c3 : j + n ≠ 15 := by omega
      simp [c1, c2, c3, Nat.add_assoc]
    · by_cases c4 : j + n < 16
      · have c5 : j + n = 15 := by omega
        have c6 : j < 16 := by omega
        have c7 : j + (n + 1) - 16 = 0 := by omega
        simp [c1, c4, c5, c6, c7]
      · have c8 : i + 1 + (j + n - 16) = i + (j + (n + 1) - 16) := by omega
        simp [c1, c4, c8]

theorem getWord_testBit (dat_in : Nat → Bool) (j : Nat) :
    (ICSP_getWord dat_in).1.testBit j = if j < 16 then dat_in j else false := by
  have h := (getWord_loop_spec dat_in 16 0 0 (le_refl _) (by norm_num)).2 j
  simp only [ICSP_getWord]
  rw [h]
  by_cases hj : j < 16 <;> simp [hj]

theorem getD_map_range (f : Nat → Bool) (n k : Nat) (hk : k < n) :
    ((List.range n).map f).getD k false = f k := by
  rw [List.getD_eq_getElem?_getD, List.getElem?_map, List.getElem?_range hk]
  rfl

theorem Cmd_injective (a b : Nat) (ha : a < 2 ^ 24) (hb : b < 2 ^ 24)
    (h : ICSP_Cmd a = ICSP_Cmd b) : a = b := by
  have hbits := congrArg (clockedBits false false) h
  rw [clockedBits_Cmd, clockedBits_Cmd] at hbits
  have hmap := List.append_cancel_left hbits
  apply Nat.eq_of_testBit_eq
  intro k
  by_cases hk : k < 24
  · have := congrArg (fun l => l.getD k false) hmap
    simp only [getD_map_range _ 24 k hk] at this
    exact this
  · have h24 : (2 : Nat) ^ 24 ≤ 2 ^ k := Nat.pow_le_pow_right (by norm_num) (by omega)
    rw [Nat.testBit_lt_two_pow (lt_of_lt_of_le ha h24),
      Nat.testBit_lt_two_pow (lt_of_lt_of_le hb h24)]

theorem sendSIXMov_word_eq (lit reg : Nat) (hl : lit < 2 ^ 16) (hr : reg < 256) :
    sendSIXMov_word lit reg = 0x200000 + lit * 16 + reg := by
  simp only [sendSIXMov_word, Nat.shiftLeft_eq]
  omega

/-! ## Claims C7 to C10 -/

/-- C7 (as stated, refuted): with the data line presenting the sixteen bits that
`ICSP_sendWord(1)` drives, `ICSP_getWord` does not return 1 (it returns 0x8000). -/
theorem C7_getWord_sendWord_counterexample :
    (ICSP_getWord (fun k => (clockedBits false false (ICSP_sendWord 1)).getD k false)).1 = 0x8000
    ∧ (ICSP_getWord (fun k => (clockedBits false false (ICSP_sendWord 1)).getD k false)).1 ≠ 1 := by
  decide

/-- C7 (amended): `ICSP_getWord` assembles its result least-significant bit
first. When the data line presents, pulse by pulse, the bits `ICSP_sendWord(v)`
drives (most-significant first), the returned 16-bit word is the bit reversal of
`v`: bit `j` of the result is bit `15 - j` of `v`; so it returns `v` exactly when
`v` reads the same in both directions. When the line presents the first sixteen
bits `ICSP_sendData24(v)` drives (least-significant first), it returns `v`. -/
theorem C7_getWord_reverses_sendWord (v : Nat) (hv : v < 2 ^ 16) (dat_in : Nat → Bool)
    (hline : ∀ k, k < 16 → dat_in k = (clockedBits false false (ICSP_sendWord v)).getD k false) :
    (ICSP_getWord dat_in).1 < 2 ^ 16
    ∧ (∀ j, j < 16 → (ICSP_getWord dat_in).1.testBit j = v.testBit (15 - j))
    ∧ ((ICSP_getWord dat_in).1 = v ↔ ∀ j, j < 16 → v.testBit j = v.testBit (15 - j))
    ∧ (∀ lsb_in : Nat → Bool,
        (∀ k, k < 16 →
          lsb_in k = (clockedBits false false (ICSP_sendData24 v)).getD k false) →
        (ICSP_getWord lsb_in).1 = v) := by
  have hlt : ∀ f, (ICSP_getWord f).1 < 2 ^ 16 := fun f =>
    (getWord_loop_spec f 16 0 0 (le_refl _) (by norm_num)).1
  have hhigh : ∀ x j, x < 2 ^ 16 → ¬ j < 16 → Nat.testBit x j = false := fun x j hx hj =>
    Nat.testBit_lt_two_pow (lt_of_lt_of_le hx (Nat.pow_le_pow_right (by norm_num) (by omega)))
  have hrev : ∀ j, j < 16 → (ICSP_getWord dat_in).1.testBit j = v.testBit (15 - j) := by
    intro j hj
    rw [getWord_testBit, if_pos hj, hline j hj, clockedBits_sendWord, getD_map_range _ 16 j hj]
  refine ⟨hlt _, hrev, ⟨fun h j hj => ?_, fun h => ?_⟩, fun lsb_in hl => ?_⟩
  · rw [← hrev j hj, h]
  · apply Nat.eq_of_testBit_eq
    intro j
    by_cases hj : j < 16
    · rw [hrev j hj, h j hj]
    · rw [hhigh _ j (hlt _) hj, hhigh _ j hv hj]
  · apply Nat.eq_of_testBit_eq
    intro j
    by_cases hj : j < 16
    · rw [getWord_testBit, if_pos hj, hl j hj, clockedBits_sendData24,
        getD_map_range _ 24 j (by omega)]
    · rw [hhigh _ j (hlt _) hj, hhigh _ j hv hj]

/-- Witness for C7 (amended): the key word 0x4D43 sent by `ICSP_sendWord` is
read back by `ICSP_getWord` as its bit reversal. -/
theorem C7_getWord_reverses_sendWord_witness :
    0x4D43 < 2 ^ 16
    ∧ (ICSP_getWord
        (fun k => (clockedBits false false (ICSP_sendWord 0x4D43)).getD k false)).1 < 2 ^ 16
    ∧ (∀ j, j < 16 →
        (ICSP_getWord
          (fun k => (clockedBits false false (ICSP_sendWord 0x4D43)).getD k false)).1.testBit j
          = Nat.testBit 0x4D43 (15 - j)) :=
  ⟨by norm_num,
   (C7_getWord_reverses_sendWord 0x4D43 (by norm_num) _ (fun _ _ => rfl)).1,
   (C7_getWord_reverses_sendWord 0x4D43 (by norm_num) _ (fun _ _ => rfl)).2.1⟩

/-- C8: for every control code value `ICSP_controlCode` produces exactly four
clock pulses, and the data-line levels at the four rising clock edges are bit 0,
bit 1, bit 2 and bit 3 of the code, in that order; code 1 (`REGOUT`) gives
1,0,0,0 and code 0 (`SIX`) gives 0,0,0,0. -/
theorem C8_controlCode_lsb_first (type : Nat) (dat : Bool) :
    clockPulses false (ICSP_controlCode type) = 4
    ∧ clockedBits false dat (ICSP_controlCode type)
        = [type.testBit 0, type.testBit 1, type.testBit 2, type.testBit 3]
    ∧ clockedBits false dat (ICSP_controlCode REGOUT) = [true, false, false, false]
    ∧ clockedBits false dat (ICSP_controlCode SIX) = [false, false, false, false] := by
  refine ⟨clockPulses_controlCode type, ?_, ?_, ?_⟩
  · rw [clockedBits_controlCode]; rfl
  · rw [clockedBits_controlCode]; decide
  · rw [clockedBits_controlCode]; decide

/-- C9: `ICSP_sendData24(d)` clocks out exactly 24 bits, the k-th being bit `k`
of `d`; `ICSP_sendWord(w)` clocks out exactly 16 bits, the k-th being bit
`15 - k` of `w`; hence the bits of `ICSP_sendWord(v)` are the reverse of the
first 16 bits of `ICSP_sendData24(v)`. -/
theorem C9_opposite_bit_orders :
    (∀ d dat, clockPulses false (ICSP_sendData24 d) = 24
      ∧ clockedBits false dat (ICSP_sendData24 d)
          = (List.range 24).map (fun k => d.testBit k))
    ∧ (∀ w dat, clockPulses false (ICSP_sendWord w) = 16
      ∧ clockedBits false dat (ICSP_sendWord w)
          = (List.range 16).map (fun k => w.testBit (15 - k)))
    ∧ (∀ v dat, clockedBits false dat (ICSP_sendWord v)
          = ((clockedBits false dat (ICSP_sendData24 v)).take 16).reverse) := by
  refine ⟨fun d dat => ⟨clockPulses_sendData24 d, clockedBits_sendData24 d dat⟩,
    fun w dat => ⟨clockPulses_sendWord w, clockedBits_sendWord w dat⟩, fun v dat => ?_⟩
  rw [clockedBits_sendWord, clockedBits_sendData24]
  simp [List.range_succ]

/-- C10: for a 16-bit literal and a register index 0..15, `sendSIXMov` issues
exactly one EXECUTE transaction (control code `SIX`, four zero bits, then the 24
bits of the instruction word, 28 clock pulses in all); the word is
`0x200000 + (lit << 4) + reg` with nothing lost to the 24-bit conversion; its top
nibble is 2, bits 19..4 are the literal and bits 3..0 the register; and distinct
(literal, register) pairs give distinct words and distinct pin activity. -/
theorem C10_sendSIXMov_encoding (lit reg : Nat) (hl : lit < 2 ^ 16) (hr : reg < 16) :
    sendSIXMov lit reg
        = ICSP_controlCode SIX ++ ICSP_sendData24 (0x200000 + (lit <<< 4) + reg)
    ∧ clockPulses false (sendSIXMov lit reg) = 28
    ∧ (∀ dat, clockedBits false dat (sendSIXMov lit reg)
        = [false, false, false, false]
          ++ (List.range 24).map (fun k => (0x200000 + (lit <<< 4) + reg).testBit k))
    ∧ sendSIXMov_word lit reg = 0x200000 + (lit <<< 4) + reg
    ∧ 0x200000 + (lit <<< 4) + reg < 2 ^ 24
    ∧ sendSIXMov_word lit reg >>> 20 = 0x2
    ∧ (sendSIXMov_word lit reg >>> 4) % 2 ^ 16 = lit
    ∧ sendSIXMov_word lit reg % 2 ^ 4 = reg
    ∧ (∀ lit2 reg2, lit2 < 2 ^ 16 → reg2 < 16 →
        (sendSIXMov_word lit2 reg2 = sendSIXMov_word lit reg
          ∨ sendSIXMov lit2 reg2 = sendSIXMov lit reg) →
        lit2 = lit ∧ reg2 = reg) := by
  have hw : sendSIXMov_word lit reg = 0x200000 + (lit <<< 4) + reg := by
    simp only [sendSIXMov_word, Nat.shiftLeft_eq]; omega
  have hlt : 0x200000 + (lit <<< 4) + reg < 2 ^ 24 := by
    simp only [Nat.shiftLeft_eq]; omega
  have hinj : ∀ lit2 reg2, lit2 < 2 ^ 16 → reg2 < 16 →
      sendSIXMov_word lit2 reg2 = sendSIXMov_word lit reg → lit2 = lit ∧ reg2 = reg := by
    intro lit2 reg2 h2 h3 h
    rw [sendSIXMov_word_eq lit reg hl (by omega), sendSIXMov_word_eq lit2 reg2 h2 (by omega)] at h
    omega
  refine ⟨by rw [sendSIXMov, hw, ICSP_Cmd], by rw [sendSIXMov, clockPulses_Cmd],
    fun dat => by rw [sendSIXMov, clockedBits_Cmd, hw], hw, hlt, ?_, ?_, ?_, ?_⟩
  · rw [sendSIXMov_word_eq lit reg hl (by omega), Nat.shiftRight_eq_div_pow]; omega
  · rw [sendSIXMov_word_eq lit reg hl (by omega), Nat.shiftRight_eq_div_pow]; omega
  · rw [sendSIXMov_word_eq lit reg hl (by omega)]; omega
  · intro lit2 reg2 h2 h3 h
    rcases h with h | h
    · exact hinj lit2 reg2 h2 h3 h
    · apply hinj lit2 reg2 h2 h3
      apply Cmd_injective _ _ _ _ h
      · rw [sendSIXMov_word]; exact Nat.mod_lt _ (by norm_num)
      · rw [sendSIXMov_word]; exact Nat.mod_lt _ (by norm_num)

/-- Witness for C10: literal 0x1234 into register 3 gives the word 0x212343. -/
theorem C10_sendSIXMov_encoding_witness :
    (0x1234 < 2 ^ 16 ∧ 3 < 16)
    ∧ sendSIXMov_word 0x1234 3 = 0x200000 + (0x1234 <<< 4) + 3
    ∧ sendSIXMov_word 0x1234 3 >>> 20 = 0x2
    ∧ (sendSIXMov_word 0x1234 3 >>> 4) % 2 ^ 16 = 0x1234
    ∧ sendSIXMov_word 0x1234 3 % 2 ^ 4 = 3 :=
  ⟨by decide,
   (C10_sendSIXMov_encoding 0x1234 3 (by decide) (by decide)).2.2.2.1,
   (C10_sendSIXMov_encoding 0x1234 3 (by decide) (by decide)).2.2.2.2.2.1,
   (C10_sendSIXMov_encoding 0x1234 3 (by decide) (by decide)).2.2.2.2.2.2.1,
   (C10_sendSIXMov_encoding 0x1234 3 (by decide) (by decide)).2.2.2.2.2.2.2.1⟩

/-! ## Theorems: row assembler -/

theorem getD_set (l : List Nat) (i j a d : Nat) :
    (l.set i a).getD j d = if i = j ∧ i < l.length then a else l.getD j d := by
  simp only [List.getD_eq_getElem?_getD, List.getElem?_set]
  by_cases h : i = j
  · subst h
    by_cases h2 : i < l.length
    · simp [h2]
    · simp [h2, List.getElem?_eq_none (Nat.le_of_not_lt h2)]
  · simp [h]

theorem getD_range_map (f : Nat → Nat) (n i d : Nat) :
    ((List.range n).map f).getD i d = if i < n then f i else d := by
  simp only [List.getD_eq_getElem?_getD, List.getElem?_map]
  by_cases h : i < n
  · simp [h, List.getElem?_range h]
  · have : (List.range n)[i]? = none :=
      List.getElem?_eq_none (by simpa using Nat.le_of_not_lt h)
    simp [h, this]

theorem eq_of_getD (l1 l2 : List Nat) (n : Nat) (h1 : l1.length = n) (h2 : l2.length = n)
    (h : ∀ i, i < n → l1.getD i 0 = l2.getD i 0) : l1 = l2 := by
  apply List.ext_getElem (by rw [h1, h2])
  intro i hi1 hi2
  have := h i (by omega)
  simpa [List.getD_eq_getElem?_getD, List.getElem?_eq_getElem hi1,
    List.getElem?_eq_getElem hi2] using this

theorem overlay_length (row : List Nat) (idx : Nat) (f : Nat → Nat) (k : Nat) :
    (overlay row idx f k).length = ROW_SIZE := by
  simp [overlay]

theorem overlay_getD (row : List Nat) (idx : Nat) (f : Nat → Nat) (k i : Nat)
    (hi : i < ROW_SIZE) :
    (overlay row idx f k).getD i 0
      = if idx ≤ i ∧ i < idx + k then f (i - idx) else row.getD i 0 := by
  rw [overlay, getD_range_map, if_pos hi]

theorem overlay_zero (row : List Nat) (idx : Nat) (f : Nat → Nat)
    (hrow : row.length = ROW_SIZE) : overlay row idx f 0 = row := by
  apply eq_of_getD _ _ ROW_SIZE (overlay_length _ _ _ _) hrow
  intro i hi
  rw [overlay_getD _ _ _ _ _ hi, if_neg (by omega)]

theorem overlay_set (row : List Nat) (idx : Nat) (f : Nat → Nat) (k : Nat)
    (hrow : row.length = ROW_SIZE) (hidx : idx < ROW_SIZE) :
    overlay (row.set idx (f 0)) (idx + 1) (fun j => f (j + 1)) k = overlay row idx f (k + 1) := by
  apply eq_of_getD _ _ ROW_SIZE (overlay_length _ _ _ _) (overlay_length _ _ _ _)
  intro i hi
  rw [overlay_getD _ _ _ _ _ hi, overlay_getD _ _ _ _ _ hi, getD_set]
  by_cases h1 : idx + 1 ≤ i ∧ i < idx + 1 + k
  · have h2 : idx ≤ i ∧ i < idx + (k + 1) := by omega
    have h3 : i - (idx + 1) + 1 = i - idx := by omega
    simp only [if_pos h1, if_pos h2, h3]
  · by_cases h4 : idx = i
    · subst h4
      have h2 : idx ≤ idx ∧ idx < idx + (k + 1) := by omega
      simp [if_neg h1, if_pos h2, hrow, hidx]
    · have h2 : ¬ (idx ≤ i ∧ i < idx + (k + 1)) := by omega
      simp [if_neg h1, if_neg h2, h4]

theorem fill_spec (data : List Nat) (fuel : Nat) (c : Pack)
    (hrow : c.st.row.length = ROW_SIZE) (hidx : c.index ≤ ROW_SIZE)
    (heven : c.data_count % 2 = 0) (hfuel : c.data_count ≤ 2 * fuel)
    (hdc : c.data_count < 256) :
    LVP_packRow_fill data fuel c =
      { st := { c.st with
                row := overlay c.st.row c.index (fun j => LVP_packRow_word data (c.pos + 2 * j))
                  (min (c.data_count / 2) (ROW_SIZE - c.index)) },
        pos := c.pos + 2 * min (c.data_count / 2) (ROW_SIZE - c.index),
        index := c.index + min (c.data_count / 2) (ROW_SIZE - c.index),
        data_count := c.data_count - 2 * min (c.data_count / 2) (ROW_SIZE - c.index) } := by
  induction fuel generalizing c with
  | zero =>
    have h0 : c.data_count = 0 := by omega
    obtain ⟨st, pos, index, dc⟩ := c
    simp only at h0 hrow
    subst h0
    simp [LVP_packRow_fill, overlay_zero _ _ _ hrow]
  | succ fuel ih =>
    by_cases hc : c.data_count > 0 ∧ c.index < ROW_SIZE
    · have hstep : LVP_packRow_fill data (fuel + 1) c
          = LVP_packRow_fill data fuel (LVP_packRow_step data c) := by
        simp [LVP_packRow_fill, hc.1, hc.2]
      have hi1 : (c.index + 1) % 2 ^ 8 = c.index + 1 := by
        have : c.index < 64 := hc.2
        omega
      have hd1 : (c.data_count + 2 ^ 8 - 2) % 2 ^ 8 = c.data_count - 2 := by omega
      have hk : min (c.data_count / 2) (ROW_SIZE - c.index)
          = min ((c.data_count - 2) / 2) (ROW_SIZE - (c.index + 1)) + 1 := by
        have : c.index < 64 := hc.2
        simp only [ROW_SIZE]
        omega
      rw [hstep, ih (LVP_packRow_step data c)
        (by simp [LVP_packRow_step, hrow]) (by simp only [LVP_packRow_step, hi1]; exact hc.2)
        (by simp only [LVP_packRow_step, hd1]; omega)
        (by simp only [LVP_packRow_step, hd1]; omega)
        (by simp only [LVP_packRow_step, hd1]; omega)]
      simp only [LVP_packRow_step, hi1, hd1, hk]
      have hov : (c.st.overrun || decide (ROW_SIZE ≤ c.index)) = c.st.overrun := by
        have : ¬ ROW_SIZE ≤ c.index := by omega
        simp [this]
      have hrowEq := overlay_set c.st.row c.index
        (fun j => LVP_packRow_word data (c.pos + 2 * j))
        (min ((c.data_count - 2) / 2) (ROW_SIZE - (c.index + 1))) hrow hc.2
      have hf : (fun j => LVP_packRow_word data (c.pos + 2 + 2 * j))
          = (fun j => LVP_packRow_word data (c.pos + 2 * (j + 1))) := by
        funext j; congr 1; omega
      simp only [Nat.mul_zero, Nat.add_zero] at hrowEq
      rw [hov, hf, hrowEq]
      congr 1 <;> omega
    · have hstep : LVP_packRow_fill data (fuel + 1) c = c := by
        simp only [LVP_packRow_fill]
        rw [if_neg]
        simpa using hc
      have hk : min (c.data_count / 2) (ROW_SIZE - c.index) = 0 := by
        simp only [ROW_SIZE] at hc hidx ⊢
        omega
      rw [hstep, hk]
      obtain ⟨st, pos, index, dc⟩ := c
      simp only at hrow
      simp [overlay_zero _ _ _ hrow]

theorem spill_eq_fill (data : List Nat) (fuel : Nat) (c : Pack)
    (hfit : c.index + c.data_count / 2 ≤ ROW_SIZE)
    (heven : c.data_count % 2 = 0) (hdc : c.data_count < 256) :
    LVP_packRow_spill data fuel c = LVP_packRow_fill data fuel c := by
  induction fuel generalizing c with
  | zero => rfl
  | succ fuel ih =>
    by_cases hc : c.data_count > 0
    · have hlt : c.index < ROW_SIZE := by omega
      have hi1 : (c.index + 1) % 2 ^ 8 = c.index + 1 := by
        have : c.index < 64 := hlt
        omega
      have hd1 : (c.data_count + 2 ^ 8 - 2) % 2 ^ 8 = c.data_count - 2 := by omega
      simp only [LVP_packRow_spill, LVP_packRow_fill, hc, hlt, if_true, decide_True,
        Bool.and_self]
      apply ih
      · simp only [LVP_packRow_step, hi1, hd1]; omega
      · simp only [LVP_packRow_step, hd1]; omega
      · simp only [LVP_packRow_step, hd1]; omega
    · simp [LVP_packRow_spill, LVP_packRow_fill, hc]

theorem spill_spec (data : List Nat) (fuel : Nat) (c : Pack)
    (hrow : c.st.row.length = ROW_SIZE) (hfit : c.index + c.data_count / 2 ≤ ROW_SIZE)
    (heven : c.data_count % 2 = 0) (hfuel : c.data_count ≤ 2 * fuel)
    (hdc : c.data_count < 256) :
    LVP_packRow_spill data fuel c =
      { st := { c.st with
                row := overlay c.st.row c.index (fun j => LVP_packRow_word data (c.pos + 2 * j))
                  (c.data_count / 2) },
        pos := c.pos + c.data_count,
        index := c.index + c.data_count / 2,
        data_count := 0 } := by
  have hk : min (c.data_count / 2) (ROW_SIZE - c.index) = c.data_count / 2 := by omega
  rw [spill_eq_fill data fuel c hfit heven hdc,
    fill_spec data fuel c hrow (by omega) heven hfuel hdc, hk]
  congr 1 <;> omega

theorem and_eq_ffff (acc x : Nat) (hacc : acc < 2 ^ 16) :
    acc &&& x = 0xffff ↔ acc = 0xffff ∧ x % 2 ^ 16 = 0xffff := by
  have hmask : ∀ y : Nat, 0xffff &&& y = y % 2 ^ 16 := by
    intro y
    rw [Nat.and_comm]
    exact Nat.and_pow_two_sub_one_eq_mod y 16
  constructor
  · intro h
    have h1 : acc &&& x ≤ acc := Nat.and_le_left
    have h2 : acc = 0xffff := by omega
    rw [h2, hmask] at h
    exact ⟨h2, h⟩
  · rintro ⟨h1, h2⟩
    rw [h1, hmask, h2]

theorem foldl_and_eq_ffff (f : Nat → Nat) (l : List Nat) (acc : Nat) (hacc : acc < 2 ^ 16) :
    l.foldl (fun chk i => chk &&& f i) acc = 0xffff
      ↔ acc = 0xffff ∧ ∀ i, i ∈ l → f i % 2 ^ 16 = 0xffff := by
  induction l generalizing acc with
  | nil => simp
  | cons a l ih =>
    have hlt : acc &&& f a < 2 ^ 16 := lt_of_le_of_lt Nat.and_le_left hacc
    rw [List.foldl_cons, ih _ hlt, and_eq_ffff acc (f a) hacc]
    constructor
    · rintro ⟨⟨h1, h2⟩, h3⟩
      refine ⟨h1, fun i hi => ?_⟩
      rcases List.mem_cons.mp hi with h | h
      · rw [h]; exact h2
      · exact h3 i h
    · rintro ⟨h1, h2⟩
      exact ⟨⟨h1, h2 a (List.mem_cons_self _ _)⟩, fun i hi => h2 i (List.mem_cons_of_mem _ hi)⟩

theorem chk_eq_ffff (row : List Nat) :
    LVP_commitRow_chk row = 0xffff ↔ ∀ i, i < ROW_SIZE → row.getD i 0 % 2 ^ 16 = 0xffff := by
  rw [LVP_commitRow_chk, foldl_and_eq_ffff (fun i => row.getD i 0) _ _ (by norm_num)]
  simp [List.mem_range]

theorem commitRow_blank (s : LVP)
    (h : ∀ i, i < ROW_SIZE → s.row.getD i 0 % 2 ^ 16 = 0xffff) : LVP_commitRow s = s := by
  have := (chk_eq_ffff s.row).mpr h
  simp [LVP_commitRow, this]

theorem commitRow_nonblank (s : LVP)
    (h : ¬ ∀ i, i < ROW_SIZE → s.row.getD i 0 % 2 ^ 16 = 0xffff) :
    LVP_commitRow s = { LVP_write s with row := blankRow } := by
  have : LVP_commitRow_chk s.row ≠ 0xffff := fun hc => h ((chk_eq_ffff s.row).mp hc)
  simp [LVP_commitRow, this]

theorem blankRow_getD (i : Nat) (hi : i < ROW_SIZE) : blankRow.getD i 0 = 0xFFFF := by
  simp [blankRow, List.getD_eq_getElem?_getD, List.getElem?_replicate, hi]

theorem blankRow_length : blankRow.length = ROW_SIZE := by
  simp [blankRow]

theorem blankRow_blank (i : Nat) (hi : i < ROW_SIZE) : blankRow.getD i 0 % 2 ^ 16 = 0xffff := by
  rw [blankRow_getD i hi]; rfl

theorem write_programming (s : LVP) (hl : s.lvp = true) (hra : s.row_address < CFG_ADDRESS) :
    LVP_write s = { s with out := s.out ++ rowActs s.row_address s.row } := by
  have h1 : ¬ s.row_address = ROW_UNSET := by
    simp only [CFG_ADDRESS] at hra; simp only [ROW_UNSET]; omega
  have h2 : ¬ s.row_address ≥ CFG_ADDRESS := by omega
  have h3 : ((s.row_address <<< 1) % 2 ^ 32) % 2 ^ 24 = s.row_address <<< 1 := by
    simp only [CFG_ADDRESS] at hra
    simp only [Nat.shiftLeft_eq]
    omega
  simp only [Nat.reducePow] at h3
  simp [LVP_write, LVP_inProgress, hl, h1, h2, h3, LVP.emit, rowActs, List.append_assoc]

theorem and_div_256 (x y : Nat) : (x &&& y) / 256 = x / 256 &&& y / 256 := by
  have e : ∀ z : Nat, z / 256 = z / 2 / 2 / 2 / 2 / 2 / 2 / 2 / 2 := by intro z; omega
  rw [e, e x, e y]
  simp only [Nat.and_div_two]

theorem and_mod_256 (x y : Nat) : (x &&& y) % 256 = x &&& y % 256 := by
  have h4 : ∀ z : Nat, z % 256 = z &&& 0xff := fun z =>
    (Nat.and_pow_two_sub_one_eq_mod z 8).symm
  rw [h4, h4 y, Nat.and_assoc]

theorem and_0xfe (a : Nat) : (a &&& 0xfe) >>> 1 = a / 2 % 128 := by
  have h1 : (a &&& 0xfe) % 256 = a % 256 &&& 0xfe := by
    rw [Nat.and_comm, and_mod_256, Nat.and_comm]
  have h2 : (a &&& 0xfe) / 256 = 0 := by
    rw [and_div_256]; simp
  have h3 : (a % 256 &&& 0xfe) % 2 = 0 := by
    rw [← Nat.and_one_is_mod, Nat.and_assoc]; simp
  have h4 : (a % 256 &&& 0xfe) / 2 = a % 256 / 2 := by
    rw [Nat.and_div_two]
    exact Nat.and_pow_two_sub_one_of_lt_two_pow (n := 7) (by omega)
  rw [Nat.shiftRight_eq_div_pow]
  omega

theorem and_0xfffffff00 (a : Nat) (ha : a < 2 ^ 32) :
    ((a &&& 0xfffffff00) >>> 1) % 2 ^ 32 = a / 256 * 128 := by
  have hlow : (a &&& 0xfffffff00) % 256 = 0 := by
    rw [and_mod_256]; simp
  have hhigh : (a &&& 0xfffffff00) / 256 = a / 256 := by
    rw [and_div_256]
    exact Nat.and_pow_two_sub_one_of_lt_two_pow (n := 28) (by omega)
  rw [Nat.shiftRight_eq_div_pow]
  omega

theorem round_even (n : Nat) (hn : n < 256) (he : n % 2 = 0) :
    ((n + 1) &&& 0xfe) % 2 ^ 8 = n := by
  have h1 : ((n + 1) &&& 0xfe) % 256 = (n + 1) % 256 &&& 0xfe := by
    rw [Nat.and_comm, and_mod_256, Nat.and_comm]
  have h3 : ((n + 1) % 256 &&& 0xfe) % 2 = 0 := by
    rw [← Nat.and_one_is_mod, Nat.and_assoc]; simp
  have h4 : ((n + 1) % 256 &&& 0xfe) / 2 = (n + 1) % 256 / 2 := by
    rw [Nat.and_div_two]
    exact Nat.and_pow_two_sub_one_of_lt_two_pow (n := 7) (by omega)
  have h5 : (2 : Nat) ^ 8 = 256 := by norm_num
  rw [h5, h1]
  omega

theorem round_props (n : Nat) :
    (((n + 1) &&& 0xfe) % 2 ^ 8) % 2 = 0 ∧ ((n + 1) &&& 0xfe) % 2 ^ 8 < 256 := by
  have h1 : ((n + 1) &&& 0xfe) % 256 = (n + 1) % 256 &&& 0xfe := by
    rw [Nat.and_comm, and_mod_256, Nat.and_comm]
  have h3 : ((n + 1) % 256 &&& 0xfe) % 2 = 0 := by
    rw [← Nat.and_one_is_mod, Nat.and_assoc]; simp
  have h5 : (2 : Nat) ^ 8 = 256 := by norm_num
  rw [h5, h1]
  exact ⟨h3, lt_of_le_of_lt Nat.and_le_left (Nat.mod_lt _ (by norm_num))⟩

theorem commitRow_row_length (s : LVP) (h : s.row.length = ROW_SIZE) :
    (LVP_commitRow s).row.length = ROW_SIZE := by
  unfold LVP_commitRow
  split
  · exact blankRow_length
  · exact h

theorem adoptRow_row_length (nr : Nat) (s : LVP) (h : s.row.length = ROW_SIZE) :
    (adoptRow nr s).row.length = ROW_SIZE := by
  unfold adoptRow
  split
  · exact commitRow_row_length s h
  · exact h

theorem packRow_unfold (address : Nat) (data : List Nat) (data_count : Nat) (s : LVP)
    (idx nr dc : Nat) (hidx : (address &&& 0xfe) >>> 1 = idx)
    (hnr : ((address &&& 0xfffffff00) >>> 1) % 2 ^ 32 = nr)
    (hdc : ((data_count + 1) &&& 0xfe) % 2 ^ 8 = dc) :
    LVP_packRow address data data_count s =
      (let c := LVP_packRow_fill data 128
          { st := adoptRow nr s, pos := 0, index := idx, data_count := dc }
       if c.index == ROW_SIZE then
         let s2 := LVP_commitRow c.st
         if c.data_count > 0 then
           (LVP_packRow_spill data 128
             { c with st := { s2 with row_address := (s2.row_address + ROW_SIZE) % 2 ^ 32 },
                      index := 0 }).st
         else s2
       else c.st) := by
  subst hidx hnr hdc
  rfl

theorem packRow_within (address : Nat) (data : List Nat) (data_count : Nat) (s : LVP)
    (idx nr dc : Nat) (hidx : (address &&& 0xfe) >>> 1 = idx)
    (hnr : ((address &&& 0xfffffff00) >>> 1) % 2 ^ 32 = nr)
    (hdc : ((data_count + 1) &&& 0xfe) % 2 ^ 8 = dc)
    (hrow : s.row.length = ROW_SIZE) (hfit : idx + dc / 2 < ROW_SIZE) :
    LVP_packRow address data data_count s =
      { adoptRow nr s with
        row := overlay (adoptRow nr s).row idx (fun j => LVP_packRow_word data (2 * j))
          (dc / 2) } := by
  have hp := round_props data_count
  rw [hdc] at hp
  have hk : min (dc / 2) (ROW_SIZE - idx) = dc / 2 := by omega
  have hne : ¬ idx + dc / 2 = ROW_SIZE := by omega
  rw [packRow_unfold address data data_count s idx nr dc hidx hnr hdc]
  simp only []
  rw [fill_spec data 128 _ (adoptRow_row_length nr s hrow) (by simp only []; omega) hp.1
    (by simp only []; omega) hp.2]
  simp only [hk, beq_iff_eq, hne, if_false, Nat.zero_add]

theorem packRow_cross (address : Nat) (data : List Nat) (data_count : Nat) (s : LVP)
    (idx nr dc : Nat) (hidx : (address &&& 0xfe) >>> 1 = idx)
    (hnr : ((address &&& 0xfffffff00) >>> 1) % 2 ^ 32 = nr)
    (hdc : ((data_count + 1) &&& 0xfe) % 2 ^ 8 = dc)
    (hrow : s.row.length = ROW_SIZE) (hle : idx ≤ ROW_SIZE) (hfit : ROW_SIZE ≤ idx + dc / 2)
    (hend : idx + dc / 2 ≤ 2 * ROW_SIZE) :
    LVP_packRow address data data_count s =
      (let s2 := LVP_commitRow
          { adoptRow nr s with
            row := overlay (adoptRow nr s).row idx (fun j => LVP_packRow_word data (2 * j))
              (ROW_SIZE - idx) }
       if idx + dc / 2 = ROW_SIZE then s2
       else { s2 with
              row_address := (s2.row_address + ROW_SIZE) % 2 ^ 32,
              row := overlay s2.row 0
                (fun j => LVP_packRow_word data (2 * (ROW_SIZE - idx) + 2 * j))
                (idx + dc / 2 - ROW_SIZE) }) := by
  have hp := round_props data_count
  rw [hdc] at hp
  have hk : min (dc / 2) (ROW_SIZE - idx) = ROW_SIZE - idx := by omega
  have he : idx + (ROW_SIZE - idx) = ROW_SIZE := by omega
  rw [packRow_unfold address data data_count s idx nr dc hidx hnr hdc]
  simp only []
  rw [fill_spec data 128 _ (adoptRow_row_length nr s hrow) (by simp only []; omega) hp.1
    (by simp only []; omega) hp.2]
  simp only [hk, he, beq_self_eq_true, if_true, Nat.zero_add]
  by_cases hz : idx + dc / 2 = ROW_SIZE
  · have h0 : ¬ dc - 2 * (ROW_SIZE - idx) > 0 := by omega
    simp only [h0, hz, if_false, if_true]
  · have h0 : dc - 2 * (ROW_SIZE - idx) > 0 := by omega
    simp only [h0, hz, if_false, if_true]
    have hq : (dc - 2 * (ROW_SIZE - idx)) / 2 = idx + dc / 2 - ROW_SIZE := by omega
    have hR : ROW_SIZE = 64 := rfl
    have c1 : 0 + (dc - 2 * (ROW_SIZE - idx)) / 2 ≤ ROW_SIZE := by omega
    have c2 : (dc - 2 * (ROW_SIZE - idx)) % 2 = 0 := by omega
    have c3 : dc - 2 * (ROW_SIZE - idx) ≤ 2 * 128 := by omega
    have c4 : dc - 2 * (ROW_SIZE - idx) < 256 := by omega
    have hlen2 : (LVP_commitRow
        { adoptRow nr s with
          row := overlay (adoptRow nr s).row idx (fun j => LVP_packRow_word data (2 * j))
            (ROW_SIZE - idx) }).row.length = ROW_SIZE :=
      commitRow_row_length
        { adoptRow nr s with
          row := overlay (adoptRow nr s).row idx (fun j => LVP_packRow_word data (2 * j))
            (ROW_SIZE - idx) }
        (overlay_length (adoptRow nr s).row idx (fun j => LVP_packRow_word data (2 * j))
          (ROW_SIZE - idx))
    generalize LVP_commitRow
        { adoptRow nr s with
          row := overlay (adoptRow nr s).row idx (fun j => LVP_packRow_word data (2 * j))
            (ROW_SIZE - idx) } = s2 at hlen2 ⊢
    rw [spill_spec data 128
      { st := { s2 with row_address := (s2.row_address + ROW_SIZE) % 2 ^ 32 },
        pos := 2 * (ROW_SIZE - idx), index := 0,
        data_count := dc - 2 * (ROW_SIZE - idx) } hlen2 c1 c2 c3 c4]
    simp only [hq, Nat.zero_add]

theorem packRow_beyond (address : Nat) (data : List Nat) (data_count : Nat) (s : LVP)
    (idx nr : Nat) (hidx : (address &&& 0xfe) >>> 1 = idx)
    (hnr : ((address &&& 0xfffffff00) >>> 1) % 2 ^ 32 = nr)
    (hgt : ROW_SIZE < idx) :
    LVP_packRow address data data_count s = adoptRow nr s := by
  rw [packRow_unfold address data data_count s idx nr _ hidx hnr rfl]
  have hf : ∀ c : Pack, ROW_SIZE < c.index → LVP_packRow_fill data 128 c = c := by
    intro c hc
    have : ¬ c.index < ROW_SIZE := by omega
    simp [LVP_packRow_fill, this]
  have hne : ¬ idx = ROW_SIZE := by omega
  simp only []
  rw [hf _ hgt]
  simp only [beq_iff_eq, hne, if_false]

theorem exit_eq (s : LVP) :
    LVP_exit s = { s with lvp := false, out := s.out ++ exitActs } := by
  simp [LVP_exit, LVP.emit, exitActs, List.append_assoc]

theorem adoptRow_blank (nr : Nat) (s : LVP)
    (hb : ∀ i, i < ROW_SIZE → s.row.getD i 0 % 2 ^ 16 = 0xffff) :
    adoptRow nr s = { s with row_address := nr } := by
  unfold adoptRow
  rw [commitRow_blank s hb]
  by_cases h : nr = s.row_address
  · simp [h]
  · simp [h]

theorem adoptRow_same (s : LVP) : adoptRow s.row_address s = s := by
  simp [adoptRow]

theorem commitRow_programming (s : LVP) (hl : s.lvp = true)
    (hra : s.row_address < CFG_ADDRESS)
    (hnb : ¬ ∀ i, i < ROW_SIZE → s.row.getD i 0 % 2 ^ 16 = 0xffff) :
    LVP_commitRow s = { s with out := s.out ++ rowActs s.row_address s.row, row := blankRow } := by
  rw [commitRow_nonblank s hnb, write_programming s hl hra]

theorem commitRow_cfg (s : LVP) (hl : s.lvp = true)
    (hra : CFG_ADDRESS ≤ s.row_address) (hset : s.row_address ≠ ROW_UNSET)
    (hnb : ¬ ∀ i, i < ROW_SIZE → s.row.getD i 0 % 2 ^ 16 = 0xffff) :
    LVP_commitRow s
      = { s with out := s.out ++ ICSP_addressLoad (((s.row_address <<< 1) % 2 ^ 32) % 2 ^ 24),
                 row := blankRow } := by
  rw [commitRow_nonblank s hnb]
  simp [LVP_write, LVP_inProgress, hl, hset, hra, LVP.emit]

theorem programLastRow_blank (s : LVP)
    (hb : ∀ i, i < ROW_SIZE → s.row.getD i 0 % 2 ^ 16 = 0xffff) :
    LVP_programLastRow s = { s with lvp := false, out := s.out ++ exitActs } := by
  rw [LVP_programLastRow, commitRow_blank s hb, exit_eq]

theorem programLastRow_programming (s : LVP) (hl : s.lvp = true)
    (hra : s.row_address < CFG_ADDRESS)
    (hnb : ¬ ∀ i, i < ROW_SIZE → s.row.getD i 0 % 2 ^ 16 = 0xffff) :
    LVP_programLastRow s
      = { s with lvp := false, out := s.out ++ rowActs s.row_address s.row ++ exitActs,
                 row := blankRow } := by
  rw [LVP_programLastRow, commitRow_programming s hl hra hnb, exit_eq]

theorem Cmd_ne_nil (d : Nat) : ICSP_Cmd d ≠ [] := by
  simp [ICSP_Cmd, ICSP_controlCode]

theorem rowWrite_ne_nil (buffer : List Nat) (count : Nat) : ICSP_rowWrite buffer count ≠ [] := by
  simp [ICSP_rowWrite, Cmd_ne_nil]

theorem addressLoad_ne_nil (a : Nat) : ICSP_addressLoad a ≠ [] := by
  simp [ICSP_addressLoad, ICSP_exitResetVector, Cmd_ne_nil]

theorem rowActs_ne_nil (r : Nat) (row : List Nat) : rowActs r row ≠ [] := by
  simp [rowActs, addressLoad_ne_nil]

theorem append_ne_insert (l e r : List Act) (hr : r ≠ []) : l ++ e ≠ l ++ r ++ e := by
  intro h
  rw [List.append_assoc] at h
  have h2 := List.append_cancel_left h
  have h3 := congrArg List.length h2
  rw [List.length_append] at h3
  have : r.length = 0 := by omega
  exact hr (List.length_eq_zero.mp this)

theorem packRow_word_eq (data : List Nat) (j : Nat) (hb : ∀ b, b ∈ data → b < 256) :
    LVP_packRow_word data (2 * j) = wordAt data j := by
  have hd : ∀ i, data.getD i 0 < 256 := by
    intro i
    rw [List.getD_eq_getElem?_getD]
    by_cases hi : i < data.length
    · rw [List.getElem?_eq_getElem hi]
      exact hb _ (List.getElem_mem _)
    · rw [List.getElem?_eq_none (Nat.le_of_not_lt hi)]
      norm_num
  have h0 := hd (2 * j)
  have h1 := hd (2 * j + 1)
  simp only [LVP_packRow_word, wordAt, Nat.shiftLeft_eq]
  omega

theorem packRow_word_lt (data : List Nat) (p : Nat) : LVP_packRow_word data p < 2 ^ 16 :=
  Nat.mod_lt _ (by norm_num)

theorem nonblank_of_getD (row : List Nat) (i : Nat) (hi : i < ROW_SIZE)
    (hlt : row.getD i 0 < 2 ^ 16) (hne : row.getD i 0 ≠ 0xFFFF) :
    ¬ ∀ i, i < ROW_SIZE → row.getD i 0 % 2 ^ 16 = 0xffff := by
  intro h
  have := h i hi
  omega

theorem blank_of_eq (s : LVP) (hb : s.row = blankRow) :
    ∀ i, i < ROW_SIZE → s.row.getD i 0 % 2 ^ 16 = 0xffff := by
  intro i hi; rw [hb]; exact blankRow_blank i hi

theorem out_ne_append (l r : List Act) (hr : r ≠ []) : l ≠ l ++ r := by
  intro h
  have h3 : l ++ [] = l ++ r := by rw [List.append_nil]; exact h
  exact hr (List.append_cancel_left h3).symm

theorem nonblank_of_mem (row : List Nat) (hlen : row.length = ROW_SIZE)
    (hw : ∀ w, w ∈ row → w < 2 ^ 16) (hnb : ∃ w, w ∈ row ∧ w ≠ 0xFFFF) :
    ¬ ∀ i, i < ROW_SIZE → row.getD i 0 % 2 ^ 16 = 0xffff := by
  intro h
  obtain ⟨w, hmem, hne⟩ := hnb
  obtain ⟨i, hi, hget⟩ := List.getElem_of_mem hmem
  have h1 := h i (by omega)
  rw [List.getD_eq_getElem?_getD, List.getElem?_eq_getElem hi, hget] at h1
  have h2 := hw w hmem
  simp only [Option.getD_some] at h1
  omega

/-! ## Claims C1 to C6 -/

/-- C6 (as stated, refuted): in an active session with the row address set to
`CFG_ADDRESS` and a non-blank buffer, `LVP_commitRow` performs the address load
and no row write. -/
theorem C6_commitRow_cfg_counterexample :
    (LVP_commitRow
        { row := 0 :: List.replicate 63 0xFFFF, row_address := CFG_ADDRESS, lvp := true,
          out := [], overrun := false }).out
      = ICSP_addressLoad (CFG_ADDRESS <<< 1)
    ∧ (LVP_commitRow
        { row := 0 :: List.replicate 63 0xFFFF, row_address := CFG_ADDRESS, lvp := true,
          out := [], overrun := false }).out
      ≠ ICSP_addressLoad (CFG_ADDRESS <<< 1)
          ++ ICSP_rowWrite (0 :: List.replicate 63 0xFFFF) ROW_SIZE := by
  have hnb : ¬ ∀ i, i < ROW_SIZE →
      (0 :: List.replicate 63 0xFFFF : List Nat).getD i 0 % 2 ^ 16 = 0xffff := by
    intro h
    have := h 0 (by decide)
    simp at this
  have hrun := commitRow_cfg
    { row := 0 :: List.replicate 63 0xFFFF, row_address := CFG_ADDRESS, lvp := true,
      out := [], overrun := false } rfl (le_refl _) (by decide) hnb
  have hout := congrArg LVP.out hrun
  simp only [List.nil_append] at hout
  have ha : ((CFG_ADDRESS <<< 1) % 2 ^ 32) % 2 ^ 24 = CFG_ADDRESS <<< 1 := by decide
  rw [ha] at hout
  refine ⟨hout, ?_⟩
  rw [hout]
  intro h
  have h2 : ICSP_addressLoad (CFG_ADDRESS <<< 1) ++ []
      = ICSP_addressLoad (CFG_ADDRESS <<< 1)
        ++ ICSP_rowWrite (0 :: List.replicate 63 0xFFFF) ROW_SIZE := by
    rw [List.append_nil]; exact h
  exact rowWrite_ne_nil _ _ (List.append_cancel_left h2).symm

/-- C6 (amended): in an active session, for every row buffer of `ROW_SIZE` 16-bit
words with at least one word different from 0xFFFF: when the row address is below
`CFG_ADDRESS`, `LVP_commitRow` performs the address load for
`row_address << 1` followed by one `ICSP_rowWrite` of all `ROW_SIZE` buffered
words and leaves the buffer all 0xFFFF; when the row address is set and at or
above `CFG_ADDRESS`, it performs only the address load (no row write) and still
leaves the buffer all 0xFFFF. -/
theorem C6_commitRow_transmits (s : LVP) (hl : s.lvp = true)
    (hlen : s.row.length = ROW_SIZE) (hw : ∀ w, w ∈ s.row → w < 2 ^ 16)
    (hnb : ∃ w, w ∈ s.row ∧ w ≠ 0xFFFF) :
    (s.row_address < CFG_ADDRESS →
      LVP_commitRow s
        = { s with
            out := s.out ++ ICSP_addressLoad (s.row_address <<< 1)
                    ++ ICSP_rowWrite s.row ROW_SIZE,
            row := List.replicate ROW_SIZE 0xFFFF })
    ∧ (CFG_ADDRESS ≤ s.row_address → s.row_address ≠ ROW_UNSET → s.row_address < 2 ^ 32 →
      LVP_commitRow s
        = { s with
            out := s.out ++ ICSP_addressLoad ((s.row_address <<< 1) % 2 ^ 24),
            row := List.replicate ROW_SIZE 0xFFFF }) := by
  have hnb2 := nonblank_of_mem s.row hlen hw hnb
  constructor
  · intro hra
    rw [commitRow_programming s hl hra hnb2, rowActs, List.append_assoc]
    rfl
  · intro hra hset h32
    rw [commitRow_cfg s hl hra hset hnb2]
    have : ((s.row_address <<< 1) % 2 ^ 32) % 2 ^ 24 = (s.row_address <<< 1) % 2 ^ 24 := by
      omega
    rw [this]
    rfl

/-- Witness for C6 (amended): a row with first word 0x1234 at row address 64. -/
theorem C6_commitRow_transmits_witness :
    LVP_commitRow
        { row := 0x1234 :: List.replicate 63 0xFFFF, row_address := 64, lvp := true,
          out := [], overrun := false }
      = { row := List.replicate ROW_SIZE 0xFFFF, row_address := 64, lvp := true,
          out := [] ++ ICSP_addressLoad (64 <<< 1)
                  ++ ICSP_rowWrite (0x1234 :: List.replicate 63 0xFFFF) ROW_SIZE,
          overrun := false } :=
  (C6_commitRow_transmits
      { row := 0x1234 :: List.replicate 63 0xFFFF, row_address := 64, lvp := true,
        out := [], overrun := false }
      rfl (by decide) (by decide) ⟨0x1234, by decide, by decide⟩).1 (by decide)

theorem round_val (n : Nat) (hn : n < 255) : ((n + 1) &&& 0xfe) % 2 ^ 8 = n + n % 2 := by
  have h1 : ((n + 1) &&& 0xfe) % 256 = (n + 1) % 256 &&& 0xfe := by
    rw [Nat.and_comm, and_mod_256, Nat.and_comm]
  have h3 : ((n + 1) % 256 &&& 0xfe) % 2 = 0 := by
    rw [← Nat.and_one_is_mod, Nat.and_assoc]; simp
  have h4 : ((n + 1) % 256 &&& 0xfe) / 2 = (n + 1) % 256 / 2 := by
    rw [Nat.and_div_two]
    exact Nat.and_pow_two_sub_one_of_lt_two_pow (n := 7) (by omega)
  have h5 : (2 : Nat) ^ 8 = 256 := by norm_num
  rw [h5, h1]
  omega

theorem overlay_blank (row : List Nat) (idx : Nat) (f : Nat → Nat) (k : Nat)
    (hrow : row = blankRow) (hf : ∀ j, j < k → f j = 0xFFFF) :
    overlay row idx f k = blankRow := by
  apply eq_of_getD _ _ ROW_SIZE (overlay_length _ _ _ _) blankRow_length
  intro i hi
  rw [overlay_getD _ _ _ _ _ hi, hrow, blankRow_getD i hi]
  split
  · exact hf _ (by omega)
  · rfl

theorem packRow_word_ff (data : List Nat) (p : Nat) (h0 : data.getD p 0 = 0xFF)
    (h1 : data.getD (p + 1) 0 = 0xFF) : LVP_packRow_word data p = 0xFFFF := by
  simp only [LVP_packRow_word, h0, h1]
  decide

theorem packRow_blank_data (s : LVP) (address : Nat) (data : List Nat) (data_count : Nat)
    (hb : s.row = blankRow) (hn : data_count ≤ 128)
    (hff : ∀ i, i < data_count + data_count % 2 → data.getD i 0 = 0xFF) :
    ∃ ra, LVP_packRow address data data_count s = { s with row_address := ra } := by
  have hdc := round_val data_count (by omega)
  have hblank : ∀ i, i < ROW_SIZE → s.row.getD i 0 % 2 ^ 16 = 0xffff := by
    intro i hi; rw [hb]; exact blankRow_blank i hi
  have hR : ROW_SIZE = 64 := rfl
  have hadopt := adoptRow_blank (((address &&& 0xfffffff00) >>> 1) % 2 ^ 32) s hblank
  have hw : ∀ off j, 2 * off + 2 * j + 1 < data_count + data_count % 2 →
      LVP_packRow_word data (2 * off + 2 * j) = 0xFFFF := by
    intro off j hj
    exact packRow_word_ff data _ (hff _ (by omega)) (hff _ (by omega))
  have hlen : s.row.length = ROW_SIZE := by rw [hb]; exact blankRow_length
  rcases Nat.lt_or_ge ((address &&& 0xfe) >>> 1 + (data_count + data_count % 2) / 2) ROW_SIZE
    with h1 | h1
  · rw [packRow_within address data data_count s _ _ _ rfl rfl hdc hlen h1, hadopt]
    simp only []
    rw [overlay_blank s.row _ _ _ hb
      (fun j hj => by have := hw 0 j (by omega); simpa using this)]
    exact ⟨_, by rw [← hb]⟩
  · rcases Nat.lt_or_ge ROW_SIZE ((address &&& 0xfe) >>> 1) with h2 | h2
    · exact ⟨_, by rw [packRow_beyond address data data_count s _ _ rfl rfl h2, hadopt]⟩
    · have hov1 : overlay s.row ((address &&& 0xfe) >>> 1)
          (fun j => LVP_packRow_word data (2 * j)) (ROW_SIZE - (address &&& 0xfe) >>> 1)
          = s.row := by
        rw [overlay_blank s.row _ _ _ hb
          (fun j hj => by have := hw 0 j (by omega); simpa using this)]
        exact hb.symm
      rw [packRow_cross address data data_count s _ _ _ rfl rfl hdc hlen h2 h1 (by omega),
        hadopt]
      simp only [hov1]
      have hs1 : ({ s with row_address := ((address &&& 0xfffffff00) >>> 1) % 2 ^ 32,
                           row := s.row } : LVP)
          = { s with row_address := ((address &&& 0xfffffff00) >>> 1) % 2 ^ 32 } := rfl
      have hc := commitRow_blank
        { s with row_address := ((address &&& 0xfffffff00) >>> 1) % 2 ^ 32 } hblank
      rw [hs1, hc]
      split
      · exact ⟨_, rfl⟩
      · simp only []
        rw [overlay_blank s.row _ _ _ hb (fun j hj => hw _ j (by omega))]
        exact ⟨_, by rw [← hb]⟩

/-- C5 (as stated, refuted): from a freshly entered session, a one-byte buffer
holding 0xFF is rounded up to two bytes, so the byte after it is packed too.
With the caller's array `[0xFF, 0x12]` and byte count 1 the word 0x12FF is not
blank and `LVP_programLastRow` transmits a row; with the one-element list
`[0xFF]` the byte read beyond the list is 0 and the word 0x00FF is transmitted. -/
theorem C5_odd_count_counterexample :
    ((LVP_programLastRow (LVP_packRow 0 [0xFF, 0x12] 1 (LVP_enter powerOn))).out
        = (LVP_enter powerOn).out ++ rowActs 0 (0x12FF :: List.replicate 63 0xFFFF)
            ++ exitActs
      ∧ (LVP_programLastRow (LVP_packRow 0 [0xFF, 0x12] 1 (LVP_enter powerOn))).out
        ≠ (LVP_enter powerOn).out ++ exitActs)
    ∧ ((LVP_programLastRow (LVP_packRow 0 [0xFF] 1 (LVP_enter powerOn))).out
        = (LVP_enter powerOn).out ++ rowActs 0 (0x00FF :: List.replicate 63 0xFFFF)
            ++ exitActs
      ∧ (LVP_programLastRow (LVP_packRow 0 [0xFF] 1 (LVP_enter powerOn))).out
        ≠ (LVP_enter powerOn).out ++ exitActs) := by
  have key : ∀ (s : LVP) (data : List Nat) (w : Nat), s.lvp = true → s.row = blankRow →
      LVP_packRow_word data 0 = w → w < 2 ^ 16 → w ≠ 0xFFFF →
      (LVP_programLastRow (LVP_packRow 0 data 1 s)).out
        = s.out ++ rowActs 0 (w :: List.replicate 63 0xFFFF) ++ exitActs := by
    intro s data w hl hb hw hlt hne
    have hpack := packRow_within 0 data 1 s 0 0 2 (by decide) (by decide) (by decide)
      (by rw [hb]; exact blankRow_length) (by decide)
    rw [adoptRow_blank 0 s (blank_of_eq s hb)] at hpack
    simp only [hb] at hpack
    have hrow : overlay blankRow 0 (fun j => LVP_packRow_word data (2 * j)) (2 / 2)
        = w :: List.replicate 63 0xFFFF := by
      apply eq_of_getD _ _ ROW_SIZE (overlay_length _ _ _ _) (by simp [ROW_SIZE])
      intro i hi
      rw [overlay_getD _ _ _ _ _ hi]
      by_cases h0 : i = 0
      · subst h0
        rw [if_pos (by decide)]
        exact hw
      · rw [if_neg (by omega), blankRow_getD i hi]
        obtain ⟨k, rfl⟩ := Nat.exists_eq_succ_of_ne_zero h0
        have hk : k < 63 := by have : k + 1 < 64 := hi; omega
        rw [List.getD_cons_succ, List.getD_eq_getElem?_getD, List.getElem?_replicate,
          if_pos hk]
        rfl
    rw [hrow] at hpack
    have hnb : ¬ ∀ i, i < ROW_SIZE →
        (w :: List.replicate 63 0xFFFF : List Nat).getD i 0 % 2 ^ 16 = 0xffff := by
      apply nonblank_of_getD _ 0 (by decide)
      · exact hlt
      · exact hne
    rw [hpack, programLastRow_programming
      { s with row_address := 0, row := w :: List.replicate 63 0xFFFF } hl
      (by show 0 < CFG_ADDRESS; decide) hnb]
  have h1 := key (LVP_enter powerOn) [0xFF, 0x12] 0x12FF rfl rfl (by decide) (by decide)
    (by decide)
  have h2 := key (LVP_enter powerOn) [0xFF] 0x00FF rfl rfl (by decide) (by decide)
    (by decide)
  refine ⟨⟨h1, ?_⟩, ⟨h2, ?_⟩⟩
  · rw [h1]
    exact (append_ne_insert _ _ _ (rowActs_ne_nil _ _)).symm
  · rw [h2]
    exact (append_ne_insert _ _ _ (rowActs_ne_nil _ _)).symm

/-- C5 (amended): starting from a state whose row buffer is all 0xFFFF, in either
session state, for every address and every byte count of at most 128 such that
every byte the rounded-up count reads is 0xFF (the `data_count` bytes of the
buffer and, when `data_count` is odd, the byte after them), `LVP_packRow` emits
nothing and `LVP_programLastRow` emits only the exit handshake: no address load,
no row write and no bulk erase; the buffer stays all 0xFFFF. -/
theorem C5_blank_data_no_commit (s : LVP) (address : Nat) (data : List Nat) (data_count : Nat)
    (hb : s.row = List.replicate ROW_SIZE 0xFFFF) (hn : data_count ≤ 128)
    (hff : ∀ i, i < data_count + data_count % 2 → data.getD i 0 = 0xFF) :
    (LVP_packRow address data data_count s).out = s.out
    ∧ (LVP_packRow address data data_count s).lvp = s.lvp
    ∧ (LVP_packRow address data data_count s).row = List.replicate ROW_SIZE 0xFFFF
    ∧ (LVP_programLastRow (LVP_packRow address data data_count s)).out
        = s.out ++ ICSP_slaveReset ++ [delay_ms 1] ++ ICSP_release
            ++ [LED_Off RED_LED, LED_On GREEN_LED]
    ∧ (LVP_programLastRow (LVP_packRow address data data_count s)).row
        = List.replicate ROW_SIZE 0xFFFF
    ∧ (LVP_programLastRow (LVP_packRow address data data_count s)).lvp = false := by
  obtain ⟨ra, hra⟩ := packRow_blank_data s address data data_count hb hn hff
  have hblank : ∀ i, i < ROW_SIZE →
      ({ s with row_address := ra } : LVP).row.getD i 0 % 2 ^ 16 = 0xffff := by
    intro i hi
    show s.row.getD i 0 % 2 ^ 16 = 0xffff
    rw [hb]; exact blankRow_blank i hi
  rw [hra, programLastRow_blank _ hblank]
  refine ⟨rfl, rfl, hb, ?_, hb, rfl⟩
  simp [exitActs, List.append_assoc]

/-- Witness for C5 (amended): sixteen 0xFF bytes at address 0x40 on the
power-on state with a blank buffer. -/
theorem C5_blank_data_no_commit_witness :
    (LVP_programLastRow
        (LVP_packRow 0x40 (List.replicate 16 0xFF) 16
          { powerOn with row := List.replicate ROW_SIZE 0xFFFF })).out
      = [] ++ ICSP_slaveReset ++ [delay_ms 1] ++ ICSP_release
          ++ [LED_Off RED_LED, LED_On GREEN_LED] :=
  (C5_blank_data_no_commit { powerOn with row := List.replicate ROW_SIZE 0xFFFF } 0x40
    (List.replicate 16 0xFF) 16 rfl (by decide) (by decide)).2.2.2.1

theorem getD_lt_256 (data : List Nat) (hb : ∀ b, b ∈ data → b < 256) (i : Nat) :
    data.getD i 0 < 256 := by
  rw [List.getD_eq_getElem?_getD]
  by_cases hi : i < data.length
  · rw [List.getElem?_eq_getElem hi]
    exact hb _ (List.getElem_mem _)
  · rw [List.getElem?_eq_none (Nat.le_of_not_lt hi)]
    norm_num

theorem wordAt_lt (data : List Nat) (hb : ∀ b, b ∈ data → b < 256) (j : Nat) :
    wordAt data j < 2 ^ 16 := by
  have h0 := getD_lt_256 data hb (2 * j)
  have h1 := getD_lt_256 data hb (2 * j + 1)
  simp only [wordAt]
  omega

theorem exists_word_of_byte (data : List Nat) (heven : data.length % 2 = 0)
    (hb : ∀ b, b ∈ data → b < 256) (hnb : ∃ b, b ∈ data ∧ b ≠ 0xFF) :
    ∃ j, j < data.length / 2 ∧ wordAt data j ≠ 0xFFFF := by
  obtain ⟨b, hmem, hne⟩ := hnb
  obtain ⟨i, hi, hget⟩ := List.getElem_of_mem hmem
  have hgd : data.getD i 0 = b := by
    rw [List.getD_eq_getElem?_getD, List.getElem?_eq_getElem hi, hget]; rfl
  refine ⟨i / 2, by omega, ?_⟩
  have h0 := getD_lt_256 data hb (2 * (i / 2))
  have h1 := getD_lt_256 data hb (2 * (i / 2) + 1)
  simp only [wordAt]
  intro h
  rcases Nat.mod_two_eq_zero_or_one i with hm | hm
  · have : 2 * (i / 2) = i := by omega
    rw [this] at h h0
    omega
  · have : 2 * (i / 2) + 1 = i := by omega
    rw [this] at h h1
    omega

theorem overlay_congr (row : List Nat) (idx : Nat) (f g : Nat → Nat) (k : Nat)
    (h : ∀ j, j < k → f j = g j) : overlay row idx f k = overlay row idx g k := by
  unfold overlay
  apply List.map_congr_left
  intro i _
  by_cases hc : idx ≤ i ∧ i < idx + k
  · rw [if_pos hc, if_pos hc]; exact h _ (by omega)
  · rw [if_neg hc, if_neg hc]

theorem overlay_blankRow (idx : Nat) (f : Nat → Nat) (k : Nat) :
    overlay blankRow idx f k
      = (List.range ROW_SIZE).map
          (fun i => if idx ≤ i ∧ i < idx + k then f (i - idx) else 0xFFFF) := by
  unfold overlay
  apply List.map_congr_left
  intro i hi
  by_cases hc : idx ≤ i ∧ i < idx + k
  · rw [if_pos hc, if_pos hc]
  · rw [if_neg hc, if_neg hc, blankRow_getD i (List.mem_range.mp hi)]

theorem overlay_nonblank (row : List Nat) (idx : Nat) (f : Nat → Nat) (k : Nat)
    (hfit : idx + k ≤ ROW_SIZE) (hf : ∀ j, j < k → f j < 2 ^ 16)
    (hnb : ∃ j, j < k ∧ f j ≠ 0xFFFF) :
    ¬ ∀ i, i < ROW_SIZE → (overlay row idx f k).getD i 0 % 2 ^ 16 = 0xffff := by
  intro h
  obtain ⟨j, hj, hne⟩ := hnb
  have h1 := h (idx + j) (by omega)
  rw [overlay_getD _ _ _ _ _ (by omega), if_pos (by omega)] at h1
  have h2 : idx + j - idx = j := by omega
  rw [h2] at h1
  have h3 := hf j hj
  omega

theorem programLastRow_cfg (s : LVP) (hl : s.lvp = true)
    (hra : CFG_ADDRESS ≤ s.row_address) (hset : s.row_address ≠ ROW_UNSET)
    (hnb : ¬ ∀ i, i < ROW_SIZE → s.row.getD i 0 % 2 ^ 16 = 0xffff) :
    LVP_programLastRow s
      = { s with lvp := false,
                 out := s.out ++ ICSP_addressLoad (((s.row_address <<< 1) % 2 ^ 32) % 2 ^ 24)
                          ++ exitActs,
                 row := blankRow } := by
  rw [LVP_programLastRow, commitRow_cfg s hl hra hset hnb, exit_eq]

theorem fresh_within (s : LVP) (address : Nat) (data : List Nat)
    (hb : s.row = blankRow) (ha : address < 2 ^ 32)
    (heven : data.length % 2 = 0) (hbytes : ∀ b, b ∈ data → b < 256)
    (hfit : address / 2 % 128 + data.length / 2 < ROW_SIZE) :
    LVP_packRow address data data.length s
      = { s with row_address := address / 256 * 128,
                 row := overlay blankRow (address / 2 % 128) (wordAt data)
                   (data.length / 2) } := by
  have hR : ROW_SIZE = 64 := rfl
  have hblank : ∀ i, i < ROW_SIZE → s.row.getD i 0 % 2 ^ 16 = 0xffff := by
    intro i hi; rw [hb]; exact blankRow_blank i hi
  have hlen : s.row.length = ROW_SIZE := by rw [hb]; exact blankRow_length
  rw [packRow_within address data data.length s _ _ _ (and_0xfe address)
    (and_0xfffffff00 address ha) (round_even data.length (by omega) heven) hlen hfit,
    adoptRow_blank _ s hblank]
  simp only [hb]
  rw [overlay_congr blankRow _ _ (wordAt data) _ (fun j _ => packRow_word_eq data j hbytes)]

theorem fresh_blank (i : Nat) (hi : i < ROW_SIZE) :
    (LVP_enter powerOn).row.getD i 0 % 2 ^ 16 = 0xffff :=
  blankRow_blank i hi

theorem append_ne_insert_right (l a e r : List Act) (hr : r ≠ []) :
    l ++ a ++ e ≠ l ++ (a ++ r) ++ e := by
  intro h
  rw [List.append_assoc, List.append_assoc, List.append_assoc] at h
  have h2 := List.append_cancel_left (List.append_cancel_left h)
  have h3 := congrArg List.length h2
  rw [List.length_append] at h3
  have : r.length = 0 := by omega
  exact hr (List.length_eq_zero.mp this)

/-- C2 (as stated, refuted), two inputs on a freshly entered session.
Bytes `[0x11, 0x22]` at address 0x82 fit inside the row at word address 64
(offset 1), yet nothing is transmitted: the exit handshake is the only activity.
Bytes `[0x11, 0x22]` at address `2 * CFG_ADDRESS` get the address load and no row
write. -/
theorem C2_single_write_counterexample :
    ((LVP_programLastRow (LVP_packRow 0x82 [0x11, 0x22] 2 (LVP_enter powerOn))).out
        = (LVP_enter powerOn).out ++ exitActs
      ∧ (LVP_programLastRow (LVP_packRow 0x82 [0x11, 0x22] 2 (LVP_enter powerOn))).out
        ≠ (LVP_enter powerOn).out
            ++ rowActs 64 (0xFFFF :: 0x2211 :: List.replicate 62 0xFFFF) ++ exitActs)
    ∧ ((LVP_programLastRow
          (LVP_packRow (2 * CFG_ADDRESS) [0x11, 0x22] 2 (LVP_enter powerOn))).out
        = (LVP_enter powerOn).out ++ ICSP_addressLoad (CFG_ADDRESS <<< 1) ++ exitActs
      ∧ (LVP_programLastRow
          (LVP_packRow (2 * CFG_ADDRESS) [0x11, 0x22] 2 (LVP_enter powerOn))).out
        ≠ (LVP_enter powerOn).out
            ++ rowActs CFG_ADDRESS (0x2211 :: List.replicate 63 0xFFFF) ++ exitActs) := by
  have h1 : (LVP_programLastRow (LVP_packRow 0x82 [0x11, 0x22] 2 (LVP_enter powerOn))).out
      = (LVP_enter powerOn).out ++ exitActs := by
    rw [packRow_beyond 0x82 [0x11, 0x22] 2 (LVP_enter powerOn) 65 0 (by decide) (by decide)
      (by decide), adoptRow_blank 0 _ fresh_blank,
      programLastRow_blank { LVP_enter powerOn with row_address := 0 }
        (fun i hi => fresh_blank i hi)]
  have hpack := fresh_within (LVP_enter powerOn) (2 * CFG_ADDRESS) [0x11, 0x22] rfl
    (by decide) (by decide) (by decide) (by decide)
  have hrow : overlay blankRow (2 * CFG_ADDRESS / 2 % 128) (wordAt [0x11, 0x22])
      ([0x11, 0x22].length / 2) = 0x2211 :: List.replicate 63 0xFFFF := by decide
  have haddr : 2 * CFG_ADDRESS / 256 * 128 = CFG_ADDRESS := by decide
  rw [hrow, haddr] at hpack
  have hnb : ¬ ∀ i, i < ROW_SIZE →
      (0x2211 :: List.replicate 63 0xFFFF : List Nat).getD i 0 % 2 ^ 16 = 0xffff := by
    intro h
    have := h 0 (by decide)
    simp at this
  have h2 : (LVP_programLastRow
      (LVP_packRow (2 * CFG_ADDRESS) [0x11, 0x22] 2 (LVP_enter powerOn))).out
      = (LVP_enter powerOn).out ++ ICSP_addressLoad (CFG_ADDRESS <<< 1) ++ exitActs := by
    have hfin := programLastRow_cfg
      { LVP_enter powerOn with row_address := CFG_ADDRESS,
                               row := 0x2211 :: List.replicate 63 0xFFFF }
      rfl (le_refl _) (by decide) hnb
    have hm : ((CFG_ADDRESS <<< 1) % 2 ^ 32) % 2 ^ 24 = CFG_ADDRESS <<< 1 := by decide
    have hpack2 : LVP_packRow (2 * CFG_ADDRESS) [0x11, 0x22] 2 (LVP_enter powerOn)
        = { LVP_enter powerOn with row_address := CFG_ADDRESS,
                                   row := 0x2211 :: List.replicate 63 0xFFFF } := hpack
    rw [hpack2, hfin]
    simp only [hm]
  refine ⟨⟨h1, ?_⟩, ⟨h2, ?_⟩⟩
  · rw [h1]
    exact append_ne_insert _ _ _ (rowActs_ne_nil _ _)
  · rw [h2, rowActs]
    exact append_ne_insert_right _ _ _ _ (rowWrite_ne_nil _ _)

/-- C2 (amended): for every single write of an even number of bytes, not all
0xFF, that fits inside one row (word offset within the 64-word row plus byte
count / 2 below `ROW_SIZE`), at an address in the lower 64 words of its 128-word
block and with the row address below `CFG_ADDRESS`, issued on a session that is
Programming with a blank buffer (as a freshly entered one is) and followed by
`LVP_programLastRow`: `LVP_packRow` itself emits nothing,
and exactly one row is transmitted, at the row address containing the write
address, holding the data's byte pairs as little-endian words at their in-row
offsets and 0xFFFF in every other word; then the exit handshake. -/
theorem C2_single_write (s : LVP) (address : Nat) (data : List Nat)
    (hl : s.lvp = true) (hb : s.row = List.replicate ROW_SIZE 0xFFFF)
    (heven : data.length % 2 = 0) (hbytes : ∀ b, b ∈ data → b < 256)
    (hnb : ∃ b, b ∈ data ∧ b ≠ 0xFF)
    (hfit : address / 2 % ROW_SIZE + data.length / 2 < ROW_SIZE)
    (hlow : address / 2 % (2 * ROW_SIZE) < ROW_SIZE)
    (hcfg : address / 2 / ROW_SIZE * ROW_SIZE < CFG_ADDRESS) :
    (LVP_packRow address data data.length s).out = s.out
    ∧ LVP_programLastRow (LVP_packRow address data data.length s)
      = { row := List.replicate ROW_SIZE 0xFFFF,
          row_address := address / 2 / ROW_SIZE * ROW_SIZE,
          lvp := false,
          out := s.out
            ++ ICSP_addressLoad ((address / 2 / ROW_SIZE * ROW_SIZE) <<< 1)
            ++ ICSP_rowWrite
                ((List.range ROW_SIZE).map (fun i =>
                  if address / 2 % ROW_SIZE ≤ i ∧ i < address / 2 % ROW_SIZE + data.length / 2
                  then wordAt data (i - address / 2 % ROW_SIZE) else 0xFFFF))
                ROW_SIZE
            ++ exitActs,
          overrun := s.overrun } := by
  have hR : ROW_SIZE = 64 := rfl
  have hCv : CFG_ADDRESS = 0x015780 := rfl
  rw [hR] at hfit hlow hcfg
  have ha : address < 2 ^ 32 := by omega
  have hidx : address / 2 % 128 = address / 2 % 64 := by omega
  have hnr : address / 256 * 128 = address / 2 / 64 * 64 := by omega
  have hpack := fresh_within s address data hb ha heven hbytes (by rw [hidx, hR]; exact hfit)
  rw [hidx, hnr] at hpack
  obtain ⟨j, hj, hne⟩ := exists_word_of_byte data heven hbytes hnb
  have hnonblank := overlay_nonblank blankRow (address / 2 % 64) (wordAt data)
    (data.length / 2) (by rw [hR]; omega) (fun j _ => wordAt_lt data hbytes j) ⟨j, hj, hne⟩
  have hfin := programLastRow_programming
    { s with row_address := address / 2 / 64 * 64,
             row := overlay blankRow (address / 2 % 64) (wordAt data) (data.length / 2) }
    hl hcfg hnonblank
  rw [hpack]
  refine ⟨rfl, ?_⟩
  rw [hfin, overlay_blankRow]
  simp only [rowActs, List.append_assoc, hR]
  rfl

/-- Witness for C2 (amended), the example of the specification: bytes
`[0x11, 0x22, 0x33, 0x44]` at address 0 give one row at row address 0 with words
`0x2211, 0x4433` followed by 0xFFFF in the remaining 62 words. -/
theorem C2_single_write_witness :
    (LVP_programLastRow (LVP_packRow 0 [0x11, 0x22, 0x33, 0x44] 4 (LVP_enter powerOn))).out
      = (LVP_enter powerOn).out
        ++ ICSP_addressLoad (0 <<< 1)
        ++ ICSP_rowWrite (0x2211 :: 0x4433 :: List.replicate 62 0xFFFF) ROW_SIZE
        ++ exitActs := by
  have h := (C2_single_write (LVP_enter powerOn) 0 [0x11, 0x22, 0x33, 0x44] rfl rfl
    (by decide) (by decide) ⟨0x11, by decide, by decide⟩ (by decide) (by decide)
    (by decide)).2
  have hrow : (List.range ROW_SIZE).map (fun i =>
      if 0 / 2 % ROW_SIZE ≤ i ∧ i < 0 / 2 % ROW_SIZE + [0x11, 0x22, 0x33, 0x44].length / 2
      then wordAt [0x11, 0x22, 0x33, 0x44] (i - 0 / 2 % ROW_SIZE) else 0xFFFF)
      = 0x2211 :: 0x4433 :: List.replicate 62 0xFFFF := by decide
  rw [hrow] at h
  exact congrArg LVP.out h

theorem halves_getD (f g : Nat → Nat) (i : Nat) (hi : i < 64) :
    ((List.range 32).map f ++ (List.range 32).map g).getD i 0
      = if i < 32 then f i else g (i - 32) := by
  by_cases h : i < 32
  · rw [List.getD_append _ _ _ _ (by simpa using h), getD_range_map, if_pos h, if_pos h]
  · rw [List.getD_append_right _ _ _ _ (by simpa using Nat.le_of_not_lt h), if_neg h]
    simp only [List.length_map, List.length_range]
    rw [getD_range_map, if_pos (by omega)]

/-- C3 (as stated, refuted), two inputs on a freshly entered session.
At the row-aligned address 128 (word address 64) with `d1` all 0xFF and `d2`
starting with 0x00, both calls and `LVP_programLastRow` transmit no row at all.
At the row-aligned address `2 * CFG_ADDRESS` the two calls perform the address
load and no row write. -/
theorem C3_two_halves_counterexample :
    ((LVP_programLastRow
        (LVP_packRow (128 + 64) (0x00 :: List.replicate 63 0xFF) 64
          (LVP_packRow 128 (List.replicate 64 0xFF) 64 (LVP_enter powerOn)))).out
        = (LVP_enter powerOn).out ++ exitActs
      ∧ (LVP_packRow (128 + 64) (0x00 :: List.replicate 63 0xFF) 64
          (LVP_packRow 128 (List.replicate 64 0xFF) 64 (LVP_enter powerOn))).out
        ≠ (LVP_enter powerOn).out
            ++ rowActs 64 ((List.range 32).map (wordAt (List.replicate 64 0xFF))
                ++ (List.range 32).map (wordAt (0x00 :: List.replicate 63 0xFF))))
    ∧ ((LVP_packRow (2 * CFG_ADDRESS + 64) (List.replicate 64 0xFF) 64
          (LVP_packRow (2 * CFG_ADDRESS) (0x00 :: List.replicate 63 0xFF) 64
            (LVP_enter powerOn))).out
        = (LVP_enter powerOn).out ++ ICSP_addressLoad (CFG_ADDRESS <<< 1)
      ∧ (LVP_packRow (2 * CFG_ADDRESS + 64) (List.replicate 64 0xFF) 64
          (LVP_packRow (2 * CFG_ADDRESS) (0x00 :: List.replicate 63 0xFF) 64
            (LVP_enter powerOn))).out
        ≠ (LVP_enter powerOn).out
            ++ rowActs CFG_ADDRESS
              ((List.range 32).map (wordAt (0x00 :: List.replicate 63 0xFF))
                ++ (List.range 32).map (wordAt (List.replicate 64 0xFF)))) := by
  have keyA : ∀ s : LVP, s.row = blankRow →
      LVP_packRow (128 + 64) (0x00 :: List.replicate 63 0xFF) 64
        (LVP_packRow 128 (List.replicate 64 0xFF) 64 s) = { s with row_address := 0 } := by
    intro s hb
    obtain ⟨ra1, h1⟩ := packRow_blank_data s 128 (List.replicate 64 0xFF) 64
      hb (by decide) (by decide)
    rw [h1, packRow_beyond (128 + 64) (0x00 :: List.replicate 63 0xFF) 64
      { s with row_address := ra1 } 96 0 (by decide) (by decide) (by decide),
      adoptRow_blank 0 { s with row_address := ra1 } (blank_of_eq s hb)]
  have keyB : ∀ s : LVP, s.lvp = true → s.row = blankRow →
      (LVP_packRow (2 * CFG_ADDRESS + 64) (List.replicate 64 0xFF) 64
        (LVP_packRow (2 * CFG_ADDRESS) (0x00 :: List.replicate 63 0xFF) 64 s)).out
        = s.out ++ ICSP_addressLoad (CFG_ADDRESS <<< 1) := by
    intro s hl hb
    have hp1 := fresh_within s (2 * CFG_ADDRESS) (0x00 :: List.replicate 63 0xFF) hb
      (by decide) (by decide) (by decide) (by decide)
    rw [(by decide : 2 * CFG_ADDRESS / 256 * 128 = CFG_ADDRESS),
      (by decide : 2 * CFG_ADDRESS / 2 % 128 = 0),
      (by decide : (0x00 :: List.replicate 63 0xFF : List Nat).length = 64),
      (by decide : 64 / 2 = 32)] at hp1
    have hp2 := packRow_cross (2 * CFG_ADDRESS + 64) (List.replicate 64 0xFF) 64
      { s with
        row_address := CFG_ADDRESS,
        row := overlay blankRow 0 (wordAt (0x00 :: List.replicate 63 0xFF)) 32 }
      32 CFG_ADDRESS 64 (by decide) (by decide) (by decide)
      (overlay_length blankRow 0 (wordAt (0x00 :: List.replicate 63 0xFF)) 32)
      (by decide) (by decide) (by decide)
    rw [adoptRow_same
      { s with
        row_address := CFG_ADDRESS,
        row := overlay blankRow 0 (wordAt (0x00 :: List.replicate 63 0xFF)) 32 }] at hp2
    rw [if_pos (by decide : 32 + 64 / 2 = ROW_SIZE)] at hp2
    have hnb : ¬ ∀ i, i < ROW_SIZE →
        (overlay (overlay blankRow 0 (wordAt (0x00 :: List.replicate 63 0xFF)) 32) 32
          (fun j => LVP_packRow_word (List.replicate 64 0xFF) (2 * j))
          (ROW_SIZE - 32)).getD i 0 % 2 ^ 16 = 0xffff := by
      apply nonblank_of_getD _ 0 (by decide)
      · rw [overlay_getD _ _ _ _ _ (by decide), if_neg (by decide),
          overlay_getD _ _ _ _ _ (by decide), if_pos (by decide)]
        decide
      · rw [overlay_getD _ _ _ _ _ (by decide), if_neg (by decide),
          overlay_getD _ _ _ _ _ (by decide), if_pos (by decide)]
        decide
    have hc := commitRow_cfg
      { s with
        row_address := CFG_ADDRESS,
        row := overlay (overlay blankRow 0 (wordAt (0x00 :: List.replicate 63 0xFF)) 32) 32
          (fun j => LVP_packRow_word (List.replicate 64 0xFF) (2 * j)) (ROW_SIZE - 32) }
      hl (le_refl _) (by show CFG_ADDRESS ≠ ROW_UNSET; decide) hnb
    have hm : ((CFG_ADDRESS <<< 1) % 2 ^ 32) % 2 ^ 24 = CFG_ADDRESS <<< 1 := by decide
    rw [hp1, hp2]
    have := congrArg LVP.out hc
    simp only [hm] at this
    exact this
  have hA := keyA (LVP_enter powerOn) rfl
  have hB := keyB (LVP_enter powerOn) rfl rfl
  refine ⟨⟨?_, ?_⟩, ⟨hB, ?_⟩⟩
  · rw [hA]
    exact congrArg LVP.out
      (programLastRow_blank { LVP_enter powerOn with row_address := 0 }
        (fun i hi => fresh_blank i hi))
  · rw [hA]
    exact out_ne_append _ _ (rowActs_ne_nil _ _)
  · rw [hB, rowActs]
    intro h
    exact out_ne_append _ _ (rowWrite_ne_nil _ _) (List.append_cancel_left h)

theorem halves_row (d1 d2 : List Nat) (hb2 : ∀ b, b ∈ d2 → b < 256) :
    overlay (overlay blankRow 0 (wordAt d1) 32) 32
        (fun j => LVP_packRow_word d2 (2 * j)) (ROW_SIZE - 32)
      = (List.range 32).map (wordAt d1) ++ (List.range 32).map (wordAt d2) := by
  have hR : ROW_SIZE = 64 := rfl
  apply eq_of_getD _ _ ROW_SIZE (overlay_length _ _ _ _) (by simp [ROW_SIZE])
  intro i hi
  rw [halves_getD _ _ i (by omega), overlay_getD _ _ _ _ _ hi, overlay_getD _ _ _ _ _ hi]
  by_cases h : i < 32
  · rw [if_neg (by omega), if_pos (by omega), if_pos h, Nat.sub_zero]
  · rw [if_pos (by omega), if_neg h, packRow_word_eq d2 _ hb2]

/-- C3 (amended): on a session that is Programming with a blank buffer (as a
freshly entered one is), for every start address `A` that is a multiple of 256
bytes (word address `A / 2` a multiple of `2 * ROW_SIZE`) with `A / 2` below
`CFG_ADDRESS`, and every two 64-byte buffers `d1`, `d2` that are not both all
0xFF: `LVP_packRow(A, d1, 64)` emits nothing, the following
`LVP_packRow(A + 64, d2, 64)` transmits exactly one row, at row address `A / 2`,
whose 64 words are the little-endian words of `d1` followed by those of `d2`, and
leaves the buffer blank; a following `LVP_programLastRow` transmits no row. -/
theorem C3_two_halves (s : LVP) (A : Nat) (d1 d2 : List Nat)
    (hl : s.lvp = true) (hb : s.row = List.replicate ROW_SIZE 0xFFFF)
    (hA : A % 256 = 0) (hcfg : A / 2 < CFG_ADDRESS)
    (hlen1 : d1.length = 64) (hlen2 : d2.length = 64)
    (hb1 : ∀ b, b ∈ d1 → b < 256) (hb2 : ∀ b, b ∈ d2 → b < 256)
    (hnb : (∃ b, b ∈ d1 ∧ b ≠ 0xFF) ∨ (∃ b, b ∈ d2 ∧ b ≠ 0xFF)) :
    (LVP_packRow A d1 64 s).out = s.out
    ∧ LVP_packRow (A + 64) d2 64 (LVP_packRow A d1 64 s)
      = { row := List.replicate ROW_SIZE 0xFFFF,
          row_address := A / 2,
          lvp := true,
          out := s.out ++ ICSP_addressLoad ((A / 2) <<< 1)
                  ++ ICSP_rowWrite
                      ((List.range 32).map (wordAt d1) ++ (List.range 32).map (wordAt d2))
                      ROW_SIZE,
          overrun := s.overrun }
    ∧ (LVP_programLastRow (LVP_packRow (A + 64) d2 64 (LVP_packRow A d1 64 s))).out
      = s.out ++ ICSP_addressLoad ((A / 2) <<< 1)
          ++ ICSP_rowWrite
              ((List.range 32).map (wordAt d1) ++ (List.range 32).map (wordAt d2)) ROW_SIZE
          ++ exitActs := by
  have hR : ROW_SIZE = 64 := rfl
  have hC : CFG_ADDRESS = 0x015780 := rfl
  have hA32 : A < 2 ^ 32 := by omega
  have hp1 := fresh_within s A d1 hb hA32 (by omega) hb1 (by omega)
  rw [hlen1, (by omega : A / 2 % 128 = 0), (by omega : A / 256 * 128 = A / 2),
    (by decide : 64 / 2 = 32)] at hp1
  have hidx : ((A + 64) &&& 0xfe) >>> 1 = 32 := by rw [and_0xfe]; omega
  have hnr : (((A + 64) &&& 0xfffffff00) >>> 1) % 2 ^ 32 = A / 2 := by
    rw [and_0xfffffff00 _ (by omega)]; omega
  have hp2 := packRow_cross (A + 64) d2 64
    { s with row_address := A / 2, row := overlay blankRow 0 (wordAt d1) 32 }
    32 (A / 2) 64 hidx hnr (by decide) (overlay_length blankRow 0 (wordAt d1) 32)
    (by decide) (by decide) (by decide)
  rw [adoptRow_same { s with row_address := A / 2, row := overlay blankRow 0 (wordAt d1) 32 },
    if_pos (by decide : 32 + 64 / 2 = ROW_SIZE)] at hp2
  simp only [halves_row d1 d2 hb2] at hp2
  have hnonblank : ¬ ∀ i, i < ROW_SIZE →
      ((List.range 32).map (wordAt d1) ++ (List.range 32).map (wordAt d2)).getD i 0 % 2 ^ 16
        = 0xffff := by
    rcases hnb with h | h
    · obtain ⟨j, hj, hne⟩ := exists_word_of_byte d1 (by omega) hb1 h
      apply nonblank_of_getD _ j (by omega)
      · rw [halves_getD _ _ j (by omega), if_pos (by omega)]; exact wordAt_lt d1 hb1 j
      · rw [halves_getD _ _ j (by omega), if_pos (by omega)]; exact hne
    · obtain ⟨j, hj, hne⟩ := exists_word_of_byte d2 (by omega) hb2 h
      have hsub : 32 + j - 32 = j := by omega
      apply nonblank_of_getD _ (32 + j) (by omega)
      · rw [halves_getD _ _ (32 + j) (by omega), if_neg (by omega), hsub]
        exact wordAt_lt d2 hb2 j
      · rw [halves_getD _ _ (32 + j) (by omega), if_neg (by omega), hsub]; exact hne
  have hc := commitRow_programming
    { s with row_address := A / 2,
             row := (List.range 32).map (wordAt d1) ++ (List.range 32).map (wordAt d2) }
    hl hcfg hnonblank
  rw [hc] at hp2
  rw [hp1]
  refine ⟨rfl, ?_, ?_⟩
  · rw [hp2]
    simp only [rowActs, List.append_assoc, hl]
    rfl
  · rw [hp2, programLastRow_blank _ (fun i hi => blankRow_blank i hi)]
    simp only [rowActs, List.append_assoc]

/-- Witness for C3 (amended): address 0x100, first half starting 0x34, 0x12, the
second half all 0xFF. -/
theorem C3_two_halves_witness :
    (LVP_packRow (0x100 + 64) (List.replicate 64 0xFF) 64
        (LVP_packRow 0x100 (0x34 :: 0x12 :: List.replicate 62 0xFF) 64
          (LVP_enter powerOn))).out
      = (LVP_enter powerOn).out ++ ICSP_addressLoad ((0x100 / 2) <<< 1)
          ++ ICSP_rowWrite
              ((List.range 32).map (wordAt (0x34 :: 0x12 :: List.replicate 62 0xFF))
                ++ (List.range 32).map (wordAt (List.replicate 64 0xFF)))
              ROW_SIZE :=
  congrArg LVP.out
    (C3_two_halves (LVP_enter powerOn) 0x100 (0x34 :: 0x12 :: List.replicate 62 0xFF)
      (List.replicate 64 0xFF) rfl rfl (by decide) (by decide) (by decide) (by decide)
      (by decide) (by decide) (Or.inl ⟨0x34, by decide, by decide⟩)).2.1

/-- C4 (as stated, refuted), two inputs on a freshly entered session.
A 128-byte write of zeros at address 200 (word 100, offset 36 of the row at word
address 64) runs past the end of that row, yet `LVP_packRow` transmits nothing
and `LVP_programLastRow` adds only the exit handshake: no commit instead of two.
A 4-byte write of zeros at the last word of the row at `CFG_ADDRESS` gets the
address load during the call and no row write. -/
theorem C4_spill_counterexample :
    ((LVP_packRow 200 (List.replicate 128 0) 128 (LVP_enter powerOn)).out
        = (LVP_enter powerOn).out
      ∧ (LVP_programLastRow
          (LVP_packRow 200 (List.replicate 128 0) 128 (LVP_enter powerOn))).out
        = (LVP_enter powerOn).out ++ exitActs
      ∧ (LVP_packRow 200 (List.replicate 128 0) 128 (LVP_enter powerOn)).out
        ≠ (LVP_enter powerOn).out
            ++ rowActs 64 (List.replicate 36 0xFFFF ++ List.replicate 28 0))
    ∧ ((LVP_packRow (2 * CFG_ADDRESS + 126) [0, 0, 0, 0] 4 (LVP_enter powerOn)).out
        = (LVP_enter powerOn).out ++ ICSP_addressLoad (CFG_ADDRESS <<< 1)
      ∧ (LVP_packRow (2 * CFG_ADDRESS + 126) [0, 0, 0, 0] 4 (LVP_enter powerOn)).out
        ≠ (LVP_enter powerOn).out
            ++ rowActs CFG_ADDRESS (List.replicate 63 0xFFFF ++ [0])) := by
  have keyA : ∀ s : LVP, s.row = blankRow →
      LVP_packRow 200 (List.replicate 128 0) 128 s = { s with row_address := 0 } := by
    intro s hb
    rw [packRow_beyond 200 (List.replicate 128 0) 128 s 100 0 (by decide) (by decide)
      (by decide), adoptRow_blank 0 s (blank_of_eq s hb)]
  have keyB : ∀ s : LVP, s.lvp = true → s.row = blankRow →
      (LVP_packRow (2 * CFG_ADDRESS + 126) [0, 0, 0, 0] 4 s).out
        = s.out ++ ICSP_addressLoad (CFG_ADDRESS <<< 1) := by
    intro s hl hb
    have hp := packRow_cross (2 * CFG_ADDRESS + 126) [0, 0, 0, 0] 4 s 63 CFG_ADDRESS 4
      (by decide) (by decide) (by decide) (by rw [hb]; exact blankRow_length)
      (by decide) (by decide) (by decide)
    rw [adoptRow_blank CFG_ADDRESS s (blank_of_eq s hb),
      if_neg (by decide : ¬ 63 + 4 / 2 = ROW_SIZE)] at hp
    have hnb : ¬ ∀ i, i < ROW_SIZE →
        (overlay s.row 63 (fun j => LVP_packRow_word [0, 0, 0, 0] (2 * j))
          (ROW_SIZE - 63)).getD i 0 % 2 ^ 16 = 0xffff := by
      apply nonblank_of_getD _ 63 (by decide)
      · rw [overlay_getD _ _ _ _ _ (by decide), if_pos (by decide)]; decide
      · rw [overlay_getD _ _ _ _ _ (by decide), if_pos (by decide)]; decide
    have hc := commitRow_cfg
      { s with row_address := CFG_ADDRESS,
               row := overlay s.row 63 (fun j => LVP_packRow_word [0, 0, 0, 0] (2 * j))
                 (ROW_SIZE - 63) }
      hl (le_refl _) (by show CFG_ADDRESS ≠ ROW_UNSET; decide) hnb
    have hm : ((CFG_ADDRESS <<< 1) % 2 ^ 32) % 2 ^ 24 = CFG_ADDRESS <<< 1 := by decide
    rw [hp]
    simp only []
    have := congrArg LVP.out hc
    simp only [hm] at this
    exact this
  have hA := keyA (LVP_enter powerOn) rfl
  have hB := keyB (LVP_enter powerOn) rfl rfl
  refine ⟨⟨?_, ?_, ?_⟩, ⟨hB, ?_⟩⟩
  · rw [hA]
  · rw [hA]
    exact congrArg LVP.out
      (programLastRow_blank { LVP_enter powerOn with row_address := 0 }
        (fun i hi => fresh_blank i hi))
  · rw [hA]
    exact out_ne_append _ _ (rowActs_ne_nil _ _)
  · rw [hB, rowActs]
    intro h
    exact out_ne_append _ _ (rowWrite_ne_nil _ _) (List.append_cancel_left h)

theorem fresh_cross (s : LVP) (address : Nat) (data : List Nat)
    (hl : s.lvp = true) (hb : s.row = blankRow) (ha : address < 2 ^ 32)
    (heven : data.length % 2 = 0) (hbytes : ∀ b, b ∈ data → b < 256)
    (hlen : data.length ≤ 128)
    (hlow : address / 2 % 128 < ROW_SIZE)
    (hpast : ROW_SIZE < address / 2 % 128 + data.length / 2)
    (hcfg : address / 256 * 128 < CFG_ADDRESS)
    (hnb : ∃ j, j < ROW_SIZE - address / 2 % 128 ∧ wordAt data j ≠ 0xFFFF) :
    LVP_packRow address data data.length s
      = { row := overlay blankRow 0
            (fun j => wordAt data (ROW_SIZE - address / 2 % 128 + j))
            (address / 2 % 128 + data.length / 2 - ROW_SIZE),
          row_address := address / 256 * 128 + ROW_SIZE,
          lvp := true,
          out := s.out ++ rowActs (address / 256 * 128)
            (overlay blankRow (address / 2 % 128) (wordAt data) (ROW_SIZE - address / 2 % 128)),
          overrun := s.overrun } := by
  have hR : ROW_SIZE = 64 := rfl
  have hC : CFG_ADDRESS = 0x015780 := rfl
  have hp := packRow_cross address data data.length s (address / 2 % 128)
    (address / 256 * 128) data.length (and_0xfe address) (and_0xfffffff00 address ha)
    (round_even data.length (by omega) heven) (by rw [hb]; exact blankRow_length)
    (by omega) (by omega) (by omega)
  rw [adoptRow_blank _ s (blank_of_eq s hb), if_neg (by omega)] at hp
  simp only [hb] at hp
  rw [overlay_congr blankRow _ _ (wordAt data) _
    (fun j _ => packRow_word_eq data j hbytes)] at hp
  have hnonblank := overlay_nonblank blankRow (address / 2 % 128) (wordAt data)
    (ROW_SIZE - address / 2 % 128) (by omega) (fun j _ => wordAt_lt data hbytes j) hnb
  have hc := commitRow_programming
    { s with row_address := address / 256 * 128,
             row := overlay blankRow (address / 2 % 128) (wordAt data)
               (ROW_SIZE - address / 2 % 128) }
    hl hcfg hnonblank
  rw [hc] at hp
  simp only [] at hp
  have hword : ∀ j, j < address / 2 % 128 + data.length / 2 - ROW_SIZE →
      LVP_packRow_word data (2 * (ROW_SIZE - address / 2 % 128) + 2 * j)
        = wordAt data (ROW_SIZE - address / 2 % 128 + j) := by
    intro j _
    rw [← Nat.mul_add, packRow_word_eq data _ hbytes]
  rw [overlay_congr blankRow _ _ _ _ hword] at hp
  have hmod : (address / 256 * 128 + ROW_SIZE) % 2 ^ 32 = address / 256 * 128 + ROW_SIZE := by
    omega
  rw [hp, hmod, hl]

/-- C4 (amended): on a session that is Programming with a blank buffer (as a
freshly entered one is), for every write of an even byte count of at most 128
bytes at an address in the lower 64 words of its 128-word block, whose data runs
past the end of the row containing the address, with non-blank data on both
sides of the boundary and both rows below `CFG_ADDRESS`: `LVP_packRow` transmits
the completed row during the call (the words before the boundary at their
offsets, at that row's address), keeps the leftover words in the fresh buffer
from offset 0 and sets the row address to the next row; the following
`LVP_programLastRow` transmits a second row, at the first row address plus
`ROW_SIZE`, holding the leftover words padded with 0xFFFF; two rows in total. -/
theorem C4_spill (s : LVP) (address : Nat) (data : List Nat)
    (hl : s.lvp = true) (hb : s.row = List.replicate ROW_SIZE 0xFFFF)
    (heven : data.length % 2 = 0) (hlen : data.length ≤ 128)
    (hbytes : ∀ b, b ∈ data → b < 256)
    (hlow : address / 2 % (2 * ROW_SIZE) < ROW_SIZE)
    (hpast : ROW_SIZE < address / 2 % ROW_SIZE + data.length / 2)
    (hcfg : address / 2 / ROW_SIZE * ROW_SIZE + ROW_SIZE < CFG_ADDRESS)
    (hnb1 : ∃ j, j < ROW_SIZE - address / 2 % ROW_SIZE ∧ wordAt data j ≠ 0xFFFF)
    (hnb2 : ∃ j, ROW_SIZE - address / 2 % ROW_SIZE ≤ j ∧ j < data.length / 2
      ∧ wordAt data j ≠ 0xFFFF) :
    LVP_packRow address data data.length s
      = { row := (List.range ROW_SIZE).map (fun i =>
            if i < address / 2 % ROW_SIZE + data.length / 2 - ROW_SIZE
            then wordAt data (ROW_SIZE - address / 2 % ROW_SIZE + i) else 0xFFFF),
          row_address := address / 2 / ROW_SIZE * ROW_SIZE + ROW_SIZE,
          lvp := true,
          out := s.out
            ++ ICSP_addressLoad ((address / 2 / ROW_SIZE * ROW_SIZE) <<< 1)
            ++ ICSP_rowWrite
                ((List.range ROW_SIZE).map (fun i =>
                  if address / 2 % ROW_SIZE ≤ i
                  then wordAt data (i - address / 2 % ROW_SIZE) else 0xFFFF))
                ROW_SIZE,
          overrun := s.overrun }
    ∧ LVP_programLastRow (LVP_packRow address data data.length s)
      = { row := List.replicate ROW_SIZE 0xFFFF,
          row_address := address / 2 / ROW_SIZE * ROW_SIZE + ROW_SIZE,
          lvp := false,
          out := s.out
            ++ ICSP_addressLoad ((address / 2 / ROW_SIZE * ROW_SIZE) <<< 1)
            ++ ICSP_rowWrite
                ((List.range ROW_SIZE).map (fun i =>
                  if address / 2 % ROW_SIZE ≤ i
                  then wordAt data (i - address / 2 % ROW_SIZE) else 0xFFFF))
                ROW_SIZE
            ++ ICSP_addressLoad ((address / 2 / ROW_SIZE * ROW_SIZE + ROW_SIZE) <<< 1)
            ++ ICSP_rowWrite
                ((List.range ROW_SIZE).map (fun i =>
                  if i < address / 2 % ROW_SIZE + data.length / 2 - ROW_SIZE
                  then wordAt data (ROW_SIZE - address / 2 % ROW_SIZE + i) else 0xFFFF))
                ROW_SIZE
            ++ exitActs,
          overrun := s.overrun } := by
  have hR : ROW_SIZE = 64 := rfl
  have hC : CFG_ADDRESS = 0x015780 := rfl
  rw [hR] at hlow hpast hcfg hnb1 hnb2
  have hidx : address / 2 % 128 = address / 2 % 64 := by omega
  have hnr : address / 256 * 128 = address / 2 / 64 * 64 := by omega
  have ha : address < 2 ^ 32 := by omega
  have hp := fresh_cross s address data hl hb ha heven hbytes hlen
    (by rw [hR]; omega) (by rw [hR]; omega)
    (by rw [hnr]; omega) (by rw [hidx, hR]; exact hnb1)
  rw [hidx, hnr, overlay_blankRow, overlay_blankRow] at hp
  have hrow1 : (List.range ROW_SIZE).map (fun i =>
      if address / 2 % 64 ≤ i ∧ i < address / 2 % 64 + (ROW_SIZE - address / 2 % 64)
      then wordAt data (i - address / 2 % 64) else 0xFFFF)
      = (List.range ROW_SIZE).map (fun i =>
          if address / 2 % 64 ≤ i then wordAt data (i - address / 2 % 64) else 0xFFFF) := by
    apply List.map_congr_left
    intro i hi
    have hi2 : i < 64 := List.mem_range.mp hi
    by_cases h : address / 2 % 64 ≤ i
    · rw [if_pos ⟨h, by omega⟩, if_pos h]
    · rw [if_neg (fun hh => h hh.1), if_neg h]
  have hrow2 : (List.range ROW_SIZE).map (fun i =>
      if 0 ≤ i ∧ i < 0 + (address / 2 % 64 + data.length / 2 - ROW_SIZE)
      then wordAt data (ROW_SIZE - address / 2 % 64 + (i - 0)) else 0xFFFF)
      = (List.range ROW_SIZE).map (fun i =>
          if i < address / 2 % 64 + data.length / 2 - ROW_SIZE
          then wordAt data (ROW_SIZE - address / 2 % 64 + i) else 0xFFFF) := by
    apply List.map_congr_left
    intro i _
    by_cases h : i < address / 2 % 64 + data.length / 2 - ROW_SIZE
    · rw [if_pos ⟨Nat.zero_le _, by omega⟩, if_pos h, Nat.sub_zero]
    · rw [if_neg (by omega), if_neg h]
  rw [hrow1, hrow2] at hp
  obtain ⟨j, hj1, hj2, hne⟩ := hnb2
  have hnonblank : ¬ ∀ i, i < ROW_SIZE →
      ((List.range ROW_SIZE).map (fun i =>
          if i < address / 2 % 64 + data.length / 2 - ROW_SIZE
          then wordAt data (ROW_SIZE - address / 2 % 64 + i) else 0xFFFF)).getD i 0 % 2 ^ 16
        = 0xffff := by
    have hsub : ROW_SIZE - address / 2 % 64 + (j - (64 - address / 2 % 64)) = j := by omega
    apply nonblank_of_getD _ (j - (64 - address / 2 % 64)) (by omega)
    · rw [getD_range_map, if_pos (by omega), if_pos (by omega), hsub]
      exact wordAt_lt data hbytes j
    · rw [getD_range_map, if_pos (by omega), if_pos (by omega), hsub]
      exact hne
  rw [hp]
  refine ⟨?_, ?_⟩
  · simp only [rowActs, List.append_assoc, hR]
  · rw [programLastRow_programming _ rfl (by show address / 2 / 64 * 64 + ROW_SIZE < CFG_ADDRESS; omega)
      hnonblank]
    simp only [rowActs, List.append_assoc, hR]
    rfl

/-- Witness for C4 (amended): four words written at word 62 of row 0; words 1, 2
complete row 0, words 3, 4 are left over for the row at word address 64. -/
theorem C4_spill_witness :
    (LVP_programLastRow
        (LVP_packRow 0x7C [1, 0, 2, 0, 3, 0, 4, 0] 8 (LVP_enter powerOn))).out
      = (LVP_enter powerOn).out
        ++ ICSP_addressLoad (0 <<< 1)
        ++ ICSP_rowWrite (List.replicate 62 0xFFFF ++ [1, 2]) ROW_SIZE
        ++ ICSP_addressLoad (64 <<< 1)
        ++ ICSP_rowWrite (3 :: 4 :: List.replicate 62 0xFFFF) ROW_SIZE
        ++ exitActs := by
  have h := (C4_spill (LVP_enter powerOn) 0x7C [1, 0, 2, 0, 3, 0, 4, 0] rfl rfl
    (by decide) (by decide) (by decide) (by decide) (by decide) (by decide)
    ⟨0, by decide, by decide⟩ ⟨2, by decide, by decide, by decide⟩).2
  have e0 : ([1, 0, 2, 0, 3, 0, 4, 0] : List Nat).length = 8 := rfl
  have e1 : 0x7C / 2 / ROW_SIZE * ROW_SIZE = 0 := by decide
  have e2 : 0 + ROW_SIZE = 64 := by decide
  have e3 : (List.range ROW_SIZE).map (fun i =>
      if 0x7C / 2 % ROW_SIZE ≤ i
      then wordAt [1, 0, 2, 0, 3, 0, 4, 0] (i - 0x7C / 2 % ROW_SIZE) else 0xFFFF)
      = List.replicate 62 0xFFFF ++ [1, 2] := by decide
  have e4 : (List.range ROW_SIZE).map (fun i =>
      if i < 0x7C / 2 % ROW_SIZE + 8 / 2 - ROW_SIZE
      then wordAt [1, 0, 2, 0, 3, 0, 4, 0] (ROW_SIZE - 0x7C / 2 % ROW_SIZE + i) else 0xFFFF)
      = 3 :: 4 :: List.replicate 62 0xFFFF := by decide
  rw [e0, e1, e2, e3, e4] at h
  exact congrArg LVP.out h

/-! ## Theorems: a whole image -/

theorem eq_blankRow_of_blank (row : List Nat) (hlen : row.length = ROW_SIZE)
    (hw : ∀ i, i < ROW_SIZE → row.getD i 0 < 2 ^ 16)
    (hb : ∀ i, i < ROW_SIZE → row.getD i 0 % 2 ^ 16 = 0xffff) : row = blankRow := by
  apply eq_of_getD _ _ ROW_SIZE hlen blankRow_length
  intro i hi
  rw [blankRow_getD i hi]
  have h1 := hw i hi
  have h2 := hb i hi
  omega

theorem commitRow_eq (s : LVP) (hl : s.lvp = true) (hlen : s.row.length = ROW_SIZE)
    (hw : ∀ i, i < ROW_SIZE → s.row.getD i 0 < 2 ^ 16)
    (hcfg : s.row ≠ blankRow → s.row_address < CFG_ADDRESS) :
    LVP_commitRow s
      = { s with row := blankRow,
                 out := s.out ++ (if s.row = blankRow then []
                                  else rowActs s.row_address s.row) } := by
  by_cases hb : s.row = blankRow
  · rw [commitRow_blank s (blank_of_eq s hb), if_pos hb, List.append_nil]
    cases s
    simp only at hb
    simp [hb]
  · have hnb : ¬ ∀ i, i < ROW_SIZE → s.row.getD i 0 % 2 ^ 16 = 0xffff :=
      fun h => hb (eq_blankRow_of_blank s.row hlen hw h)
    rw [commitRow_programming s hl (hcfg hb) hnb, if_neg hb]

theorem rowsActs_nil (W : Nat → Nat) : rowsActs W [] = [] := rfl

theorem rowsActs_append (W : Nat → Nat) (l1 l2 : List Nat) :
    rowsActs W (l1 ++ l2) = rowsActs W l1 ++ rowsActs W l2 := by
  simp [rowsActs, List.filter_append, List.flatMap_append]

theorem rowsActs_single (W : Nat → Nat) (r : Nat) :
    rowsActs W [r] = if rowOf W r = blankRow then [] else rowActs r (rowOf W r) := by
  by_cases h : rowOf W r = blankRow
  · simp [rowsActs, h]
  · simp [rowsActs, h]

theorem rowsActs_range_succ (W : Nat → Nat) (p m : Nat) :
    rowsActs W (List.range' p (m + 1) 64)
      = rowsActs W (List.range' p m 64) ++ rowsActs W [p + 64 * m] := by
  rw [List.range'_concat, rowsActs_append]

theorem rowOf_length (W : Nat → Nat) (r : Nat) : (rowOf W r).length = ROW_SIZE := by
  simp [rowOf]

theorem winRow_length (W : Nat → Nat) (p w : Nat) : (winRow W p w).length = ROW_SIZE := by
  simp [winRow]

theorem winRow_getD (W : Nat → Nat) (p w i : Nat) (hi : i < ROW_SIZE) :
    (winRow W p w).getD i 0 = if p + i < w then W (p + i) else 0xFFFF := by
  rw [winRow, getD_range_map, if_pos hi]

theorem rowOf_getD (W : Nat → Nat) (r i : Nat) (hi : i < ROW_SIZE) :
    (rowOf W r).getD i 0 = W (r + i) := by
  rw [rowOf, getD_range_map, if_pos hi]

theorem winRow_full (W : Nat → Nat) (p w : Nat) (h : p + 64 ≤ w) :
    winRow W p w = rowOf W p := by
  unfold winRow rowOf
  apply List.map_congr_left
  intro i hi
  have : i < 64 := List.mem_range.mp hi
  rw [if_pos (by omega)]

theorem winRow_empty (W : Nat → Nat) (p w : Nat) (h : w ≤ p) : winRow W p w = blankRow := by
  apply eq_of_getD _ _ ROW_SIZE (winRow_length _ _ _) blankRow_length
  intro i hi
  rw [winRow_getD _ _ _ _ hi, if_neg (by omega), blankRow_getD i hi]

theorem winRow_lt (W : Nat → Nat) (hW : ∀ x, W x < 2 ^ 16) (p w i : Nat) (hi : i < ROW_SIZE) :
    (winRow W p w).getD i 0 < 2 ^ 16 := by
  rw [winRow_getD _ _ _ _ hi]
  split
  · exact hW _
  · norm_num

theorem winRow_cfg (W : Nat → Nat) (hC : ∀ x, W x ≠ 0xFFFF → x < CFG_ADDRESS) (p w : Nat)
    (h : winRow W p w ≠ blankRow) : p < CFG_ADDRESS := by
  by_contra hp
  apply h
  apply eq_of_getD _ _ ROW_SIZE (winRow_length _ _ _) blankRow_length
  intro i hi
  rw [winRow_getD _ _ _ _ hi, blankRow_getD i hi]
  split
  · by_contra hne
    have := hC _ hne
    omega
  · rfl

theorem adopt_assembled (W : Nat → Nat) (hW : ∀ x, W x < 2 ^ 16)
    (hC : ∀ x, W x ≠ 0xFFFF → x < CFG_ADDRESS) (ov : Bool) (s : LVP) (w p : Nat)
    (hinv : Assembled W ov s w p) (hidx : w % 128 ≤ 64) :
    ∃ m0, p + 64 * m0 = w - w % 64 ∧
      adoptRow (w - w % 128) s
        = { row := winRow W (w - w % 64) w, row_address := w - w % 128, lvp := true,
            out := s.out ++ rowsActs W (List.range' p m0 64), overrun := ov } := by
  obtain ⟨hl, hov, hrow, hp64, hpw, hwp, hfull, hra⟩ := hinv
  have hR : ROW_SIZE = 64 := rfl
  by_cases hb : s.row = blankRow
  · -- nothing to commit
    rw [adoptRow_blank _ s (blank_of_eq s hb)]
    by_cases hcase : w = p + 64
    · refine ⟨1, by omega, ?_⟩
      have hcur : w - w % 64 = w := by have := hfull hcase; omega
      have hrp : rowOf W p = blankRow := by
        rw [← winRow_full W p w (by omega), ← hrow, hb]
      rw [hcur, winRow_empty W w w (le_refl _), List.range'_one, rowsActs_single, if_pos hrp,
        List.append_nil, ← hb, ← hl, ← hov]
    · refine ⟨0, by omega, ?_⟩
      have hcur : w - w % 64 = p := by omega
      rw [hcur, ← hrow, List.range'_zero, rowsActs_nil, List.append_nil, ← hl, ← hov]
  · -- the buffer holds row `p`
    have hrap : s.row_address = p := by
      rcases hra with h | h
      · exact h
      · exact absurd h hb
    by_cases hcase : w = p + 64
    · refine ⟨1, by omega, ?_⟩
      have h128 := hfull hcase
      have hcur : w - w % 64 = w := by omega
      have hblock : w - w % 128 = w := by omega
      have hne : (w != s.row_address) = true := by
        rw [hrap]; simp; omega
      have hc := commitRow_eq s hl (by rw [hrow]; exact winRow_length _ _ _)
        (fun i hi => by rw [hrow]; exact winRow_lt W hW p w i hi)
        (fun h => by rw [hrap]; rw [hrow] at h; exact winRow_cfg W hC p w h)
      have hrp : s.row = rowOf W p := by rw [hrow, winRow_full W p w (by omega)]
      rw [hcur, hblock, winRow_empty W w w (le_refl _), List.range'_one, rowsActs_single]
      unfold adoptRow
      rw [if_pos hne, hc, if_neg hb, ← hrp, if_neg hb, hrap, hl, hov]
    · refine ⟨0, by omega, ?_⟩
      have hcur : w - w % 64 = p := by omega
      have hlt : w % 128 < 64 := by
        by_contra hge
        have hw64 : w % 128 = 64 := by omega
        have hpw2 : p = w := by omega
        apply hb
        rw [hrow, hpw2]
        exact winRow_empty W w w (le_refl _)
      have hblock : w - w % 128 = p := by omega
      have hsame : adoptRow p s = s := by
        have := adoptRow_same s
        rw [hrap] at this
        exact this
      rw [hcur, hblock, hsame, List.range'_zero, rowsActs_nil, List.append_nil, ← hrow, ← hl,
        ← hov]
      cases s
      simp only at hrap
      subst hrap
      rfl

theorem overlay_winRow (W : Nat → Nat) (cur w idx k : Nat) (D : Nat → Nat)
    (hcur : cur + idx = w) (hD : ∀ j, j < k → D j = W (w + j)) :
    overlay (winRow W cur w) idx D k = winRow W cur (w + k) := by
  apply eq_of_getD _ _ ROW_SIZE (overlay_length _ _ _ _) (winRow_length _ _ _)
  intro i hi
  rw [overlay_getD _ _ _ _ _ hi, winRow_getD _ _ _ _ hi, winRow_getD _ _ _ _ hi]
  by_cases h1 : idx ≤ i ∧ i < idx + k
  · rw [if_pos h1, if_pos (by omega), hD _ (by omega)]
    congr 1
    omega
  · rw [if_neg h1]
    by_cases h2 : cur + i < w
    · rw [if_pos h2, if_pos (by omega)]
    · rw [if_neg h2, if_neg (by omega)]

theorem assembled_within (W : Nat → Nat) (hW : ∀ x, W x < 2 ^ 16)
    (hC : ∀ x, W x ≠ 0xFFFF → x < CFG_ADDRESS) (ov : Bool) (s : LVP) (p : Nat)
    (address : Nat) (data : List Nat) (n : Nat)
    (hinv : Assembled W ov s (address / 2) p) (ha : address < 2 ^ 32)
    (heven : n % 2 = 0) (hn : n ≤ 128)
    (hD : ∀ j, j < n / 2 → LVP_packRow_word data (2 * j) = W (address / 2 + j))
    (hfit : address / 2 % 128 + n / 2 < 64) :
    ∃ m, Assembled W ov (LVP_packRow address data n s) (address / 2 + n / 2) (p + 64 * m)
      ∧ (LVP_packRow address data n s).out = s.out ++ rowsActs W (List.range' p m 64) := by
  obtain ⟨m0, hm0, hadopt⟩ := adopt_assembled W hW hC ov s (address / 2) p hinv (by omega)
  have hlen : s.row.length = ROW_SIZE := by rw [hinv.2.2.1]; exact winRow_length _ _ _
  have hnr : ((address &&& 0xfffffff00) >>> 1) % 2 ^ 32 = address / 2 - address / 2 % 128 := by
    rw [and_0xfffffff00 address ha]; omega
  have hpk := packRow_within address data n s (address / 2 % 128)
    (address / 2 - address / 2 % 128) n (and_0xfe address) hnr (round_even n (by omega) heven)
    hlen (by rw [show ROW_SIZE = 64 from rfl]; exact hfit)
  rw [hadopt] at hpk
  simp only [] at hpk
  rw [overlay_winRow W _ _ _ _ _ (by omega) hD] at hpk
  refine ⟨m0, ?_, ?_⟩
  · rw [hpk, hm0]
    exact ⟨rfl, rfl, rfl, by omega, by omega, by omega, by omega, Or.inl (by simp only []; omega)⟩
  · rw [hpk]

theorem assembled_cross (W : Nat → Nat) (hW : ∀ x, W x < 2 ^ 16)
    (hC : ∀ x, W x ≠ 0xFFFF → x < CFG_ADDRESS) (ov : Bool) (s : LVP) (p : Nat)
    (address : Nat) (data : List Nat) (n : Nat)
    (hinv : Assembled W ov s (address / 2) p) (ha : address < 2 ^ 32)
    (heven : n % 2 = 0) (hn : n ≤ 128)
    (hD : ∀ j, j < n / 2 → LVP_packRow_word data (2 * j) = W (address / 2 + j))
    (hlow : address / 2 % 128 < 64) (hfit : 64 ≤ address / 2 % 128 + n / 2) :
    ∃ m, Assembled W ov (LVP_packRow address data n s) (address / 2 + n / 2) (p + 64 * m)
      ∧ (LVP_packRow address data n s).out = s.out ++ rowsActs W (List.range' p m 64) := by
  obtain ⟨m0, hm0, hadopt⟩ := adopt_assembled W hW hC ov s (address / 2) p hinv (by omega)
  have hR : ROW_SIZE = 64 := rfl
  have hlen : s.row.length = ROW_SIZE := by rw [hinv.2.2.1]; exact winRow_length _ _ _
  have hnr : ((address &&& 0xfffffff00) >>> 1) % 2 ^ 32 = address / 2 - address / 2 % 128 := by
    rw [and_0xfffffff00 address ha]; omega
  have hcur : address / 2 - address / 2 % 64 = address / 2 - address / 2 % 128 := by omega
  have hpk := packRow_cross address data n s (address / 2 % 128)
    (address / 2 - address / 2 % 128) n (and_0xfe address) hnr (round_even n (by omega) heven)
    hlen (by rw [hR]; omega) (by rw [hR]; exact hfit) (by rw [hR]; omega)
  rw [hadopt, hcur] at hpk
  simp only [] at hpk
  rw [overlay_winRow W _ _ _ _ _ (by omega) (fun j hj => hD j (by rw [hR] at hj; omega)),
    winRow_full W _ _ (by rw [hR]; omega)] at hpk
  -- the completed row is committed
  have hc := commitRow_eq
    { row := rowOf W (address / 2 - address / 2 % 128),
      row_address := address / 2 - address / 2 % 128, lvp := true,
      out := s.out ++ rowsActs W (List.range' p m0 64), overrun := ov }
    rfl (rowOf_length _ _)
    (fun i hi => by
      show (rowOf W (address / 2 - address / 2 % 128)).getD i 0 < 2 ^ 16
      rw [rowOf_getD _ _ _ hi]; exact hW _)
    (fun h => by
      show address / 2 - address / 2 % 128 < CFG_ADDRESS
      apply winRow_cfg W hC _ (address / 2 - address / 2 % 128 + 64)
      rw [winRow_full W _ _ (le_refl _)]
      exact h)
  simp only [] at hc
  rw [← rowsActs_single, List.append_assoc, ← rowsActs_append] at hc
  have hrange : List.range' p m0 64 ++ [address / 2 - address / 2 % 128]
      = List.range' p (m0 + 1) 64 := by
    rw [List.range'_concat, hm0, hcur]
  rw [hrange] at hc
  rw [hc] at hpk
  simp only [] at hpk
  refine ⟨m0 + 1, ?_, ?_⟩
  · by_cases hz : address / 2 % 128 + n / 2 = ROW_SIZE
    · rw [if_pos hz] at hpk
      rw [hpk]
      rw [hR] at hz
      refine ⟨rfl, rfl, ?_, by omega, by omega, by omega, by omega, Or.inr rfl⟩
      show blankRow = _
      rw [winRow_empty W _ _ (by omega)]
    · rw [if_neg hz] at hpk
      rw [hpk]
      rw [hR] at hz
      have hmod : (address / 2 - address / 2 % 128 + ROW_SIZE) % 2 ^ 32
          = address / 2 - address / 2 % 128 + 64 := by rw [hR]; omega
      have hov2 : overlay blankRow 0
          (fun j => LVP_packRow_word data (2 * (ROW_SIZE - address / 2 % 128) + 2 * j))
          (address / 2 % 128 + n / 2 - ROW_SIZE)
          = winRow W (address / 2 - address / 2 % 128 + 64) (address / 2 + n / 2) := by
        rw [← winRow_empty W (address / 2 - address / 2 % 128 + 64)
          (address / 2 - address / 2 % 128 + 64) (le_refl _),
          overlay_winRow W _ _ _ _ _ (Nat.add_zero _)
            (fun j hj => by
              rw [hR] at hj ⊢
              rw [← Nat.mul_add, hD _ (by omega)]
              congr 1
              omega)]
        congr 1
        rw [hR]; omega
      rw [hov2, hmod]
      refine ⟨rfl, rfl, ?_, by omega, by omega, by omega, by omega, Or.inl ?_⟩
      · show winRow W _ _ = winRow W _ _
        congr 1
        omega
      · show address / 2 - address / 2 % 128 + 64 = p + 64 * (m0 + 1)
        omega
  · rw [hpk]
    split <;> rfl

theorem assembled_upper (W : Nat → Nat) (hW : ∀ x, W x < 2 ^ 16)
    (hC : ∀ x, W x ≠ 0xFFFF → x < CFG_ADDRESS) (ov : Bool) (s : LVP) (p : Nat)
    (address : Nat) (data : List Nat) (n : Nat)
    (hinv : Assembled W ov s (address / 2) p) (ha : address < 2 ^ 32)
    (heven : n % 2 = 0) (hn : n ≤ 128)
    (hD : ∀ j, j < n / 2 → LVP_packRow_word data (2 * j) = W (address / 2 + j))
    (hidx : address / 2 % 128 = 64) :
    ∃ m, Assembled W ov (LVP_packRow address data n s) (address / 2 + n / 2) (p + 64 * m)
      ∧ (LVP_packRow address data n s).out = s.out ++ rowsActs W (List.range' p m 64) := by
  obtain ⟨m0, hm0, hadopt⟩ := adopt_assembled W hW hC ov s (address / 2) p hinv (by omega)
  have hR : ROW_SIZE = 64 := rfl
  have hlen : s.row.length = ROW_SIZE := by rw [hinv.2.2.1]; exact winRow_length _ _ _
  have hnr : ((address &&& 0xfffffff00) >>> 1) % 2 ^ 32 = address / 2 - address / 2 % 128 := by
    rw [and_0xfffffff00 address ha]; omega
  have hcur : address / 2 - address / 2 % 64 = address / 2 := by omega
  have hpk := packRow_cross address data n s 64
    (address / 2 - address / 2 % 128) n ((and_0xfe address).trans hidx) hnr
    (round_even n (by omega) heven) hlen (by decide) (by rw [hR]; omega) (by rw [hR]; omega)
  rw [hadopt, hcur] at hpk
  simp only [] at hpk
  rw [(by decide : ROW_SIZE - 64 = 0), overlay_zero _ _ _ (winRow_length _ _ _),
    winRow_empty W _ _ (le_refl _)] at hpk
  have hc := commitRow_blank
    { row := blankRow, row_address := address / 2 - address / 2 % 128, lvp := true,
      out := s.out ++ rowsActs W (List.range' p m0 64), overrun := ov }
    (fun i hi => blankRow_blank i hi)
  rw [hc] at hpk
  simp only [] at hpk
  refine ⟨m0, ?_, ?_⟩
  · by_cases hz : 64 + n / 2 = ROW_SIZE
    · rw [if_pos hz] at hpk
      rw [hpk]
      rw [hR] at hz
      refine ⟨rfl, rfl, ?_, by omega, by omega, by omega, by omega, Or.inr rfl⟩
      show blankRow = _
      rw [winRow_empty W _ _ (by omega)]
    · rw [if_neg hz] at hpk
      rw [hpk]
      rw [hR] at hz
      have hmod : (address / 2 - address / 2 % 128 + ROW_SIZE) % 2 ^ 32 = address / 2 := by
        rw [hR]; omega
      have hov2 : overlay blankRow 0
          (fun j => LVP_packRow_word data (2 * 0 + 2 * j)) (64 + n / 2 - ROW_SIZE)
          = winRow W (address / 2) (address / 2 + n / 2) := by
        rw [← winRow_empty W (address / 2) (address / 2) (le_refl _),
          overlay_winRow W _ _ _ _ _ (Nat.add_zero _)
            (fun j hj => by
              rw [hR] at hj
              rw [Nat.mul_zero, Nat.zero_add, hD _ (by omega)])]
        congr 1
        rw [hR]; omega
      rw [hov2, hmod]
      refine ⟨rfl, rfl, ?_, by omega, by omega, by omega, by omega, Or.inl ?_⟩
      · show winRow W _ _ = winRow W _ _
        congr 1
        omega
      · show address / 2 = p + 64 * m0
        omega
  · rw [hpk]
    split <;> rfl

theorem assembled_step (W : Nat → Nat) (hW : ∀ x, W x < 2 ^ 16)
    (hC : ∀ x, W x ≠ 0xFFFF → x < CFG_ADDRESS) (ov : Bool) (s : LVP) (p : Nat)
    (address : Nat) (data : List Nat) (n : Nat)
    (hinv : Assembled W ov s (address / 2) p) (ha : address < 2 ^ 32)
    (heven : n % 2 = 0) (hn : n ≤ 128)
    (hD : ∀ j, j < n / 2 → LVP_packRow_word data (2 * j) = W (address / 2 + j))
    (hidx : address / 2 % 128 ≤ 64) :
    ∃ m, Assembled W ov (LVP_packRow address data n s) (address / 2 + n / 2) (p + 64 * m)
      ∧ (LVP_packRow address data n s).out = s.out ++ rowsActs W (List.range' p m 64) := by
  by_cases h1 : address / 2 % 128 = 64
  · exact assembled_upper W hW hC ov s p address data n hinv ha heven hn hD h1
  · by_cases h2 : address / 2 % 128 + n / 2 < 64
    · exact assembled_within W hW hC ov s p address data n hinv ha heven hn hD h2
    · exact assembled_cross W hW hC ov s p address data n hinv ha heven hn hD (by omega)
        (by omega)

theorem getD_drop (l : List Nat) (n i : Nat) : (l.drop n).getD i 0 = l.getD (n + i) 0 := by
  simp only [List.getD_eq_getElem?_getD, List.getElem?_drop]

theorem wordAt_drop (l : List Nat) (n j : Nat) (hn : n % 2 = 0) :
    wordAt (l.drop n) j = wordAt l (n / 2 + j) := by
  simp only [wordAt, getD_drop]
  have h1 : n + 2 * j = 2 * (n / 2 + j) := by omega
  have h2 : n + (2 * j + 1) = 2 * (n / 2 + j) + 1 := by omega
  rw [h1, h2]

theorem assembled_image (W : Nat → Nat) (hW : ∀ x, W x < 2 ^ 16)
    (hC : ∀ x, W x ≠ 0xFFFF → x < CFG_ADDRESS) (ov : Bool) :
    ∀ (sizes : List Nat) (address : Nat) (rest : List Nat) (s : LVP) (p : Nat),
      Assembled W ov s (address / 2) p →
      (∀ n, n ∈ sizes → n % 2 = 0 ∧ n ≤ 128) →
      (∀ x, x ∈ chunkStarts address sizes → x / 2 % 128 ≤ 64) →
      address + sizes.sum < 2 ^ 32 →
      (∀ b, b ∈ rest → b < 256) →
      (∀ j, j < sizes.sum / 2 → wordAt rest j = W (address / 2 + j)) →
      ∃ m, Assembled W ov (writeImage address rest sizes s)
            (address / 2 + sizes.sum / 2) (p + 64 * m)
        ∧ (writeImage address rest sizes s).out = s.out ++ rowsActs W (List.range' p m 64) := by
  intro sizes
  induction sizes with
  | nil =>
    intro address rest s p hinv _ _ _ _ _
    refine ⟨0, ?_, ?_⟩
    · simpa [writeImage] using hinv
    · simp [writeImage, rowsActs_nil]
  | cons n sizes ih =>
    intro address rest s p hinv hsz hst ha hbytes hwords
    have hn := hsz n (List.mem_cons_self _ _)
    have hsum : (n :: sizes).sum = n + sizes.sum := List.sum_cons
    have hsumeven : sizes.sum % 2 = 0 := by
      clear ih hst ha hwords hsum hinv
      induction sizes with
      | nil => rfl
      | cons a l ihl =>
        have h1 := (hsz a (List.mem_cons_of_mem _ (List.mem_cons_self _ _))).1
        have h2 := ihl (fun x hx => by
          rcases List.mem_cons.mp hx with h | h
          · exact hsz x (by rw [h]; exact List.mem_cons_self _ _)
          · exact hsz x (List.mem_cons_of_mem _ (List.mem_cons_of_mem _ h)))
        rw [List.sum_cons]
        omega
    rw [hsum] at ha hwords
    obtain ⟨m1, hinv1, hout1⟩ := assembled_step W hW hC ov s p address rest n hinv
      (by omega) hn.1 hn.2
      (fun j hj => by rw [packRow_word_eq rest j hbytes]; exact hwords j (by omega))
      (hst address (by simp [chunkStarts]))
    have hhalf : (address + n) / 2 = address / 2 + n / 2 := by omega
    obtain ⟨m2, hinv2, hout2⟩ := ih (address + n) (rest.drop n)
      (LVP_packRow address rest n s) (p + 64 * m1)
      (by rw [hhalf]; exact hinv1)
      (fun x hx => hsz x (List.mem_cons_of_mem _ hx))
      (fun x hx => hst x (by simp [chunkStarts, hx]))
      (by omega)
      (fun b hb => hbytes b (List.mem_of_mem_drop hb))
      (fun j hj => by
        rw [wordAt_drop rest n j hn.1, hwords (n / 2 + j) (by omega), hhalf]
        congr 1
        omega)
    refine ⟨m1 + m2, ?_, ?_⟩
    · have e1 : address / 2 + (n :: sizes).sum / 2 = (address + n) / 2 + sizes.sum / 2 := by
        rw [hsum]; omega
      have e2 : p + 64 * (m1 + m2) = p + 64 * m1 + 64 * m2 := by omega
      rw [e1, e2]
      exact hinv2
    · show (writeImage (address + n) (rest.drop n) sizes (LVP_packRow address rest n s)).out = _
      rw [hout2, hout1, List.append_assoc, ← rowsActs_append]
      rw [List.range'_append p m1 m2 64, Nat.add_comm m2 m1]

theorem imageWord_lt (a0 : Nat) (image : List Nat) (hb : ∀ b, b ∈ image → b < 256) (x : Nat) :
    imageWord a0 image x < 2 ^ 16 := by
  unfold imageWord
  split
  · exact wordAt_lt image hb _
  · norm_num

theorem imageWord_cfg (a0 : Nat) (image : List Nat)
    (hcfg : a0 / 2 + image.length / 2 ≤ CFG_ADDRESS) (x : Nat)
    (h : imageWord a0 image x ≠ 0xFFFF) : x < CFG_ADDRESS := by
  unfold imageWord at h
  split at h
  · omega
  · exact absurd rfl h

theorem imageWord_outside (a0 : Nat) (image : List Nat) (x : Nat)
    (h : x < a0 / 2 ∨ a0 / 2 + image.length / 2 ≤ x) : imageWord a0 image x = 0xFFFF := by
  unfold imageWord
  rw [if_neg (by omega)]

theorem image_rows (s : LVP) (a0 : Nat) (image sizes : List Nat)
    (hl : s.lvp = true) (hb : s.row = blankRow)
    (hbytes : ∀ b, b ∈ image → b < 256)
    (hsz : ∀ n, n ∈ sizes → n % 2 = 0 ∧ n ≤ 128)
    (hsum : sizes.sum = image.length)
    (hcfg : a0 / 2 + image.length / 2 ≤ CFG_ADDRESS)
    (hst : ∀ x, x ∈ chunkStarts a0 sizes → x / 2 % 128 ≤ 64) :
    LVP_programLastRow (writeImage a0 image sizes s)
      = { writeImage a0 image sizes s with
          row := blankRow, lvp := false,
          out := s.out ++ rowsActs (imageWord a0 image) (imageRowAddrs a0 image) ++ exitActs }
    ∧ (writeImage a0 image sizes s).overrun = s.overrun := by
  have hR : ROW_SIZE = 64 := rfl
  have hCv : CFG_ADDRESS = 0x015780 := rfl
  have hW := imageWord_lt a0 image hbytes
  have hC := imageWord_cfg a0 image hcfg
  have hinit : Assembled (imageWord a0 image) s.overrun s (a0 / 2) (a0 / 2 - a0 / 2 % 64) := by
    refine ⟨hl, rfl, ?_, by omega, by omega, by omega, by omega, Or.inr hb⟩
    rw [hb]
    apply eq_of_getD _ _ ROW_SIZE blankRow_length (winRow_length _ _ _)
    intro i hi
    rw [blankRow_getD i hi, winRow_getD _ _ _ _ hi]
    split
    · rw [imageWord_outside a0 image _ (Or.inl (by omega))]
    · rfl
  have heven : image.length % 2 = 0 := by
    rw [← hsum]
    clear hsum hst
    induction sizes with
    | nil => rfl
    | cons a l ihl =>
      have h1 := (hsz a (List.mem_cons_self _ _)).1
      have h2 := ihl (fun x hx => hsz x (List.mem_cons_of_mem _ hx))
      rw [List.sum_cons]
      omega
  obtain ⟨m, hinv, hout⟩ := assembled_image (imageWord a0 image) hW hC s.overrun sizes a0 image
    s (a0 / 2 - a0 / 2 % 64) hinit hsz hst (by rw [hsum]; omega) hbytes
    (fun j hj => by
      unfold imageWord
      rw [if_pos (by rw [hsum] at hj; omega)]
      congr 1
      omega)
  rw [hsum] at hinv
  obtain ⟨hl2, hov2, hrow2, hp64, hpw, hwp, hfull, hra2⟩ := hinv
  -- the pending row holds every image word of its row
  have hrowOf : winRow (imageWord a0 image) (a0 / 2 - a0 / 2 % 64 + 64 * m)
      (a0 / 2 + image.length / 2)
      = rowOf (imageWord a0 image) (a0 / 2 - a0 / 2 % 64 + 64 * m) := by
    unfold winRow rowOf
    apply List.map_congr_left
    intro i _
    by_cases h : a0 / 2 - a0 / 2 % 64 + 64 * m + i < a0 / 2 + image.length / 2
    · rw [if_pos h]
    · rw [if_neg h, imageWord_outside a0 image _ (Or.inr (by omega))]
  rw [hrowOf] at hrow2
  have hc := commitRow_eq (writeImage a0 image sizes s) hl2
    (by rw [hrow2]; exact rowOf_length _ _)
    (fun i hi => by rw [hrow2, rowOf_getD _ _ _ hi]; exact hW _)
    (fun h => by
      rcases hra2 with h2 | h2
      · rw [h2]
        apply winRow_cfg (imageWord a0 image) hC _ (a0 / 2 - a0 / 2 % 64 + 64 * m + 64)
        rw [winRow_full _ _ _ (le_refl _), ← hrow2]
        exact h
      · exact absurd h2 h)
  have hlast : (if (writeImage a0 image sizes s).row = blankRow then []
      else rowActs (writeImage a0 image sizes s).row_address (writeImage a0 image sizes s).row)
      = rowsActs (imageWord a0 image) [a0 / 2 - a0 / 2 % 64 + 64 * m] := by
    rw [rowsActs_single, ← hrow2]
    by_cases h : (writeImage a0 image sizes s).row = blankRow
    · rw [if_pos h, if_pos h]
    · rw [if_neg h, if_neg h]
      rcases hra2 with h2 | h2
      · rw [h2]
      · exact absurd h2 h
  have hall : rowsActs (imageWord a0 image) (List.range' (a0 / 2 - a0 / 2 % 64) (m + 1) 64)
      = rowsActs (imageWord a0 image) (imageRowAddrs a0 image) := by
    have hp0 : a0 / 2 / ROW_SIZE * ROW_SIZE = a0 / 2 - a0 / 2 % 64 := by rw [hR]; omega
    unfold imageRowAddrs
    rw [hp0, hR]
    by_cases hend : a0 / 2 + image.length / 2 = a0 / 2 - a0 / 2 % 64 + 64 * m
    · have hM : (a0 / 2 + image.length / 2 + 64 - 1) / 64 - a0 / 2 / 64 = m := by omega
      have hblank : rowOf (imageWord a0 image) (a0 / 2 - a0 / 2 % 64 + 64 * m) = blankRow := by
        rw [← winRow_full _ _ _ (le_refl _)]
        apply eq_of_getD _ _ ROW_SIZE (winRow_length _ _ _) blankRow_length
        intro i hi
        rw [winRow_getD _ _ _ _ hi, blankRow_getD i hi]
        split
        · exact imageWord_outside a0 image _ (Or.inr (by omega))
        · rfl
      rw [hM, rowsActs_range_succ, rowsActs_single, if_pos hblank, List.append_nil]
    · have hM : (a0 / 2 + image.length / 2 + 64 - 1) / 64 - a0 / 2 / 64 = m + 1 := by omega
      rw [hM]
  refine ⟨?_, hov2⟩
  rw [LVP_programLastRow, hc, exit_eq, hlast, hout, List.append_assoc s.out, ← rowsActs_append,
    ← List.range'_concat, hall]

/-- C1 (amended): for every contiguous image that lies entirely below
`CFG_ADDRESS`, delivered to `LVP_packRow` as consecutive chunk writes (each an
even number of bytes, at most one row long) each of which starts in the lower 64
words of its 128-word block or exactly at word 64 of it, starting from a session
that is Programming with a blank buffer (as a freshly entered one is) and ended
by `LVP_programLastRow`: the pin activity is exactly the transmission
(`ICSP_addressLoad` then `ICSP_rowWrite`) of the image's 64-word row-aligned rows
that contain at least one non-0xFFFF word, each once, with its little-endian word
content and 0xFFFF outside the image, in increasing row-address order, followed
by the exit handshake; the buffer ends blank, the session Released, and the
overrun flag is as it was. -/
theorem C1_image_rows (s : LVP) (a0 : Nat) (image sizes : List Nat)
    (hl : s.lvp = true) (hb : s.row = List.replicate ROW_SIZE 0xFFFF)
    (hbytes : ∀ b, b ∈ image → b < 256)
    (hsz : ∀ n, n ∈ sizes → n % 2 = 0 ∧ n ≤ 2 * ROW_SIZE)
    (hsum : sizes.sum = image.length)
    (hcfg : a0 / 2 + image.length / 2 ≤ CFG_ADDRESS)
    (hst : ∀ x, x ∈ chunkStarts a0 sizes → x / 2 % (2 * ROW_SIZE) ≤ ROW_SIZE) :
    (LVP_programLastRow (writeImage a0 image sizes s)).out
      = s.out
        ++ ((imageRowAddrs a0 image).filter
              (fun r => rowOf (imageWord a0 image) r != List.replicate ROW_SIZE 0xFFFF)).flatMap
            (fun r => ICSP_addressLoad (r <<< 1)
                        ++ ICSP_rowWrite (rowOf (imageWord a0 image) r) ROW_SIZE)
        ++ exitActs
    ∧ (imageRowAddrs a0 image).Pairwise (fun r1 r2 => r1 < r2)
    ∧ (LVP_programLastRow (writeImage a0 image sizes s)).row = List.replicate ROW_SIZE 0xFFFF
    ∧ (LVP_programLastRow (writeImage a0 image sizes s)).lvp = false
    ∧ (LVP_programLastRow (writeImage a0 image sizes s)).overrun = s.overrun := by
  have h := image_rows s a0 image sizes hl hb hbytes hsz hsum hcfg hst
  rw [h.1]
  refine ⟨rfl, ?_, rfl, rfl, h.2⟩
  exact List.pairwise_lt_range' _ _ ROW_SIZE (by decide)

/-- Witness for C1 (amended): a two-row image at address 0 delivered as two
128-byte chunks, the first row 0x11 bytes, the second all 0xFF. -/
theorem C1_image_rows_witness :
    (LVP_programLastRow
        (writeImage 0 (List.replicate 128 0x11 ++ List.replicate 128 0xFF) [128, 128]
          (LVP_enter powerOn))).out
      = (LVP_enter powerOn).out
        ++ ((imageRowAddrs 0 (List.replicate 128 0x11 ++ List.replicate 128 0xFF)).filter
              (fun r =>
                rowOf (imageWord 0 (List.replicate 128 0x11 ++ List.replicate 128 0xFF)) r
                  != List.replicate ROW_SIZE 0xFFFF)).flatMap
            (fun r => ICSP_addressLoad (r <<< 1)
                        ++ ICSP_rowWrite
                            (rowOf
                              (imageWord 0 (List.replicate 128 0x11 ++ List.replicate 128 0xFF))
                              r)
                            ROW_SIZE)
        ++ exitActs :=
  (C1_image_rows (LVP_enter powerOn) 0 (List.replicate 128 0x11 ++ List.replicate 128 0xFF)
    [128, 128] rfl rfl
    (fun b hb => by
      rcases List.mem_append.mp hb with h | h
      · rw [(List.mem_replicate.mp h).2]; decide
      · rw [(List.mem_replicate.mp h).2]; decide)
    (by decide)
    (by rw [List.length_append, List.length_replicate, List.length_replicate]; rfl)
    (by rw [List.length_append, List.length_replicate, List.length_replicate]; decide)
    (by decide)).1

set_option maxRecDepth 100000 in
theorem exampleImage_rows :
    (imageRowAddrs 0 exampleImage).filter
        (fun r => rowOf (imageWord 0 exampleImage) r != List.replicate ROW_SIZE 0xFFFF)
      = [64] := by
  decide

set_option maxRecDepth 100000 in
theorem cfgImage_rows :
    (imageRowAddrs (2 * CFG_ADDRESS) [0x11, 0x22]).filter
        (fun r => rowOf (imageWord (2 * CFG_ADDRESS) [0x11, 0x22]) r
                    != List.replicate ROW_SIZE 0xFFFF)
      = [CFG_ADDRESS] := by
  decide

/-- C1 (as stated, refuted), two inputs on a freshly entered session.
The 256-byte image `exampleImage` at address 0, delivered as four 64-byte chunks
at non-decreasing addresses, has exactly one non-blank row, the one at word
address 64; nothing is transmitted, the exit handshake is the only activity.
The 2-byte image `[0x11, 0x22]` at byte address `2 * CFG_ADDRESS` has the one
non-blank row at `CFG_ADDRESS`; it gets the address load and no row write. -/
theorem C1_image_rows_counterexample :
    ((imageRowAddrs 0 exampleImage).filter
          (fun r => rowOf (imageWord 0 exampleImage) r != List.replicate ROW_SIZE 0xFFFF)
        = [64]
      ∧ (LVP_programLastRow
          (writeImage 0 exampleImage [64, 64, 64, 64] (LVP_enter powerOn))).out
        = (LVP_enter powerOn).out ++ exitActs
      ∧ (LVP_programLastRow
          (writeImage 0 exampleImage [64, 64, 64, 64] (LVP_enter powerOn))).out
        ≠ (LVP_enter powerOn).out
            ++ rowActs 64 (rowOf (imageWord 0 exampleImage) 64) ++ exitActs)
    ∧ ((imageRowAddrs (2 * CFG_ADDRESS) [0x11, 0x22]).filter
          (fun r => rowOf (imageWord (2 * CFG_ADDRESS) [0x11, 0x22]) r
                      != List.replicate ROW_SIZE 0xFFFF)
        = [CFG_ADDRESS]
      ∧ (LVP_programLastRow
          (writeImage (2 * CFG_ADDRESS) [0x11, 0x22] [2] (LVP_enter powerOn))).out
        = (LVP_enter powerOn).out ++ ICSP_addressLoad (CFG_ADDRESS <<< 1) ++ exitActs
      ∧ (LVP_programLastRow
          (writeImage (2 * CFG_ADDRESS) [0x11, 0x22] [2] (LVP_enter powerOn))).out
        ≠ (LVP_enter powerOn).out
            ++ rowActs CFG_ADDRESS (rowOf (imageWord (2 * CFG_ADDRESS) [0x11, 0x22]) CFG_ADDRESS)
            ++ exitActs) := by
  have keyA : ∀ s : LVP, s.row = blankRow →
      ∃ ra, writeImage 0 exampleImage [64, 64, 64, 64] s = { s with row_address := ra } := by
    intro s hb
    obtain ⟨r1, h1⟩ := packRow_blank_data s 0 exampleImage 64 hb (by decide) (by decide)
    obtain ⟨r2, h2⟩ := packRow_blank_data { s with row_address := r1 } (0 + 64)
      (exampleImage.drop 64) 64 hb (by decide) (by decide)
    obtain ⟨r3, h3⟩ := packRow_blank_data { s with row_address := r2 } (0 + 64 + 64)
      ((exampleImage.drop 64).drop 64) 64 hb (by decide) (by decide)
    have h4 := packRow_beyond (0 + 64 + 64 + 64) (((exampleImage.drop 64).drop 64).drop 64) 64
      { s with row_address := r3 } 96 0 (by decide) (by decide) (by decide)
    rw [adoptRow_blank 0 { s with row_address := r3 } (blank_of_eq s hb)] at h4
    refine ⟨0, ?_⟩
    show LVP_packRow (0 + 64 + 64 + 64) (((exampleImage.drop 64).drop 64).drop 64) 64
        (LVP_packRow (0 + 64 + 64) ((exampleImage.drop 64).drop 64) 64
          (LVP_packRow (0 + 64) (exampleImage.drop 64) 64
            (LVP_packRow 0 exampleImage 64 s))) = _
    rw [h1, h2, h3, h4]
  have keyB : ∀ s : LVP, s.lvp = true → s.row = blankRow →
      (LVP_programLastRow (writeImage (2 * CFG_ADDRESS) [0x11, 0x22] [2] s)).out
        = s.out ++ ICSP_addressLoad (CFG_ADDRESS <<< 1) ++ exitActs := by
    intro s hl hb
    have hpack := fresh_within s (2 * CFG_ADDRESS) [0x11, 0x22] hb
      (by decide) (by decide) (by decide) (by decide)
    rw [(by decide : 2 * CFG_ADDRESS / 256 * 128 = CFG_ADDRESS),
      (by decide : ([0x11, 0x22] : List Nat).length = 2)] at hpack
    have hnb : ¬ ∀ i, i < ROW_SIZE →
        (overlay blankRow (2 * CFG_ADDRESS / 2 % 128) (wordAt [0x11, 0x22]) (2 / 2)).getD i 0
          % 2 ^ 16 = 0xffff := by
      apply nonblank_of_getD _ 0 (by decide)
      · rw [overlay_getD _ _ _ _ _ (by decide), if_pos (by decide)]; decide
      · rw [overlay_getD _ _ _ _ _ (by decide), if_pos (by decide)]; decide
    have hfin := programLastRow_cfg
      { s with row_address := CFG_ADDRESS,
               row := overlay blankRow (2 * CFG_ADDRESS / 2 % 128) (wordAt [0x11, 0x22])
                 (2 / 2) }
      hl (le_refl _) (by show CFG_ADDRESS ≠ ROW_UNSET; decide) hnb
    have hm : ((CFG_ADDRESS <<< 1) % 2 ^ 32) % 2 ^ 24 = CFG_ADDRESS <<< 1 := by decide
    show (LVP_programLastRow (LVP_packRow (2 * CFG_ADDRESS) [0x11, 0x22] 2 s)).out = _
    rw [hpack, hfin]
    simp only [hm]
  obtain ⟨ra, hA⟩ := keyA (LVP_enter powerOn) rfl
  have hB := keyB (LVP_enter powerOn) rfl rfl
  have houtA : (LVP_programLastRow
      (writeImage 0 exampleImage [64, 64, 64, 64] (LVP_enter powerOn))).out
      = (LVP_enter powerOn).out ++ exitActs := by
    rw [hA]
    exact congrArg LVP.out
      (programLastRow_blank { LVP_enter powerOn with row_address := ra }
        (fun i hi => fresh_blank i hi))
  refine ⟨⟨exampleImage_rows, houtA, ?_⟩, ⟨cfgImage_rows, hB, ?_⟩⟩
  · rw [houtA]
    exact append_ne_insert _ _ _ (rowActs_ne_nil _ _)
  · rw [hB, rowActs]
    exact append_ne_insert_right _ _ _ _ (rowWrite_ne_nil _ _)

/-! ## Claim C11 -/

theorem enter_eq (s : LVP) :
    LVP_enter s = { row := blankRow, row_address := ROW_UNSET, lvp := true,
                    out := s.out ++ enterActs, overrun := s.overrun } := by
  simp [LVP_enter, LVP.emit, enterActs, List.append_assoc]

theorem write_released (s : LVP) (hl : s.lvp = false) :
    LVP_write s = { row := blankRow, row_address := ROW_UNSET, lvp := true,
                    out := s.out ++ enterActs ++ ICSP_bulkErase, overrun := s.overrun } := by
  simp [LVP_write, LVP_inProgress, hl, enter_eq, LVP.emit, List.append_assoc]

theorem write_active (s : LVP) (hl : s.lvp = true) :
    LVP_write s =
      if s.row_address = ROW_UNSET then s
      else if CFG_ADDRESS ≤ s.row_address then
        { s with out := s.out ++ ICSP_addressLoad (((s.row_address <<< 1) % 2 ^ 32) % 2 ^ 24) }
      else
        { s with out := s.out ++ (ICSP_addressLoad (((s.row_address <<< 1) % 2 ^ 32) % 2 ^ 24)
                  ++ ICSP_rowWrite s.row ROW_SIZE) } := by
  by_cases h1 : s.row_address = ROW_UNSET
  · simp [LVP_write, LVP_inProgress, hl, h1]
  · by_cases h2 : CFG_ADDRESS ≤ s.row_address
    · simp [LVP_write, LVP_inProgress, hl, h1, h2, LVP.emit]
    · simp [LVP_write, LVP_inProgress, hl, h1, h2, LVP.emit, List.append_assoc]

/-- C11 (counterexample): in a Programming session with a word buffered for the
row at 64, `LVP_enter` is not a no-op: it drives the reset line low, clocks the
signature out on the clock and data lines, blanks the row buffer and replaces the
row address by the unset value. -/
theorem C11_enter_reentrant_counterexample :
    (pendingState true).lvp = true
      ∧ LVP_enter (pendingState true) ≠ pendingState true
      ∧ (LVP_enter (pendingState true)).out ≠ (pendingState true).out
      ∧ Act.nMCLR SLAVE_RESET ∈ (LVP_enter (pendingState true)).out
      ∧ 0 < clockPulses false (LVP_enter (pendingState true)).out
      ∧ Act.DAT true ∈ (LVP_enter (pendingState true)).out
      ∧ (LVP_enter (pendingState true)).row ≠ (pendingState true).row
      ∧ (LVP_enter (pendingState true)).row_address ≠ (pendingState true).row_address := by
  refine ⟨rfl, ?_, ?_, ?_, ?_, ?_, ?_, ?_⟩ <;> decide

/-- C11 (amended): `LVP_enter` has no guard on the session flag.  In every state,
Programming included, it appends the LED updates, `ICSP_init` and the signature
to the pin activity, blanks the row buffer, unsets the row address and sets the
flag.  The guard is in the caller `LVP_write`: in a Programming session it emits
no entry activity and no bulk erase, only the transmission of the buffered row;
in a Released session it runs `LVP_enter` and the bulk erase. -/
theorem C11_enter_unconditional (s : LVP) :
    LVP_enter s = { row := blankRow, row_address := ROW_UNSET, lvp := true,
                    out := s.out ++ enterActs, overrun := s.overrun }
      ∧ (s.lvp = true →
          LVP_write s =
            if s.row_address = ROW_UNSET then s
            else if CFG_ADDRESS ≤ s.row_address then
              { s with out := s.out
                  ++ ICSP_addressLoad (((s.row_address <<< 1) % 2 ^ 32) % 2 ^ 24) }
            else
              { s with out := s.out
                  ++ (ICSP_addressLoad (((s.row_address <<< 1) % 2 ^ 32) % 2 ^ 24)
                      ++ ICSP_rowWrite s.row ROW_SIZE) })
      ∧ (s.lvp = false →
          LVP_write s = { row := blankRow, row_address := ROW_UNSET, lvp := true,
                          out := s.out ++ enterActs ++ ICSP_bulkErase, overrun := s.overrun }) :=
  ⟨enter_eq s, write_active s, write_released s⟩

theorem C11_enter_unconditional_witness :
    (pendingState true).lvp = true
      ∧ LVP_enter (pendingState true)
          = { row := blankRow, row_address := ROW_UNSET, lvp := true,
              out := enterActs, overrun := false }
      ∧ LVP_write (pendingState true)
          = { pendingState true with
              out := ICSP_addressLoad 128 ++ ICSP_rowWrite (pendingState true).row ROW_SIZE } :=
  ⟨rfl, (C11_enter_unconditional (pendingState true)).1,
    ((C11_enter_unconditional (pendingState true)).2.1 rfl).trans (by
      rw [if_neg (by decide), if_neg (by decide)]; rfl)⟩

/-! ## Claim C12 -/

theorem locals_st (address : Nat) (data : List Nat) (data_count : Nat) (s : LVP) :
    (LVP_packRow_locals address data data_count s).st = LVP_packRow address data data_count s := by
  have key : ∀ (a b : Prop) [Decidable a] [Decidable b] (x y z : Pack),
      (if a then (if b then x else y) else z).st
        = if a then (if b then x.st else y.st) else z.st := by
    intro a b _ _ x y z
    by_cases ha : a
    · by_cases hb : b
      · simp [ha, hb]
      · simp [ha, hb]
    · simp [ha]
  exact key _ _ _ _ _

theorem locals_unfold (address : Nat) (data : List Nat) (data_count : Nat) (s : LVP) :
    LVP_packRow_locals address data data_count s =
      (let c := LVP_packRow_fill data 128
          { st := adoptRow (LVP_packRow_new_row address) s, pos := 0,
            index := LVP_packRow_index address, data_count := LVP_packRow_count data_count }
       if c.index == ROW_SIZE then
         let s2 := LVP_commitRow c.st
         if c.data_count > 0 then
           LVP_packRow_spill data 128
             { c with st := { s2 with row_address := (s2.row_address + ROW_SIZE) % 2 ^ 32 },
                      index := 0 }
         else { c with st := s2 }
       else c) := rfl

theorem count_val (n : Nat) (hn : n < 255) : LVP_packRow_count n = n + n % 2 :=
  round_val n hn

theorem count_255 : LVP_packRow_count 255 = 0 := by decide

/-- With a byte count of 255 `LVP_packRow` takes no byte from `data`: the count
is rounded to 0 and neither copy loop runs. -/
theorem locals_255 (address : Nat) (data : List Nat) (s : LVP) :
    (LVP_packRow_locals address data 255 s).pos = 0
      ∧ LVP_packRow address data 255 s =
          if LVP_packRow_index address = ROW_SIZE
          then LVP_commitRow (adoptRow (LVP_packRow_new_row address) s)
          else adoptRow (LVP_packRow_new_row address) s := by
  have hf : ∀ c : Pack, c.data_count = 0 → LVP_packRow_fill data 128 c = c := by
    intro c hc
    simp [LVP_packRow_fill, hc]
  rw [← locals_st, locals_unfold, count_255]
  simp only []
  rw [hf _ rfl]
  by_cases h : LVP_packRow_index address = ROW_SIZE
  · simp [h]
  · simp [h]

/-- For a byte count below 255 whose words fit the buffered row and the next,
`LVP_packRow` takes the count rounded up to even from `data`. -/
theorem locals_pos (address : Nat) (data : List Nat) (n : Nat) (s : LVP)
    (hn : n < 255) (hrow : s.row.length = ROW_SIZE)
    (hle : LVP_packRow_index address ≤ ROW_SIZE)
    (hend : LVP_packRow_index address + (n + n % 2) / 2 ≤ 2 * ROW_SIZE) :
    (LVP_packRow_locals address data n s).pos = n + n % 2 := by
  have hR : ROW_SIZE = 64 := rfl
  rw [locals_unfold, count_val n hn]
  generalize LVP_packRow_index address = idx at hle hend ⊢
  generalize hdc : n + n % 2 = dc at hend ⊢
  have he : dc % 2 = 0 := by omega
  have hlt : dc < 256 := by omega
  simp only []
  rw [fill_spec data 128 _ (adoptRow_row_length _ s hrow) (by simp only []; omega) he
    (by simp only []; omega) hlt]
  simp only [Nat.zero_add]
  by_cases h1 : idx + dc / 2 < ROW_SIZE
  · have hk : min (dc / 2) (ROW_SIZE - idx) = dc / 2 := by omega
    have hne : ¬ idx + dc / 2 = ROW_SIZE := by omega
    simp only [hk, beq_iff_eq, hne, if_false]
    omega
  · have hk : min (dc / 2) (ROW_SIZE - idx) = ROW_SIZE - idx := by omega
    have he2 : idx + (ROW_SIZE - idx) = ROW_SIZE := by omega
    simp only [hk, he2, beq_self_eq_true, if_true]
    by_cases hz : idx + dc / 2 = ROW_SIZE
    · have h0 : ¬ dc - 2 * (ROW_SIZE - idx) > 0 := by omega
      simp only [h0, if_false]
      omega
    · have h0 : dc - 2 * (ROW_SIZE - idx) > 0 := by omega
      simp only [h0, if_true]
      have c1 : 0 + (dc - 2 * (ROW_SIZE - idx)) / 2 ≤ ROW_SIZE := by omega
      have c2 : (dc - 2 * (ROW_SIZE - idx)) % 2 = 0 := by omega
      have c3 : dc - 2 * (ROW_SIZE - idx) ≤ 2 * 128 := by omega
      have c4 : dc - 2 * (ROW_SIZE - idx) < 256 := by omega
      have hlen2 : (LVP_commitRow
          { adoptRow (LVP_packRow_new_row address) s with
            row := overlay (adoptRow (LVP_packRow_new_row address) s).row idx
              (fun j => LVP_packRow_word data (2 * j)) (ROW_SIZE - idx) }).row.length = ROW_SIZE :=
        commitRow_row_length
          { adoptRow (LVP_packRow_new_row address) s with
            row := overlay (adoptRow (LVP_packRow_new_row address) s).row idx
              (fun j => LVP_packRow_word data (2 * j)) (ROW_SIZE - idx) }
          (overlay_length (adoptRow (LVP_packRow_new_row address) s).row idx
            (fun j => LVP_packRow_word data (2 * j)) (ROW_SIZE - idx))
      generalize LVP_commitRow
          { adoptRow (LVP_packRow_new_row address) s with
            row := overlay (adoptRow (LVP_packRow_new_row address) s).row idx
              (fun j => LVP_packRow_word data (2 * j)) (ROW_SIZE - idx) } = s2 at hlen2 ⊢
      rw [spill_spec data 128
        { st := { s2 with row_address := (s2.row_address + ROW_SIZE) % 2 ^ 32 },
          pos := 2 * (ROW_SIZE - idx), index := 0,
          data_count := dc - 2 * (ROW_SIZE - idx) } hlen2 c1 c2 c3 c4]
      simp only []
      omega

/-- C12 (code at the failing input): with a byte count of 255 the rounded count
is 0, not 256.  In a fresh session `LVP_packRow` at address 0 with 255 zero bytes
takes no byte from `data` and leaves the row buffer blank, while with 253 of the
same bytes it takes 254. -/
theorem C12_count_255_packs_nothing :
    LVP_packRow_count 255 = 0
      ∧ (LVP_packRow_locals 0 (List.replicate 255 0) 255 (LVP_enter powerOn)).pos = 0
      ∧ (LVP_packRow 0 (List.replicate 255 0) 255 (LVP_enter powerOn)).row = blankRow
      ∧ (LVP_packRow_locals 0 (List.replicate 255 0) 253 (LVP_enter powerOn)).pos = 254 := by
  refine ⟨count_255, (locals_255 0 _ _).1, ?_, ?_⟩
  · rw [(locals_255 0 _ _).2, if_neg (by decide)]
    rfl
  · exact locals_pos 0 _ 253 _ (by decide) (by decide) (by decide) (by decide)

/-! ## Claim C13 -/

theorem step_frame (data : List Nat) (c : Pack) :
    (LVP_packRow_step data c).st.row_address = c.st.row_address
      ∧ (LVP_packRow_step data c).st.lvp = c.st.lvp
      ∧ (LVP_packRow_step data c).st.out = c.st.out
      ∧ (LVP_packRow_step data c).st.row.length = c.st.row.length := by
  simp [LVP_packRow_step]

theorem fill_frame (data : List Nat) (fuel : Nat) (c : Pack) :
    (LVP_packRow_fill data fuel c).st.row_address = c.st.row_address
      ∧ (LVP_packRow_fill data fuel c).st.lvp = c.st.lvp
      ∧ (LVP_packRow_fill data fuel c).st.out = c.st.out
      ∧ (LVP_packRow_fill data fuel c).st.row.length = c.st.row.length := by
  induction fuel generalizing c with
  | zero => simp [LVP_packRow_fill]
  | succ fuel ih =>
    simp only [LVP_packRow_fill]
    split
    · have h := ih (LVP_packRow_step data c)
      have h2 := step_frame data c
      exact ⟨h.1.trans h2.1, h.2.1.trans h2.2.1, h.2.2.1.trans h2.2.2.1, h.2.2.2.trans h2.2.2.2⟩
    · simp

theorem spill_frame (data : List Nat) (fuel : Nat) (c : Pack) :
    (LVP_packRow_spill data fuel c).st.row_address = c.st.row_address
      ∧ (LVP_packRow_spill data fuel c).st.lvp = c.st.lvp
      ∧ (LVP_packRow_spill data fuel c).st.out = c.st.out
      ∧ (LVP_packRow_spill data fuel c).st.row.length = c.st.row.length := by
  induction fuel generalizing c with
  | zero => simp [LVP_packRow_spill]
  | succ fuel ih =>
    simp only [LVP_packRow_spill]
    split
    · have h := ih (LVP_packRow_step data c)
      have h2 := step_frame data c
      exact ⟨h.1.trans h2.1, h.2.1.trans h2.2.1, h.2.2.1.trans h2.2.2.1, h.2.2.2.trans h2.2.2.2⟩
    · simp

/-- In a Programming session `LVP_commitRow` keeps the row address and the flag. -/
theorem commitRow_active (s : LVP) (hl : s.lvp = true) :
    (LVP_commitRow s).row_address = s.row_address ∧ (LVP_commitRow s).lvp = true := by
  unfold LVP_commitRow
  split
  · rw [write_active s hl]
    split
    · exact ⟨rfl, hl⟩
    · split
      · exact ⟨rfl, hl⟩
      · exact ⟨rfl, hl⟩
  · exact ⟨rfl, hl⟩

/-- In a Released session `LVP_commitRow` either keeps the row address or, when
it enters the session, leaves it unset. -/
theorem commitRow_row_address (s : LVP) :
    (LVP_commitRow s).row_address = s.row_address
      ∨ (LVP_commitRow s).row_address = ROW_UNSET := by
  cases hl : s.lvp
  · unfold LVP_commitRow
    split
    · rw [write_released s hl]
      exact Or.inr rfl
    · exact Or.inl rfl
  · exact Or.inl (commitRow_active s hl).1

theorem new_row_val (address : Nat) (ha : address < 2 ^ 32) :
    LVP_packRow_new_row address = address / 256 * 128 :=
  and_0xfffffff00 address ha

theorem index_val (address : Nat) : LVP_packRow_index address = address / 2 % 128 :=
  and_0xfe address

theorem packRow_eq_locals (address : Nat) (data : List Nat) (data_count : Nat) (s : LVP) :
    LVP_packRow address data data_count s =
      (let c := LVP_packRow_fill data 128
          { st := adoptRow (LVP_packRow_new_row address) s, pos := 0,
            index := LVP_packRow_index address, data_count := LVP_packRow_count data_count }
       if c.index == ROW_SIZE then
         let s2 := LVP_commitRow c.st
         if c.data_count > 0 then
           (LVP_packRow_spill data 128
             { c with st := { s2 with row_address := (s2.row_address + ROW_SIZE) % 2 ^ 32 },
                      index := 0 }).st
         else s2
       else c.st) :=
  packRow_unfold address data data_count s _ _ _ rfl rfl rfl

/-- The row-address invariant in a Programming session: after `LVP_packRow` the
row address is the 128-word block of the incoming address or that plus
`ROW_SIZE`, a multiple of `ROW_SIZE` either way, and the session is still
Programming. -/
theorem packRow_row_address_active (address : Nat) (data : List Nat) (data_count : Nat)
    (s : LVP) (ha : address < 2 ^ 32) (hl : s.lvp = true) :
    (LVP_packRow address data data_count s).lvp = true
      ∧ ((LVP_packRow address data data_count s).row_address = address / 256 * 128
          ∨ (LVP_packRow address data data_count s).row_address
              = address / 256 * 128 + ROW_SIZE)
      ∧ (LVP_packRow address data data_count s).row_address % ROW_SIZE = 0 := by
  have hA : (adoptRow (LVP_packRow_new_row address) s).row_address = address / 256 * 128
      ∧ (adoptRow (LVP_packRow_new_row address) s).lvp = true := by
    rw [new_row_val address ha]
    unfold adoptRow
    split
    · exact ⟨rfl, (commitRow_active s hl).2⟩
    · rename_i h
      simp only [bne_iff_ne, ne_eq, not_not] at h
      exact ⟨h.symm, hl⟩
  have hR : ROW_SIZE = 64 := rfl
  rw [packRow_eq_locals]
  simp only []
  generalize hc : LVP_packRow_fill data 128
      { st := adoptRow (LVP_packRow_new_row address) s, pos := 0,
        index := LVP_packRow_index address, data_count := LVP_packRow_count data_count } = c
  have hf := fill_frame data 128
      { st := adoptRow (LVP_packRow_new_row address) s, pos := 0,
        index := LVP_packRow_index address, data_count := LVP_packRow_count data_count }
  rw [hc] at hf
  simp only [] at hf
  have hcl : c.st.lvp = true := hf.2.1.trans hA.2
  have hcr : c.st.row_address = address / 256 * 128 := hf.1.trans hA.1
  have hcom := commitRow_active c.st hcl
  split
  · split
    · have hs := spill_frame data 128
        { c with st := { LVP_commitRow c.st with
                         row_address := ((LVP_commitRow c.st).row_address + ROW_SIZE) % 2 ^ 32 },
                 index := 0 }
      simp only [] at hs
      have hv : ((LVP_commitRow c.st).row_address + ROW_SIZE) % 2 ^ 32
          = address / 256 * 128 + ROW_SIZE := by
        rw [hcom.1, hcr, hR]; omega
      refine ⟨hs.2.1.trans hcom.2, Or.inr (hs.1.trans hv), ?_⟩
      rw [hs.1, hv, hR]; omega
    · refine ⟨hcom.2, Or.inl (hcom.1.trans hcr), ?_⟩
      rw [hcom.1, hcr, hR]; omega
  · refine ⟨hcl, Or.inl hcr, ?_⟩
    rw [hcr, hR]; omega

set_option maxRecDepth 100000 in
theorem packRow_released_63 :
    (LVP_packRow 0x7E [1, 0, 2, 0] 4 releasedBlank).row_address = 63 := by
  decide

/-- C13 (code at the failing input): from a Released session whose row address
is the unset value and whose buffer is blank, `LVP_packRow(0x7E, {1, 0, 2, 0}, 4)`
fills offset 63, enters the session while committing, which unsets the row
address, and then adds `ROW_SIZE` to it: the row address ends as 63, neither the
unset value nor a multiple of `ROW_SIZE`. -/
theorem C13_row_address_63 :
    releasedBlank.lvp = false ∧ releasedBlank.row_address = ROW_UNSET
      ∧ (LVP_packRow 0x7E [1, 0, 2, 0] 4 releasedBlank).row_address = 63
      ∧ 63 ≠ ROW_UNSET ∧ 63 % ROW_SIZE ≠ 0 := by
  exact ⟨rfl, rfl, packRow_released_63, by decide, by decide⟩

/-! ## Claim C14 -/

/-- The offset and the row address `LVP_packRow` derives from a 32-bit address
are taken at a granularity of 128 words: the offset is the word address modulo
128 and the row address is the word address rounded down to a multiple of 128. -/
theorem packRow_split_128 (address : Nat) (ha : address < 2 ^ 32) :
    LVP_packRow_index address = (address >>> 1) % (2 * ROW_SIZE)
      ∧ LVP_packRow_new_row address = (address >>> 1) / (2 * ROW_SIZE) * (2 * ROW_SIZE) := by
  have hR : ROW_SIZE = 64 := rfl
  rw [index_val, new_row_val address ha, Nat.shiftRight_eq_div_pow, hR]
  constructor
  · norm_num
  · omega

set_option maxRecDepth 100000 in
theorem packRow_0x82 :
    LVP_packRow 0x82 [0x34, 0x12] 2 (LVP_enter powerOn)
      = { LVP_enter powerOn with row_address := 0 } := by
  rw [packRow_beyond 0x82 [0x34, 0x12] 2 (LVP_enter powerOn) 65 0 (by decide) (by decide)
    (by decide)]
  decide

/-- C14 (code at the failing input): for the byte address 0x82, word address 65,
`LVP_packRow` computes the offset 65, not 65 mod 64 = 1, and the row address 0,
not 64.  The offset is not below `ROW_SIZE`, so in a fresh session the word
written there is not buffered at all: the row buffer stays blank and the row
address adopted is 0. -/
theorem C14_split_at_0x82 :
    LVP_packRow_index 0x82 = 65 ∧ (0x82 >>> 1) % ROW_SIZE = 1
      ∧ ¬ LVP_packRow_index 0x82 < ROW_SIZE
      ∧ LVP_packRow_new_row 0x82 = 0 ∧ (0x82 >>> 1) / ROW_SIZE * ROW_SIZE = 64
      ∧ (LVP_packRow 0x82 [0x34, 0x12] 2 (LVP_enter powerOn)).row_address = 0
      ∧ (LVP_packRow 0x82 [0x34, 0x12] 2 (LVP_enter powerOn)).row = blankRow := by
  refine ⟨by decide, by decide, by decide, by decide, by decide, ?_, ?_⟩
  · rw [packRow_0x82]
  · rw [packRow_0x82]
    rfl

/-! ## Claim C15 -/

theorem commitRow_words (s : LVP) (hw : ∀ i, i < ROW_SIZE → s.row.getD i 0 < 2 ^ 16) :
    ∀ i, i < ROW_SIZE → (LVP_commitRow s).row.getD i 0 < 2 ^ 16 := by
  intro i hi
  unfold LVP_commitRow
  split
  · show blankRow.getD i 0 < 2 ^ 16
    rw [blankRow_getD i hi]; norm_num
  · exact hw i hi

theorem adoptRow_words (nr : Nat) (s : LVP)
    (hw : ∀ i, i < ROW_SIZE → s.row.getD i 0 < 2 ^ 16) :
    ∀ i, i < ROW_SIZE → (adoptRow nr s).row.getD i 0 < 2 ^ 16 := by
  intro i hi
  unfold adoptRow
  split
  · exact commitRow_words s hw i hi
  · exact hw i hi

theorem overlay_words (row : List Nat) (idx : Nat) (f : Nat → Nat) (k : Nat)
    (hw : ∀ i, i < ROW_SIZE → row.getD i 0 < 2 ^ 16) (hf : ∀ j, f j < 2 ^ 16) :
    ∀ i, i < ROW_SIZE → (overlay row idx f k).getD i 0 < 2 ^ 16 := by
  intro i hi
  rw [overlay_getD _ _ _ _ _ hi]
  split
  · exact hf _
  · exact hw i hi

theorem adoptRow_active (nr : Nat) (s : LVP) (hl : s.lvp = true) :
    (adoptRow nr s).row_address = nr ∧ (adoptRow nr s).lvp = true := by
  unfold adoptRow
  split
  · exact ⟨rfl, (commitRow_active s hl).2⟩
  · rename_i h
    simp only [bne_iff_ne, ne_eq, not_not] at h
    exact ⟨h.symm, hl⟩

/-- In a Programming session `LVP_commitRow` appends `commitActs` and leaves the
buffer blank. -/
theorem commitRow_active_eq (s : LVP) (hl : s.lvp = true) (hlen : s.row.length = ROW_SIZE)
    (hw : ∀ i, i < ROW_SIZE → s.row.getD i 0 < 2 ^ 16) :
    LVP_commitRow s
      = { s with row := blankRow, out := s.out ++ commitActs s.row_address s.row } := by
  by_cases hb : s.row = blankRow
  · rw [commitRow_blank s (blank_of_eq s hb), commitActs, if_pos (Or.inl hb), List.append_nil]
    cases s
    simp only at hb
    simp [hb]
  · have hnb : ¬ ∀ i, i < ROW_SIZE → s.row.getD i 0 % 2 ^ 16 = 0xffff :=
      fun h => hb (eq_blankRow_of_blank s.row hlen hw h)
    rw [commitRow_nonblank s hnb, write_active s hl, commitActs]
    by_cases h1 : s.row_address = ROW_UNSET
    · rw [if_pos h1, if_pos (Or.inr h1), List.append_nil]
    · have h2 : ¬ (s.row = blankRow ∨ s.row_address = ROW_UNSET) := by
        rintro (h | h)
        · exact hb h
        · exact h1 h
      rw [if_neg h1, if_neg h2]
      by_cases h3 : CFG_ADDRESS ≤ s.row_address
      · rw [if_pos h3, if_pos h3]
      · rw [if_neg h3, if_neg h3]

/-- A write in a Programming session that fills the buffer up to its last word. -/
theorem packRow_full (s : LVP) (address : Nat) (data : List Nat) (n : Nat)
    (hl : s.lvp = true) (hlen : s.row.length = ROW_SIZE)
    (hw : ∀ i, i < ROW_SIZE → s.row.getD i 0 < 2 ^ 16)
    (ha : address < 2 ^ 32)
    (hidx : LVP_packRow_index address < ROW_SIZE)
    (hfull : ROW_SIZE ≤ LVP_packRow_index address + LVP_packRow_count n / 2) :
    (LVP_packRow address data n s).out
        = (adoptRow (LVP_packRow_new_row address) s).out
            ++ commitActs (LVP_packRow_new_row address)
                (overlay (adoptRow (LVP_packRow_new_row address) s).row
                  (LVP_packRow_index address) (fun j => LVP_packRow_word data (2 * j))
                  (ROW_SIZE - LVP_packRow_index address))
      ∧ (LVP_packRow_index address + LVP_packRow_count n / 2 = ROW_SIZE →
          (LVP_packRow address data n s).row_address = LVP_packRow_new_row address
            ∧ (LVP_packRow address data n s).row = blankRow)
      ∧ (ROW_SIZE < LVP_packRow_index address + LVP_packRow_count n / 2 →
          (LVP_packRow address data n s).row_address
            = LVP_packRow_new_row address + ROW_SIZE) := by
  have hR : ROW_SIZE = 64 := rfl
  have hp : LVP_packRow_count n % 2 = 0 ∧ LVP_packRow_count n < 256 := round_props n
  have hnr := new_row_val address ha
  have hA := adoptRow_active (LVP_packRow_new_row address) s hl
  have hAlen := adoptRow_row_length (LVP_packRow_new_row address) s hlen
  have hAw := adoptRow_words (LVP_packRow_new_row address) s hw
  rw [packRow_eq_locals]
  generalize LVP_packRow_index address = idx at hidx hfull ⊢
  generalize LVP_packRow_count n = dc at hfull hp ⊢
  generalize LVP_packRow_new_row address = nr at hnr hA hAlen hAw ⊢
  generalize adoptRow nr s = A at hA hAlen hAw ⊢
  have hk : min (dc / 2) (ROW_SIZE - idx) = ROW_SIZE - idx := by omega
  have he : idx + (ROW_SIZE - idx) = ROW_SIZE := by omega
  simp only []
  rw [fill_spec data 128 { st := A, pos := 0, index := idx, data_count := dc } hAlen
    (by simp only []; omega) hp.1 (by simp only []; omega) hp.2]
  simp only [hk, he, beq_self_eq_true, if_true, Nat.zero_add]
  have hFlen : (overlay A.row idx (fun j => LVP_packRow_word data (2 * j))
      (ROW_SIZE - idx)).length = ROW_SIZE := overlay_length _ _ _ _
  have hFw := overlay_words A.row idx (fun j => LVP_packRow_word data (2 * j))
      (ROW_SIZE - idx) hAw (fun j => packRow_word_lt data (2 * j))
  have hcom : ∀ (F : LVP), F.lvp = true → F.row.length = ROW_SIZE →
      (∀ i, i < ROW_SIZE → F.row.getD i 0 < 2 ^ 16) →
      (LVP_commitRow F).out = F.out ++ commitActs F.row_address F.row
        ∧ (LVP_commitRow F).row_address = F.row_address
        ∧ (LVP_commitRow F).row = blankRow := by
    intro F h1 h2 h3
    rw [commitRow_active_eq F h1 h2 h3]
    exact ⟨rfl, rfl, rfl⟩
  have hc := hcom
    { A with
      row := overlay A.row idx (fun j => LVP_packRow_word data (2 * j)) (ROW_SIZE - idx) }
    hA.2 hFlen hFw
  obtain ⟨hA1, -⟩ := hA
  subst hA1
  simp only [] at hc
  generalize LVP_commitRow
    { A with
      row := overlay A.row idx (fun j => LVP_packRow_word data (2 * j)) (ROW_SIZE - idx) }
    = S2 at hc ⊢
  by_cases hz : idx + dc / 2 = ROW_SIZE
  · have h0 : ¬ dc - 2 * (ROW_SIZE - idx) > 0 := by omega
    simp only [h0, if_false]
    exact ⟨hc.1, fun _ => ⟨hc.2.1, hc.2.2⟩, fun h => absurd hz (by omega)⟩
  · have h0 : dc - 2 * (ROW_SIZE - idx) > 0 := by omega
    simp only [h0, if_true]
    have hs := spill_frame data 128
      { st := { S2 with row_address := (S2.row_address + ROW_SIZE) % 2 ^ 32 },
        pos := 2 * (ROW_SIZE - idx), index := 0, data_count := dc - 2 * (ROW_SIZE - idx) }
    simp only [] at hs
    refine ⟨hs.2.2.1.trans hc.1, fun h => absurd h hz, fun _ => ?_⟩
    rw [hs.1, hc.2.1, hnr, hR]
    omega

theorem adoptRow_fresh_out (nr : Nat) :
    (adoptRow nr (LVP_enter powerOn)).out = (LVP_enter powerOn).out := by
  rw [adoptRow_blank nr (LVP_enter powerOn) (blank_of_eq _ rfl)]

set_option maxRecDepth 100000 in
theorem packRow_zeros_full :
    overlay (adoptRow (LVP_packRow_new_row 0) (LVP_enter powerOn)).row (LVP_packRow_index 0)
        (fun j => LVP_packRow_word (List.replicate 128 0) (2 * j))
        (ROW_SIZE - LVP_packRow_index 0)
      = List.replicate 64 0 := by
  decide

theorem write_overrun (s : LVP) : (LVP_write s).overrun = s.overrun := by
  cases hl : s.lvp
  · rw [write_released s hl]
  · rw [write_active s hl]
    split
    · rfl
    · split <;> rfl

theorem commitRow_overrun (s : LVP) : (LVP_commitRow s).overrun = s.overrun := by
  unfold LVP_commitRow
  split
  · exact write_overrun s
  · rfl

theorem adoptRow_overrun (nr : Nat) (s : LVP) : (adoptRow nr s).overrun = s.overrun := by
  unfold adoptRow
  split
  · exact commitRow_overrun s
  · rfl

/-- A write whose words end within the row after the buffered one stores nothing
beyond the row buffer. -/
theorem packRow_no_overrun (s : LVP) (address : Nat) (data : List Nat) (n : Nat)
    (hlen : s.row.length = ROW_SIZE)
    (hfit : ROW_SIZE < LVP_packRow_index address
      ∨ LVP_packRow_index address + LVP_packRow_count n / 2 ≤ 2 * ROW_SIZE) :
    (LVP_packRow address data n s).overrun = s.overrun := by
  have hR : ROW_SIZE = 64 := rfl
  by_cases hgt : ROW_SIZE < LVP_packRow_index address
  · rw [packRow_beyond address data n s (LVP_packRow_index address)
      (LVP_packRow_new_row address) rfl rfl hgt]
    exact adoptRow_overrun _ s
  · have hend : LVP_packRow_index address + LVP_packRow_count n / 2 ≤ 2 * ROW_SIZE := by
      rcases hfit with h | h
      · exact absurd h hgt
      · exact h
    by_cases hw : LVP_packRow_index address + LVP_packRow_count n / 2 < ROW_SIZE
    · rw [packRow_within address data n s (LVP_packRow_index address)
        (LVP_packRow_new_row address) (LVP_packRow_count n) rfl rfl rfl hlen hw]
      exact adoptRow_overrun _ s
    · rw [packRow_cross address data n s (LVP_packRow_index address)
        (LVP_packRow_new_row address) (LVP_packRow_count n) rfl rfl rfl hlen (by omega)
        (by omega) hend]
      simp only []
      split
      · rw [commitRow_overrun]
        exact adoptRow_overrun _ s
      · show (LVP_commitRow _).overrun = s.overrun
        rw [commitRow_overrun]
        exact adoptRow_overrun _ s

/-- C15 (counterexample): in a fresh Programming session a write of 128 zero
bytes at address 0 makes the row buffer exactly full with no byte left over.
The row is committed within the call at row address 0, and the row address
stored afterwards is still 0, not 0 + `ROW_SIZE`. -/
theorem C15_full_row_counterexample :
    (LVP_enter powerOn).lvp = true
      ∧ LVP_packRow_index 0 + LVP_packRow_count 128 / 2 = ROW_SIZE
      ∧ (LVP_packRow 0 (List.replicate 128 0) 128 (LVP_enter powerOn)).out
          = (LVP_enter powerOn).out
              ++ (ICSP_addressLoad 0 ++ ICSP_rowWrite (List.replicate 64 0) ROW_SIZE)
      ∧ (LVP_packRow 0 (List.replicate 128 0) 128 (LVP_enter powerOn)).row_address = 0
      ∧ (0 : Nat) ≠ 0 + ROW_SIZE := by
  have h := packRow_full (LVP_enter powerOn) 0 (List.replicate 128 0) 128 rfl (by decide)
    (by decide) (by decide) (by decide) (by decide)
  refine ⟨rfl, by decide, ?_, ?_, by decide⟩
  · rw [h.1, packRow_zeros_full, adoptRow_fresh_out,
      (by decide : LVP_packRow_new_row 0 = 0), commitActs,
      if_neg (by decide), if_neg (by decide),
      (by decide : (0 <<< 1) % 2 ^ 32 % 2 ^ 24 = 0)]
  · rw [(h.2.1 (by decide)).1]
    decide

/-- C15 (amended): in a Programming session, for every write that fills the row
buffer up to its last word (offset below `ROW_SIZE`, offset plus the rounded
count in words at least `ROW_SIZE`) and whose words end within the row after
the buffered one (offset plus the rounded count in words at most
`2 * ROW_SIZE`, so that no store falls outside the row buffer), `LVP_packRow`
commits the full buffer within the call: it appends what `LVP_commitRow`
transmits for the adopted row address and the full buffer (nothing when blank,
the address load alone at or above `CFG_ADDRESS`, address load and row write
below).  When input bytes are left over the row address stored afterwards is
the committed row's address plus `ROW_SIZE`; when none are left over the row
address is still the committed row's address and the buffer is all 0xFFFF.
No word is stored outside the row buffer. -/
theorem C15_full_row_commit (s : LVP) (address : Nat) (data : List Nat) (n : Nat)
    (hl : s.lvp = true) (hlen : s.row.length = ROW_SIZE)
    (hw : ∀ i, i < ROW_SIZE → s.row.getD i 0 < 2 ^ 16)
    (ha : address < 2 ^ 32)
    (hidx : LVP_packRow_index address < ROW_SIZE)
    (hfull : ROW_SIZE ≤ LVP_packRow_index address + LVP_packRow_count n / 2)
    (hend : LVP_packRow_index address + LVP_packRow_count n / 2 ≤ 2 * ROW_SIZE) :
    (LVP_packRow address data n s).overrun = s.overrun
      ∧ (LVP_packRow address data n s).out
        = (adoptRow (LVP_packRow_new_row address) s).out
            ++ commitActs (LVP_packRow_new_row address)
                (overlay (adoptRow (LVP_packRow_new_row address) s).row
                  (LVP_packRow_index address) (fun j => LVP_packRow_word data (2 * j))
                  (ROW_SIZE - LVP_packRow_index address))
      ∧ (LVP_packRow_index address + LVP_packRow_count n / 2 = ROW_SIZE →
          (LVP_packRow address data n s).row_address = LVP_packRow_new_row address
            ∧ (LVP_packRow address data n s).row = blankRow)
      ∧ (ROW_SIZE < LVP_packRow_index address + LVP_packRow_count n / 2 →
          (LVP_packRow address data n s).row_address
            = LVP_packRow_new_row address + ROW_SIZE) :=
  ⟨packRow_no_overrun s address data n hlen (Or.inr hend),
    packRow_full s address data n hl hlen hw ha hidx hfull⟩

theorem C15_full_row_commit_witness :
    (LVP_enter powerOn).lvp = true
      ∧ LVP_packRow_index 0x7C < ROW_SIZE
      ∧ ROW_SIZE < LVP_packRow_index 0x7C + LVP_packRow_count 8 / 2
      ∧ LVP_packRow_index 0x7C + LVP_packRow_count 8 / 2 ≤ 2 * ROW_SIZE
      ∧ (LVP_packRow 0x7C [1, 0, 2, 0, 3, 0, 4, 0] 8 (LVP_enter powerOn)).row_address
          = LVP_packRow_new_row 0x7C + ROW_SIZE :=
  ⟨rfl, by decide, by decide, by decide,
    (C15_full_row_commit (LVP_enter powerOn) 0x7C [1, 0, 2, 0, 3, 0, 4, 0] 8 rfl (by decide)
      (by decide) (by decide) (by decide) (by decide) (by decide)).2.2.2 (by decide)⟩

/-! ## Claim C16 -/

theorem Cmds_nil : ICSP_Cmds [] = [] := rfl

theorem Cmds_cons (w : Nat) (ws : List Nat) : ICSP_Cmds (w :: ws) = ICSP_Cmd w ++ ICSP_Cmds ws :=
  rfl

theorem Cmds_append (l1 l2 : List Nat) : ICSP_Cmds (l1 ++ l2) = ICSP_Cmds l1 ++ ICSP_Cmds l2 := by
  simp [ICSP_Cmds, List.flatMap_append]

/-- The instruction words of `ICSP_addressLoad` after the exit-reset-vector
script. -/
theorem addressLoad_words (address : Nat) :
    ICSP_addressLoad address
      = ICSP_exitResetVector
          ++ ICSP_Cmds [0x200FAC, 0x883B0A, ICSP_addressLoad_W3 address,
              ICSP_addressLoad_W4 address, 0x883953, 0x883964, 0x24001A, 0, 0x883B0A, 0, 0] := by
  simp only [ICSP_addressLoad, ICSP_addressLoad_W3, ICSP_addressLoad_W4, Cmds_cons, Cmds_nil,
    List.append_assoc, List.append_nil]

/-- The two staging words `ICSP_addressLoad` sends: the addition is done before
the shift, so the opcode 0x2 is shifted out of the 24-bit word and the register
number lands in the literal field. -/
theorem addressLoad_W3_val (address : Nat) :
    ICSP_addressLoad_W3 address = (address &&& 0xffff) * 16 + 0x30
      ∧ ICSP_addressLoad_W4 address = ((address >>> 16) &&& 0xff) * 16 + 0x40 := by
  have h1 : address &&& 0xffff ≤ 0xffff := Nat.and_le_right
  have h2 : (address >>> 16) &&& 0xff ≤ 0xff := Nat.and_le_right
  simp only [ICSP_addressLoad_W3, ICSP_addressLoad_W4, Nat.shiftLeft_eq]
  omega

/-- For no address are the staging words of `ICSP_addressLoad` the words
`sendSIXMov` builds for the same operands. -/
theorem addressLoad_W3_ne (address : Nat) :
    ICSP_addressLoad_W3 address ≠ sendSIXMov_word (address &&& 0xffff) 3
      ∧ ICSP_addressLoad_W4 address ≠ sendSIXMov_word ((address >>> 16) &&& 0xff) 4 := by
  have h1 : address &&& 0xffff ≤ 0xffff := Nat.and_le_right
  have h2 : (address >>> 16) &&& 0xff ≤ 0xff := Nat.and_le_right
  rw [(addressLoad_W3_val address).1, (addressLoad_W3_val address).2,
    sendSIXMov_word_eq _ 3 (by omega) (by norm_num),
    sendSIXMov_word_eq _ 4 (by omega) (by norm_num)]
  constructor <;> omega

/-- C16 (code at the failing input): for the address 0x012345 the two staging
words `ICSP_addressLoad` sends are 0x023480 and 0x000050, while `sendSIXMov`
builds 0x223453 for (0x2345, 3) and 0x200014 for (0x01, 4); the transactions on
the wire differ accordingly. -/
theorem C16_addressLoad_0x012345 :
    ICSP_addressLoad 0x012345
        = ICSP_exitResetVector
            ++ ICSP_Cmds [0x200FAC, 0x883B0A, 0x023480, 0x000050, 0x883953, 0x883964,
                0x24001A, 0, 0x883B0A, 0, 0]
      ∧ sendSIXMov_word (0x012345 &&& 0xFFFF) 3 = 0x223453
      ∧ sendSIXMov_word ((0x012345 >>> 16) &&& 0xFF) 4 = 0x200014
      ∧ ICSP_Cmd 0x023480 ≠ sendSIXMov (0x012345 &&& 0xFFFF) 3
      ∧ ICSP_Cmd 0x000050 ≠ sendSIXMov ((0x012345 >>> 16) &&& 0xFF) 4 := by
  refine ⟨?_, by decide, by decide, ?_, ?_⟩
  · rw [addressLoad_words, (by decide : ICSP_addressLoad_W3 0x012345 = 0x023480),
      (by decide : ICSP_addressLoad_W4 0x012345 = 0x000050)]
  · intro h
    have := Cmd_injective 0x023480 (sendSIXMov_word (0x012345 &&& 0xFFFF) 3) (by norm_num)
      (by decide) h
    exact absurd this (by decide)
  · intro h
    have := Cmd_injective 0x000050 (sendSIXMov_word ((0x012345 >>> 16) &&& 0xFF) 4)
      (by norm_num) (by decide) h
    exact absurd this (by decide)

/-! ## Claim C17 -/

theorem lineAfter_Cmd (w : Nat) (dat : Bool) :
    (lineAfter (false, dat) (ICSP_Cmd w)).1 = false := by
  rw [ICSP_Cmd, lineAfter_append]
  have h := lineAfter_controlCode SIX dat
  generalize lineAfter (false, dat) (ICSP_controlCode SIX) = l at h
  obtain ⟨c, d⟩ := l
  simp only at h
  subst h
  exact lineAfter_sendData24 w d

theorem lineAfter_Cmds (ws : List Nat) (dat : Bool) :
    (lineAfter (false, dat) (ICSP_Cmds ws)).1 = false := by
  induction ws generalizing dat with
  | nil => rfl
  | cons w ws ih =>
    rw [Cmds_cons, lineAfter_append]
    have h := lineAfter_Cmd w dat
    generalize lineAfter (false, dat) (ICSP_Cmd w) = l at h
    obtain ⟨c, d⟩ := l
    simp only at h
    subst h
    exact ih d

/-- Every EXECUTE transaction takes 28 clock pulses. -/
theorem clockPulses_Cmds (ws : List Nat) :
    clockPulses false (ICSP_Cmds ws) = 28 * ws.length := by
  induction ws with
  | nil => rfl
  | cons w ws ih =>
    rw [Cmds_cons, clockPulses_append _ _ false false, clockPulses_Cmd, lineAfter_Cmd, ih,
      List.length_cons]
    omega

theorem unlockWR_words : ICSP_unlockWR = ICSP_Cmds unlockWords := by
  simp only [ICSP_unlockWR, unlockWords, Cmds_cons, Cmds_nil, List.append_assoc,
    List.append_nil]

theorem getD_lt_of_mem (buffer : List Nat) (hw : ∀ w, w ∈ buffer → w < 2 ^ 16) (i : Nat) :
    buffer.getD i 0 < 2 ^ 16 := by
  rw [List.getD_eq_getElem?_getD]
  by_cases h : i < buffer.length
  · rw [List.getElem?_eq_getElem h]
    exact hw _ (List.getElem_mem h)
  · rw [List.getElem?_eq_none (by omega)]
    norm_num

theorem stage_lt (a b : Nat) : ((a &&& 0xFF) <<< 8) + (b &&& 0xFF) < 2 ^ 16 := by
  have h1 : a &&& 0xFF ≤ 0xFF := Nat.and_le_right
  have h2 : b &&& 0xFF ≤ 0xFF := Nat.and_le_right
  rw [Nat.shiftLeft_eq]
  omega

theorem sendSIXMov_movWord (lit reg : Nat) (hl : lit < 2 ^ 16) (hr : reg < 256) :
    sendSIXMov_word lit reg = movWord lit reg := by
  rw [sendSIXMov_word_eq lit reg hl hr, movWord, Nat.shiftLeft_eq]

theorem rowWrite_loop_words (buffer : List Nat) (hw : ∀ w, w ∈ buffer → w < 2 ^ 16)
    (n : Nat) : ∀ g0 : Nat,
    ICSP_rowWrite_loop buffer n (4 * g0)
      = ICSP_Cmds ((List.range' g0 n).flatMap (rowWriteGroup buffer)) := by
  induction n with
  | zero => intro g0; rfl
  | succ n ih =>
    intro g0
    have h4 : 4 * g0 + 4 = 4 * (g0 + 1) := by omega
    have hs := stage_lt (buffer.getD (4 * g0 + 3) 0) (buffer.getD (4 * g0 + 1) 0)
    rw [List.range'_succ, List.flatMap_cons, Cmds_append, ← ih (g0 + 1), ← h4]
    simp only [ICSP_rowWrite_loop, rowWriteGroup, tableWriteBlock, sendSIXMov,
      List.cons_append, List.nil_append, Cmds_cons, Cmds_nil, List.append_assoc,
      List.append_nil, Nat.mod_eq_of_lt hs]
    rw [sendSIXMov_movWord _ 0 (getD_lt_of_mem buffer hw _) (by norm_num),
      sendSIXMov_movWord _ 1 hs (by norm_num),
      sendSIXMov_movWord _ 2 (getD_lt_of_mem buffer hw _) (by norm_num)]

theorem rowWrite_words (buffer : List Nat) (count : Nat)
    (hw : ∀ w, w ∈ buffer → w < 2 ^ 16) :
    ICSP_rowWrite buffer count
      = ICSP_Cmds (rowWriteWords buffer count) ++ [delay_ms WRITE_TIME] := by
  have h := rowWrite_loop_words buffer hw (count / 4) 0
  rw [Nat.mul_zero, ← List.range_eq_range'] at h
  rw [ICSP_rowWrite, h, unlockWR_words, rowWriteWords, Cmds_append, Cmds_append, Cmds_cons,
    Cmds_cons, Cmds_nil, List.append_nil]

theorem rowWriteGroup_length (buffer : List Nat) (g : Nat) :
    (rowWriteGroup buffer g).length = 17 := rfl

theorem flatMap_length_const (l : List Nat) (f : Nat → List Nat) (k : Nat)
    (h : ∀ g, (f g).length = k) : (l.flatMap f).length = k * l.length := by
  induction l with
  | nil => rfl
  | cons a l ih =>
    rw [List.flatMap_cons, List.length_append, ih, h, List.length_cons]
    ring

theorem rowWriteWords_length (buffer : List Nat) (count : Nat) :
    (rowWriteWords buffer count).length = 2 + 17 * (count / 4) + 8 := by
  rw [rowWriteWords, List.length_append, List.length_append,
    flatMap_length_const _ _ 17 (rowWriteGroup_length buffer), List.length_range]
  rfl

theorem movWord_lt (lit reg : Nat) (hl : lit < 2 ^ 16) (hr : reg < 16) :
    movWord lit reg < 2 ^ 24 := by
  rw [movWord, Nat.shiftLeft_eq]
  omega

theorem rowWriteWords_lt (buffer : List Nat) (count : Nat)
    (hw : ∀ w, w ∈ buffer → w < 2 ^ 16) :
    ∀ w, w ∈ rowWriteWords buffer count → w < 2 ^ 24 := by
  intro w hmem
  simp only [rowWriteWords, List.mem_append, List.mem_flatMap, List.mem_range] at hmem
  rcases hmem with (h | ⟨g, -, h⟩) | h
  · revert w
    decide
  · simp only [rowWriteGroup, List.mem_append, List.mem_cons, List.mem_singleton,
      List.not_mem_nil, or_false] at h
    rcases h with (h | h | h) | h
    · rw [h]; exact movWord_lt _ 0 (getD_lt_of_mem buffer hw _) (by norm_num)
    · rw [h]; exact movWord_lt _ 1 (stage_lt _ _) (by norm_num)
    · rw [h]; exact movWord_lt _ 2 (getD_lt_of_mem buffer hw _) (by norm_num)
    · revert w
      decide
  · revert w
    decide

/-- C17: for every buffer of 16-bit words and every count, what `ICSP_rowWrite`
emits is exactly the EXECUTE transactions of the stated instruction words, in
order, followed by the write delay: the latch-pointer clear and a no-op; for
each group `g < count / 4`, in buffer order, the move-immediates staging
`word[4g]` into W0, `((word[4g+3] & 0xFF) << 8) + (word[4g+1] & 0xFF)` into W1 and
`word[4g+2]` into W2, followed by the fixed block of 14 instructions, 4 of them
table writes; then the 8 words of the unlock-and-write script.  That is
`2 + 17 * (count / 4) + 8` transactions of 24-bit words, 28 clock pulses each.
For `count = ROW_SIZE` the indices read are 0, 1, ..., `ROW_SIZE - 1`, each
once. -/
theorem C17_rowWrite_transactions (buffer : List Nat) (count : Nat)
    (hw : ∀ w, w ∈ buffer → w < 2 ^ 16) :
    ICSP_rowWrite buffer count
        = ICSP_Cmds (rowWriteWords buffer count) ++ [delay_ms WRITE_TIME]
      ∧ (rowWriteWords buffer count).length = 2 + 17 * (count / 4) + 8
      ∧ (∀ w, w ∈ rowWriteWords buffer count → w < 2 ^ 24)
      ∧ clockPulses false (ICSP_rowWrite buffer count) = 28 * (2 + 17 * (count / 4) + 8)
      ∧ tableWriteBlock.length = 14
      ∧ (tableWriteBlock.filter (fun w => w >>> 16 == 0xBB)).length = 4
      ∧ ICSP_unlockWR = ICSP_Cmds unlockWords ∧ unlockWords.length = 8
      ∧ rowWriteReads ROW_SIZE = List.range ROW_SIZE := by
  refine ⟨rowWrite_words buffer count hw, rowWriteWords_length buffer count,
    rowWriteWords_lt buffer count hw, ?_, rfl, by decide, unlockWR_words, rfl, by decide⟩
  rw [rowWrite_words buffer count hw, clockPulses_append _ _ false false, clockPulses_Cmds,
    rowWriteWords_length]
  rfl

theorem C17_rowWrite_transactions_witness :
    (∀ w, w ∈ [0x1111, 0x2222, 0x3333, 0x4444] → w < 2 ^ 16)
      ∧ ICSP_rowWrite [0x1111, 0x2222, 0x3333, 0x4444] 4
          = ICSP_Cmds (rowWriteWords [0x1111, 0x2222, 0x3333, 0x4444] 4)
              ++ [delay_ms WRITE_TIME]
      ∧ rowWriteWords [0x1111, 0x2222, 0x3333, 0x4444] 4
          = [0xEB0380, 0, 0x211110, 0x244221, 0x233332,
             0xEB0300, 0, 0xBB0BB6, 0, 0, 0xBBDBB6, 0, 0, 0xBBEBB6, 0, 0, 0xBB1BB6, 0, 0,
             0x200551, 0x883971, 0x200AA1, 0x883971, 0xA8E729, 0, 0, 0] :=
  ⟨by decide,
    (C17_rowWrite_transactions [0x1111, 0x2222, 0x3333, 0x4444] 4 (by decide)).1,
    by decide⟩

/-! ## Claim C18 -/

/-- A store beyond the buffer is never undone. -/
theorem spill_overrun_mono (data : List Nat) (fuel : Nat) (c : Pack)
    (h : c.st.overrun = true) : (LVP_packRow_spill data fuel c).st.overrun = true := by
  induction fuel generalizing c with
  | zero => exact h
  | succ fuel ih =>
    simp only [LVP_packRow_spill]
    split
    · apply ih
      simp [LVP_packRow_step, h]
    · exact h

/-- The second copy loop has no bound on `index`: when more than `ROW_SIZE` words
are left over it stores beyond the buffer. -/
theorem spill_overrun (data : List Nat) (fuel : Nat) (c : Pack)
    (hidx : c.index ≤ ROW_SIZE) (heven : c.data_count % 2 = 0)
    (hfuel : c.data_count ≤ 2 * fuel) (hdc : c.data_count < 256)
    (hover : ROW_SIZE < c.index + c.data_count / 2) :
    (LVP_packRow_spill data fuel c).st.overrun = true := by
  have hR : ROW_SIZE = 64 := rfl
  induction fuel generalizing c with
  | zero => omega
  | succ fuel ih =>
    have hpos : c.data_count > 0 := by omega
    simp only [LVP_packRow_spill, hpos, if_true]
    have hd1 : (c.data_count + 2 ^ 8 - 2) % 2 ^ 8 = c.data_count - 2 := by omega
    by_cases h64 : c.index = ROW_SIZE
    · apply spill_overrun_mono
      simp [LVP_packRow_step, h64]
    · have hi1 : (c.index + 1) % 2 ^ 8 = c.index + 1 := by omega
      apply ih
      · simp only [LVP_packRow_step, hi1]; omega
      · simp only [LVP_packRow_step, hd1]; omega
      · simp only [LVP_packRow_step, hd1]; omega
      · simp only [LVP_packRow_step, hd1]; omega
      · simp only [LVP_packRow_step, hd1, hi1]; omega

/-- A write whose words run past the end of the row after the buffered one is
stored beyond the row buffer. -/
theorem packRow_overrun (s : LVP) (address : Nat) (data : List Nat) (n : Nat)
    (hlen : s.row.length = ROW_SIZE) (hidx : LVP_packRow_index address ≤ ROW_SIZE)
    (hover : 2 * ROW_SIZE < LVP_packRow_index address + LVP_packRow_count n / 2) :
    (LVP_packRow address data n s).overrun = true := by
  have hR : ROW_SIZE = 64 := rfl
  have hp : LVP_packRow_count n % 2 = 0 ∧ LVP_packRow_count n < 256 := round_props n
  have hAlen := adoptRow_row_length (LVP_packRow_new_row address) s hlen
  rw [packRow_eq_locals]
  generalize LVP_packRow_index address = idx at hidx hover ⊢
  generalize LVP_packRow_count n = dc at hover hp ⊢
  generalize adoptRow (LVP_packRow_new_row address) s = A at hAlen ⊢
  have hk : min (dc / 2) (ROW_SIZE - idx) = ROW_SIZE - idx := by omega
  have he : idx + (ROW_SIZE - idx) = ROW_SIZE := by omega
  simp only []
  rw [fill_spec data 128 { st := A, pos := 0, index := idx, data_count := dc } hAlen
    (by simp only []; omega) hp.1 (by simp only []; omega) hp.2]
  have h0 : dc - 2 * (ROW_SIZE - idx) > 0 := by omega
  simp only [hk, he, beq_self_eq_true, if_true, Nat.zero_add, h0]
  apply spill_overrun
  · simp only []; omega
  · simp only []; omega
  · simp only []; omega
  · simp only []; omega
  · simp only []; omega

set_option maxRecDepth 100000 in
theorem locals_0x7E_132 :
    (LVP_packRow_locals 0x7E (List.replicate 132 0) 132 (LVP_enter powerOn)).index = 65 := by
  decide

/-- C18 (code at the failing input): in a fresh session, `LVP_packRow` at byte
address 0x7E (offset 63) with 132 bytes stores one word at offset 63 in the first
loop and the other 65 words at the offsets 0 to 64 in the spill-over loop, which
has no bound on the index: `index` ends as 65 and a word was stored at offset
`ROW_SIZE`, outside the row buffer. -/
theorem C18_spill_past_buffer :
    (LVP_enter powerOn).overrun = false
      ∧ LVP_packRow_index 0x7E = 63 ∧ LVP_packRow_count 132 = 132
      ∧ (LVP_packRow_locals 0x7E (List.replicate 132 0) 132 (LVP_enter powerOn)).index = 65
      ∧ (LVP_packRow 0x7E (List.replicate 132 0) 132 (LVP_enter powerOn)).overrun = true :=
  ⟨rfl, by decide, by decide, locals_0x7E_132,
    packRow_overrun (LVP_enter powerOn) 0x7E (List.replicate 132 0) 132 (by decide)
      (by decide) (by decide)⟩

/-! ## Claim C19 -/

/-- In a Released session a commit of a non-blank buffer enters the session and
runs the bulk erase, and that is all: `LVP_enter` has blanked the buffer and
unset the row address before `LVP_write` looks at them. -/
theorem commitRow_released (s : LVP) (hl : s.lvp = false)
    (hnb : ¬ ∀ i, i < ROW_SIZE → s.row.getD i 0 % 2 ^ 16 = 0xffff) :
    LVP_commitRow s = { row := blankRow, row_address := ROW_UNSET, lvp := true,
                        out := s.out ++ enterActs ++ ICSP_bulkErase, overrun := s.overrun } := by
  rw [commitRow_nonblank s hnb, write_released s hl]

theorem pendingState_nonblank (lvp : Bool) :
    ¬ ∀ i, i < ROW_SIZE → (pendingState lvp).row.getD i 0 % 2 ^ 16 = 0xffff := by
  intro h
  cases lvp <;> exact absurd (h 0 (by decide)) (by decide)

/-- C19 (code at the failing input): in a Released session with the word 0x1234
buffered for the row at 64, below the configuration area, `LVP_commitRow` emits
the session entry and the bulk erase and nothing else.  No address is loaded and
no row is written, the buffer is blank and the row address unset afterwards; the
same commit in a Programming session transmits the row at address 64. -/
theorem C19_lazy_entry_loses_row :
    (pendingState false).lvp = false
      ∧ (pendingState false).row_address < CFG_ADDRESS
      ∧ (pendingState false).row.getD 0 0 = 0x1234
      ∧ LVP_commitRow (pendingState false)
          = { row := blankRow, row_address := ROW_UNSET, lvp := true,
              out := enterActs ++ ICSP_bulkErase, overrun := false }
      ∧ (LVP_commitRow (pendingState false)).out
          ≠ enterActs ++ ICSP_bulkErase ++ rowActs 64 (pendingState false).row
      ∧ (LVP_commitRow (pendingState true)).out = rowActs 64 (pendingState true).row := by
  have h := commitRow_released (pendingState false) rfl (pendingState_nonblank false)
  refine ⟨rfl, by decide, rfl, h, ?_, ?_⟩
  · rw [h]
    exact out_ne_append _ _ (rowActs_ne_nil _ _)
  · rw [commitRow_programming (pendingState true) rfl (by decide) (pendingState_nonblank true)]
    rfl

/-! ## Claim C20 -/

theorem commitsActs_nil : commitsActs [] = [] := rfl

theorem commitsActs_snoc (cs : List (Nat × List Nat)) (ra : Nat) (row : List Nat) :
    commitsActs (cs ++ [(ra, row)]) = commitsActs cs ++ commitActs ra row := by
  simp [commitsActs, List.flatMap_append]

theorem wf_commitRow (s : LVP) (h : WellFormed s) : WellFormed (LVP_commitRow s) :=
  ⟨commitRow_row_length s h.1, commitRow_words s h.2⟩

/-- After `LVP_commitRow` the buffer is all 0xFFFF. -/
theorem commitRow_row_blank (s : LVP) (h : WellFormed s) : (LVP_commitRow s).row = blankRow := by
  by_cases hb : ∀ i, i < ROW_SIZE → s.row.getD i 0 % 2 ^ 16 = 0xffff
  · rw [commitRow_blank s hb]
    exact eq_blankRow_of_blank s.row h.1 h.2 hb
  · rw [commitRow_nonblank s hb]

theorem emitted_frame (s0 s t : LVP) (h : Emitted s0 s) (hl : t.lvp = s.lvp)
    (ho : t.out = s.out) : Emitted s0 t := by
  unfold Emitted at h ⊢
  rw [hl, ho]
  exact h

theorem emitted_commitRow (s0 s : LVP) (hwf : WellFormed s) (h : Emitted s0 s) :
    Emitted s0 (LVP_commitRow s) := by
  rcases h with ⟨h0, hl, cs, ho⟩ | ⟨h0, hl, ho⟩ | ⟨h0, hl, cs, ho⟩
  · refine Or.inl ⟨h0, ?_, cs ++ [(s.row_address, s.row)], ?_⟩
    · rw [commitRow_active_eq s hl hwf.1 hwf.2]
      exact hl
    · rw [commitRow_active_eq s hl hwf.1 hwf.2, commitsActs_snoc, ← List.append_assoc, ← ho]
  · by_cases hb : ∀ i, i < ROW_SIZE → s.row.getD i 0 % 2 ^ 16 = 0xffff
    · rw [commitRow_blank s hb]
      exact Or.inr (Or.inl ⟨h0, hl, ho⟩)
    · refine Or.inr (Or.inr ⟨h0, ?_, [], ?_⟩)
      · rw [commitRow_released s hl hb]
      · rw [commitRow_released s hl hb, commitsActs_nil, List.append_nil, ← ho,
          List.append_assoc]
  · refine Or.inr (Or.inr ⟨h0, ?_, cs ++ [(s.row_address, s.row)], ?_⟩)
    · rw [commitRow_active_eq s hl hwf.1 hwf.2]
      exact hl
    · rw [commitRow_active_eq s hl hwf.1 hwf.2, commitsActs_snoc, ← List.append_assoc, ← ho]

theorem wf_step (data : List Nat) (c : Pack) (h : WellFormed c.st) :
    WellFormed (LVP_packRow_step data c).st := by
  refine ⟨?_, ?_⟩
  · simp only [LVP_packRow_step, List.length_set]
    exact h.1
  · intro i hi
    simp only [LVP_packRow_step]
    rw [getD_set]
    split
    · exact packRow_word_lt data c.pos
    · exact h.2 i hi

theorem wf_fill (data : List Nat) (fuel : Nat) (c : Pack) (h : WellFormed c.st) :
    WellFormed (LVP_packRow_fill data fuel c).st := by
  induction fuel generalizing c with
  | zero => exact h
  | succ fuel ih =>
    simp only [LVP_packRow_fill]
    split
    · exact ih _ (wf_step data c h)
    · exact h

theorem wf_spill (data : List Nat) (fuel : Nat) (c : Pack) (h : WellFormed c.st) :
    WellFormed (LVP_packRow_spill data fuel c).st := by
  induction fuel generalizing c with
  | zero => exact h
  | succ fuel ih =>
    simp only [LVP_packRow_spill]
    split
    · exact ih _ (wf_step data c h)
    · exact h

theorem wf_adoptRow (nr : Nat) (s : LVP) (h : WellFormed s) : WellFormed (adoptRow nr s) :=
  ⟨adoptRow_row_length nr s h.1, adoptRow_words nr s h.2⟩

theorem emitted_adoptRow (s0 s : LVP) (nr : Nat) (hwf : WellFormed s) (h : Emitted s0 s) :
    Emitted s0 (adoptRow nr s) := by
  unfold adoptRow
  split
  · exact emitted_frame s0 (LVP_commitRow s) _ (emitted_commitRow s0 s hwf h) rfl rfl
  · exact h

/-- One `LVP_packRow` call keeps the buffer well formed and the emitted activity
of the stated shape, whatever the address, the data and the count. -/
theorem packRow_emitted (s0 s : LVP) (address : Nat) (data : List Nat) (n : Nat)
    (hwf : WellFormed s) (h : Emitted s0 s) :
    WellFormed (LVP_packRow address data n s)
      ∧ Emitted s0 (LVP_packRow address data n s) := by
  have hA := wf_adoptRow (LVP_packRow_new_row address) s hwf
  have hAe := emitted_adoptRow s0 s (LVP_packRow_new_row address) hwf h
  rw [packRow_eq_locals]
  generalize adoptRow (LVP_packRow_new_row address) s = A at hA hAe
  have hcw := wf_fill data 128
    { st := A, pos := 0, index := LVP_packRow_index address,
      data_count := LVP_packRow_count n } hA
  have hcf := fill_frame data 128
    { st := A, pos := 0, index := LVP_packRow_index address,
      data_count := LVP_packRow_count n }
  simp only []
  generalize LVP_packRow_fill data 128
    { st := A, pos := 0, index := LVP_packRow_index address,
      data_count := LVP_packRow_count n } = c at hcw hcf
  simp only [] at hcf
  have hce : Emitted s0 c.st := emitted_frame s0 A c.st hAe hcf.2.1 hcf.2.2.1
  have h2w := wf_commitRow c.st hcw
  have h2e := emitted_commitRow s0 c.st hcw hce
  generalize LVP_commitRow c.st = s2 at h2w h2e
  split
  · split
    · have hsw := wf_spill data 128
        { c with st := { s2 with row_address := (s2.row_address + ROW_SIZE) % 2 ^ 32 },
                 index := 0 } h2w
      have hsf := spill_frame data 128
        { c with st := { s2 with row_address := (s2.row_address + ROW_SIZE) % 2 ^ 32 },
                 index := 0 }
      exact ⟨hsw, emitted_frame s0 s2 _ h2e hsf.2.1 hsf.2.2.1⟩
    · exact ⟨h2w, h2e⟩
  · exact ⟨hcw, hce⟩

theorem packRows_emitted (calls : List (Nat × List Nat × Nat)) (s0 s : LVP)
    (hwf : WellFormed s) (h : Emitted s0 s) :
    WellFormed (packRows calls s) ∧ Emitted s0 (packRows calls s) := by
  induction calls generalizing s with
  | nil => exact ⟨hwf, h⟩
  | cons c rest ih =>
    have hp := packRow_emitted s0 s c.1 c.2.1 c.2.2 hwf h
    exact ih _ hp.1 hp.2

theorem emitted_refl (s : LVP) : Emitted s s := by
  cases hl : s.lvp
  · exact Or.inr (Or.inl ⟨hl, hl, rfl⟩)
  · refine Or.inl ⟨hl, hl, [], ?_⟩
    rw [commitsActs_nil, List.append_nil]

/-- A whole image: any sequence of `LVP_packRow` calls ended by
`LVP_programLastRow`. -/
theorem image_emitted (calls : List (Nat × List Nat × Nat)) (s : LVP) (hwf : WellFormed s) :
    (LVP_programLastRow (packRows calls s)).lvp = false
      ∧ (LVP_programLastRow (packRows calls s)).row = blankRow
      ∧ ((s.lvp = true
            ∧ ∃ cs, (LVP_programLastRow (packRows calls s)).out
                = s.out ++ commitsActs cs ++ exitActs)
          ∨ (s.lvp = false
            ∧ (LVP_programLastRow (packRows calls s)).out = s.out ++ exitActs)
          ∨ (s.lvp = false
            ∧ ∃ cs, (LVP_programLastRow (packRows calls s)).out
                = s.out ++ (enterActs ++ ICSP_bulkErase) ++ commitsActs cs ++ exitActs)) := by
  have hp := packRows_emitted calls s s hwf (emitted_refl s)
  generalize packRows calls s = S at hp
  have hrow := commitRow_row_blank S hp.1
  have he := emitted_commitRow s S hp.1 hp.2
  rw [LVP_programLastRow, exit_eq]
  generalize LVP_commitRow S = S2 at hrow he
  refine ⟨rfl, hrow, ?_⟩
  rcases he with ⟨h0, -, cs, ho⟩ | ⟨h0, -, ho⟩ | ⟨h0, -, cs, ho⟩
  · exact Or.inl ⟨h0, cs, by rw [← ho]⟩
  · exact Or.inr (Or.inl ⟨h0, by rw [← ho]⟩)
  · exact Or.inr (Or.inr ⟨h0, cs, by rw [← ho]⟩)

/-- A sequence of `LVP_packRow` calls none of which stores outside the row
buffer leaves the overrun flag as it was. -/
theorem packRows_no_overrun (calls : List (Nat × List Nat × Nat)) (s0 s : LVP)
    (hwf : WellFormed s) (h : Emitted s0 s)
    (hin : ∀ c, c ∈ calls → ROW_SIZE < LVP_packRow_index c.1
      ∨ LVP_packRow_index c.1 + LVP_packRow_count c.2.2 / 2 ≤ 2 * ROW_SIZE) :
    (packRows calls s).overrun = s.overrun := by
  induction calls generalizing s with
  | nil => rfl
  | cons c rest ih =>
    have hp := packRow_emitted s0 s c.1 c.2.1 c.2.2 hwf h
    have hc := packRow_no_overrun s c.1 c.2.1 c.2.2 hwf.1 (hin c (List.mem_cons_self _ _))
    exact (ih _ hp.1 hp.2 (fun d hd => hin d (List.mem_cons_of_mem _ hd))).trans hc

theorem programLastRow_overrun (s : LVP) : (LVP_programLastRow s).overrun = s.overrun := by
  rw [LVP_programLastRow, exit_eq]
  exact commitRow_overrun s

/-- C20: for every sequence of `LVP_packRow` calls ended by `LVP_programLastRow`,
from any state whose row buffer is well formed, in which no call stores outside
the row buffer (each call has its offset beyond `ROW_SIZE`, so that nothing is
copied, or its words end within the row after the buffered one), no store falls
outside the buffer, the session is Released and the buffer all 0xFFFF
afterwards, and the pin activity added is of one of three shapes.  Started
Programming: transmissions of commits (address loads and row writes), then the
exit handshake; no bulk erase.  Started Released: either the exit handshake
alone, when no commit found a non-blank buffer, or the session entry and one
bulk erase, then only transmissions of commits, then the exit handshake.  So the
bulk erase is issued at most once, only from a Released session, and before
every row write. -/
theorem C20_erase_once_before_rows (calls : List (Nat × List Nat × Nat)) (s : LVP)
    (hwf : WellFormed s)
    (hin : ∀ c, c ∈ calls → ROW_SIZE < LVP_packRow_index c.1
      ∨ LVP_packRow_index c.1 + LVP_packRow_count c.2.2 / 2 ≤ 2 * ROW_SIZE) :
    (LVP_programLastRow (packRows calls s)).overrun = s.overrun
      ∧ (LVP_programLastRow (packRows calls s)).lvp = false
      ∧ (LVP_programLastRow (packRows calls s)).row = blankRow
      ∧ ((s.lvp = true
            ∧ ∃ cs, (LVP_programLastRow (packRows calls s)).out
                = s.out ++ commitsActs cs ++ exitActs)
          ∨ (s.lvp = false
            ∧ (LVP_programLastRow (packRows calls s)).out = s.out ++ exitActs)
          ∨ (s.lvp = false
            ∧ ∃ cs, (LVP_programLastRow (packRows calls s)).out
                = s.out ++ (enterActs ++ ICSP_bulkErase) ++ commitsActs cs ++ exitActs)) :=
  ⟨(programLastRow_overrun _).trans (packRows_no_overrun calls s s hwf (emitted_refl s) hin),
    image_emitted calls s hwf⟩

theorem C20_erase_once_before_rows_witness :
    WellFormed powerOn
      ∧ (∀ c, c ∈ [(0, [0x11, 0x22], 2), (0x100, [0x33, 0x44], 2)] →
          ROW_SIZE < LVP_packRow_index c.1
            ∨ LVP_packRow_index c.1 + LVP_packRow_count c.2.2 / 2 ≤ 2 * ROW_SIZE)
      ∧ (LVP_programLastRow
          (packRows [(0, [0x11, 0x22], 2), (0x100, [0x33, 0x44], 2)] powerOn)).lvp = false
      ∧ (LVP_programLastRow
          (packRows [(0, [0x11, 0x22], 2), (0x100, [0x33, 0x44], 2)] powerOn)).row
            = blankRow :=
  ⟨⟨by decide, by decide⟩, by decide,
    (C20_erase_once_before_rows [(0, [0x11, 0x22], 2), (0x100, [0x33, 0x44], 2)] powerOn
      ⟨by decide, by decide⟩ (by decide)).2.1,
    (C20_erase_once_before_rows [(0, [0x11, 0x22], 2), (0x100, [0x33, 0x44], 2)] powerOn
      ⟨by decide, by decide⟩ (by decide)).2.2.1⟩

end LvpGs706
